import Mathlib

/-!
# Scapegoat tree (`scapegoat.go`): heap-level embedding and verified properties

The Go program stores the tree in heap cells linked by `left`, `right` and
`parent` pointers and mutates them in place.  The embedding keeps that level
of detail: memory is a list of cells, a pointer is the index of a cell
(`none` is Go's `nil`), allocation appends a cell, and every pointer
dereference is a partial lookup.  Loops and recursive helpers of the source
become structurally recursive functions on a step budget; the public
operations hand out a budget of one step per allocated cell, and the
theorems prove that this budget is never exhausted on a reachable state.

Modelling conventions.
* Keys are the values of a linearly ordered type (the spec's "total order and
  equality" capability); a floating point NaN key is outside this model.
* `int` and `uint64` fields are unbounded integers: a wrap-around needs more
  than `2^63` completed calls.
* `float64` is the type `F64` (dyadic rationals, the infinities and NaN); the
  single floating point test of the program, `float64(depth) >
  logToBase(float64(q), alpha)`, is read in exact real arithmetic
  (`exceedsLog`).
* A cell that was allocated but never linked cannot be observed; `Insert`
  returns the untouched state when the key is a duplicate.
-/

namespace scapegoat

/-- Pointer to a heap cell: the index of the cell, or `none` for `nil`. -/
abbrev Ptr := Option Nat

/-- Cell of the tree, `type node[T]` of the source. -/
structure node (K : Type) where
  left : Ptr
  right : Ptr
  parent : Ptr
  key : K
deriving DecidableEq, Repr

/-- Counters kept by the tree, `type stats` of the source. -/
structure stats where
  TotalRebalances : Nat
  TotalRebalancesAfterInsert : Nat
  TotalRebalancesAfterRemove : Nat
  TotalInserts : Nat
  TotalRemovals : Nat
  TotalSearches : Nat
deriving DecidableEq, Repr

/-- Values of a `float64`: `fin m e` is the dyadic rational `m * 2^e`. -/
inductive F64 where
  | fin (m : Int) (e : Int)
  | pinf
  | ninf
  | nan
deriving DecidableEq, Repr

/-- The two error values of the package. -/
inductive Err where
  | ConstraintErr
  | AlphaValueErr
deriving DecidableEq, Repr

/-- The container, `type Scapegoat[T]` of the source, together with the
memory its cells live in. -/
structure Scapegoat (K : Type) where
  mem : List (node K)
  root : Ptr
  alpha : F64
  n : Int
  q : Int
  Stats : stats
deriving DecidableEq, Repr

/-- The constant `DefaultAlpha = 1.5`, that is `3 * 2^(-1)`. -/
def DefaultAlpha : F64 := F64.fin 3 (-1)

/-- The comparison `alpha <= 0` on `float64` (false for NaN). -/
def F64.le0 : F64 → Bool
  | F64.fin m _ => decide (m ≤ 0)
  | F64.pinf => false
  | F64.ninf => true
  | F64.nan => false

/-- The comparison `0 < alpha` on `float64` (false for NaN). -/
def F64.pos : F64 → Bool
  | F64.fin m _ => decide (0 < m)
  | F64.pinf => true
  | F64.ninf => false
  | F64.nan => false

/-- Sign classes of the value returned by `math.Log`. -/
inductive LogVal where
  | nan
  | ninf
  | neg
  | zero
  | pos
  | pinf
deriving DecidableEq, Repr

/-- Class of `math.Log(float64(q))` for a Go `int` value `q`. -/
def logOfInt (q : Int) : LogVal :=
  if q < 0 then LogVal.nan
  else if q = 0 then LogVal.ninf
  else if q = 1 then LogVal.zero
  else LogVal.pos

/-- Class of `math.Log(b)` for a `float64` value `b`. -/
def logOfF64 : F64 → LogVal
  | F64.nan => LogVal.nan
  | F64.ninf => LogVal.nan
  | F64.pinf => LogVal.pinf
  | F64.fin m e =>
    if m < 0 then LogVal.nan
    else if m = 0 then LogVal.ninf
    else if m.toNat * 2 ^ e.toNat < 2 ^ (-e).toNat then LogVal.neg
    else if m.toNat * 2 ^ e.toNat = 2 ^ (-e).toNat then LogVal.zero
    else LogVal.pos

/-- The test `(m * 2^e)^d > q` for `m > 0`, in integer arithmetic. -/
def powExceeds (m e : Int) (d : Nat) (q : Int) : Bool :=
  decide (q.toNat * 2 ^ (-(e * d)).toNat < m.toNat ^ d * 2 ^ (e * d).toNat)

/-- The test `float64(depth) > logToBase(float64(q), alpha)` of `Insert`, with
`logToBase(x, b) = math.Log(x) / math.Log(b)`, read in exact arithmetic: for
two positive finite logarithms `d > log q / log alpha` is `alpha^d > q`; the
other rows follow the IEEE rules for zero, infinite and NaN operands. -/
def exceedsLog (depth : Nat) (q : Int) (alpha : F64) : Bool :=
  match logOfInt q, logOfF64 alpha with
  | LogVal.nan, _ => false
  | _, LogVal.nan => false
  | LogVal.ninf, LogVal.zero => true
  | LogVal.ninf, LogVal.pos => true
  | LogVal.ninf, _ => false
  | LogVal.zero, LogVal.zero => false
  | LogVal.zero, _ => decide (0 < depth)
  | LogVal.pos, LogVal.ninf => decide (0 < depth)
  | LogVal.pos, LogVal.neg => true
  | LogVal.pos, LogVal.zero => false
  | LogVal.pos, LogVal.pos =>
    match alpha with
    | F64.fin m e => powExceeds m e depth q
    | _ => false
  | LogVal.pos, LogVal.pinf => decide (0 < depth)
  | _, _ => false

/-- Read the cell a pointer refers to; a `nil` or dangling pointer faults. -/
def load {K : Type} (mem : List (node K)) (p : Ptr) : Option (node K) :=
  match p with
  | none => none
  | some a => mem[a]?

/-- Overwrite fields of the cell a pointer refers to. -/
def store {K : Type} (mem : List (node K)) (p : Ptr) (f : node K → node K) :
    Option (List (node K)) :=
  match p with
  | none => none
  | some a =>
    match mem[a]? with
    | none => none
    | some c => some (mem.set a (f c))

/-- Function `New`: rejects `alpha <= 0`, otherwise the empty tree. -/
def New (K : Type) (alpha : F64) : Except Err (Scapegoat K) :=
  if alpha.le0 then Except.error Err.AlphaValueErr
  else Except.ok
    { mem := [], root := none, alpha := alpha, n := 0, q := 0,
      Stats := ⟨0, 0, 0, 0, 0, 0⟩ }

section ops
variable {K : Type} [LinearOrder K]

/-- The loop of `searchHelper`, started at `currentNode`. -/
def searchLoop (mem : List (node K)) (key : K) : Nat → Ptr → Option Bool
  | _, none => some false
  | 0, some _ => none
  | fuel + 1, some c =>
    match mem[c]? with
    | none => none
    | some cell =>
      if cell.key = key then some true
      else if key < cell.key then searchLoop mem key fuel cell.left
      else searchLoop mem key fuel cell.right

/-- Function `searchHelper(key, logStat)`. -/
def searchHelper (s : Scapegoat K) (key : K) (logStat : Bool) :
    Option (Scapegoat K × Bool) :=
  match searchLoop s.mem key s.mem.length s.root with
  | none => none
  | some found =>
    if logStat then
      some ({ s with Stats := { s.Stats with TotalSearches := s.Stats.TotalSearches + 1 } },
        found)
    else some (s, found)

/-- Function `Search(key)`. -/
def Search (s : Scapegoat K) (key : K) : Option (Scapegoat K × Bool) :=
  searchHelper s key true

/-- Function `sizeOfSubtree(node)`. -/
def sizeOfSubtree (mem : List (node K)) : Nat → Ptr → Option Nat
  | _, none => some 0
  | 0, some _ => none
  | fuel + 1, some a =>
    match mem[a]? with
    | none => none
    | some cell =>
      match sizeOfSubtree mem fuel cell.left, sizeOfSubtree mem fuel cell.right with
      | some l, some r => some (1 + l + r)
      | _, _ => none

/-- Function `findScapegoat(node)`: walk up while `3*size(node) <= 2*size(node.parent)`.
Reading `node.parent` faults when `node` is `nil`. -/
def findScapegoat (mem : List (node K)) : Nat → Ptr → Option Ptr
  | fuel, nd =>
    match load mem nd with
    | none => none
    | some cell =>
      match sizeOfSubtree mem mem.length nd, sizeOfSubtree mem mem.length cell.parent with
      | some a, some b =>
        if 3 * a ≤ 2 * b then
          match fuel with
          | 0 => none
          | f + 1 => findScapegoat mem f cell.parent
        else some nd
      | _, _ => none

/-- Function `flatten(node, nodes)`: appends copies of the cells in order. -/
def flatten (mem : List (node K)) : Nat → Ptr → List (node K) → Option (List (node K))
  | _, none, nodes => some nodes
  | 0, some _, _ => none
  | fuel + 1, some a, nodes =>
    match mem[a]? with
    | none => none
    | some cell =>
      match flatten mem fuel cell.left nodes with
      | none => none
      | some nodes1 => flatten mem fuel cell.right (nodes1 ++ [cell])

/-- Function `buildTreeFromSortedList(nodes, start, end)`: the fresh cell is allocated
first, then the left and the right subtree are built and linked.  The built
cells have no parent pointer. -/
def buildTreeFromSortedList (nodes : List (node K)) :
    Nat → List (node K) → Int → Int → Option (List (node K) × Ptr)
  | 0, mem, start, end_ => if start > end_ then some (mem, none) else none
  | fuel + 1, mem, start, end_ =>
    if start > end_ then some (mem, none)
    else
      let mid := start + (end_ - start).tdiv 2
      if mid < 0 then none
      else
        match nodes[mid.toNat]? with
        | none => none
        | some src =>
          let nd : Ptr := some mem.length
          let mem1 := mem ++ [{ left := none, right := none, parent := none, key := src.key }]
          match buildTreeFromSortedList nodes fuel mem1 start (mid - 1) with
          | none => none
          | some (mem2, l) =>
            match store mem2 nd (fun c => { c with left := l }) with
            | none => none
            | some mem3 =>
              match buildTreeFromSortedList nodes fuel mem3 (mid + 1) end_ with
              | none => none
              | some (mem4, r) =>
                match store mem4 nd (fun c => { c with right := r }) with
                | none => none
                | some mem5 => some (mem5, nd)

/-- Function `rebalance(root)`: count the rebuild, flatten, build a fresh tree. -/
def rebalance (s : Scapegoat K) (root : Ptr) : Option (Scapegoat K × Ptr) :=
  let s1 := { s with Stats := { s.Stats with TotalRebalances := s.Stats.TotalRebalances + 1 } }
  match flatten s1.mem s1.mem.length root [] with
  | none => none
  | some nodes =>
    match buildTreeFromSortedList nodes nodes.length s1.mem 0 ((nodes.length : Int) - 1) with
    | none => none
    | some (mem1, p) => some ({ s1 with mem := mem1 }, p)

/-- The descent loop of `Insert`: returns `potentialParent` and `depth`. -/
def descend (mem : List (node K)) (key : K) : Nat → Ptr → Ptr → Nat → Option (Ptr × Nat)
  | _, none, potentialParent, depth => some (potentialParent, depth)
  | 0, some _, _, _ => none
  | fuel + 1, some c, _, depth =>
    match mem[c]? with
    | none => none
    | some cell =>
      if key < cell.key then descend mem key fuel cell.left (some c) (depth + 1)
      else descend mem key fuel cell.right (some c) (depth + 1)

/-- The first half of `Insert` after the duplicate check: link `newNode`
(already allocated, the last cell of `mem`) below the root; returns the
memory, the root and the depth counted by the loop. -/
def link (mem : List (node K)) (root newNode : Ptr) (key : K) :
    Option (List (node K) × Ptr × Nat) :=
  if root = none then some (mem, newNode, 0)
  else
    match descend mem key mem.length root none 0 with
    | none => none
    | some (potentialParent, depth) =>
      match store mem newNode (fun c => { c with parent := potentialParent }) with
      | none => none
      | some m1 =>
        match load m1 newNode with
        | none => none
        | some nc =>
          match load m1 nc.parent with
          | none => none
          | some pc =>
            match (if nc.key < pc.key
                then store m1 nc.parent (fun c => { c with left := newNode })
                else store m1 nc.parent (fun c => { c with right := newNode })) with
            | none => none
            | some m2 =>
              match store m2 newNode (fun c => { c with left := none }) with
              | none => none
              | some m3 =>
                match store m3 newNode (fun c => { c with right := none }) with
                | none => none
                | some m4 => some (m4, root, depth)

/-- The pointer assignments of `Insert` after `tmp := s.rebalance(scapegoat)`. -/
def splice (mem : List (node K)) (scapegoat tmp : Ptr) : Option (List (node K)) :=
  match load mem tmp with
  | none => none
  | some t1 =>
    match store mem scapegoat (fun c => { c with left := t1.left }) with
    | none => none
    | some m1 =>
      match load m1 tmp with
      | none => none
      | some t2 =>
        match store m1 scapegoat (fun c => { c with right := t2.right }) with
        | none => none
        | some m2 =>
          match load m2 tmp with
          | none => none
          | some t3 =>
            match store m2 scapegoat (fun c => { c with key := t3.key }) with
            | none => none
            | some m3 =>
              match load m3 scapegoat with
              | none => none
              | some c3 =>
                match (if c3.left ≠ none
                    then store m3 c3.left (fun c => { c with parent := scapegoat })
                    else some m3) with
                | none => none
                | some m4 =>
                  match load m4 scapegoat with
                  | none => none
                  | some c4 =>
                    if c4.right ≠ none
                    then store m4 c4.right (fun c => { c with parent := scapegoat })
                    else some m4

/-- Function `Insert(key)`; the second component is the returned `error`
(`none` is `nil`). -/
def Insert (s : Scapegoat K) (key : K) : Option (Scapegoat K × Option Err) :=
  let newNode : Ptr := some s.mem.length
  let s0 := { s with mem := s.mem ++ [{ left := none, right := none, parent := none, key := key }] }
  match searchHelper s0 key false with
  | none => none
  | some (_, true) => some (s, none)
  | some (_, false) =>
    match link s0.mem s0.root newNode key with
    | none => none
    | some (m, root, depth) =>
      let s1 := { s0 with
        mem := m, root := root,
        Stats := { s0.Stats with TotalInserts := s0.Stats.TotalInserts + 1 },
        n := s0.n + 1, q := s0.q + 1 }
      if exceedsLog depth s1.q s1.alpha then
        match findScapegoat s1.mem s1.mem.length newNode with
        | none => none
        | some none => some (s1, none)
        | some (some sg) =>
          let s2 := { s1 with Stats := { s1.Stats with
            TotalRebalancesAfterInsert := s1.Stats.TotalRebalancesAfterInsert + 1 } }
          match rebalance s2 (some sg) with
          | none => none
          | some (s3, tmp) =>
            match splice s3.mem (some sg) tmp with
            | none => none
            | some m5 =>
              let s4 := { s3 with mem := m5 }
              if ¬ (s4.q.tdiv 2 ≤ s4.n ∧ s4.n ≤ s4.q) then some (s4, some Err.ConstraintErr)
              else some (s4, none)
      else some (s1, none)

/-- The closure `getMinKey` of `Remove`. -/
def getMinKey (mem : List (node K)) : Nat → Ptr → Option Ptr
  | fuel, nd =>
    match load mem nd with
    | none => none
    | some cell =>
      if cell.left ≠ none then
        match fuel with
        | 0 => none
        | f + 1 => getMinKey mem f cell.left
      else some nd

/-- The search loop of the closure `remove`: returns `parent` and `current`. -/
def removeLoop (mem : List (node K)) (key : K) : Nat → Ptr → Ptr → Option (Ptr × Ptr)
  | _, parent, none => some (parent, none)
  | 0, _, some _ => none
  | fuel + 1, parent, some c =>
    match mem[c]? with
    | none => none
    | some cell =>
      if cell.key ≠ key then
        if key < cell.key then removeLoop mem key fuel (some c) cell.left
        else removeLoop mem key fuel (some c) cell.right
      else some (parent, some c)

/-- The closure `remove` of `Remove`; the budget bounds its recursion depth. -/
def remove : Nat → Scapegoat K → K → Option (Scapegoat K × Bool)
  | fuel, s, key =>
    match removeLoop s.mem key s.mem.length none s.root with
    | none => none
    | some (_, none) => some (s, false)
    | some (parent, some cur) =>
      match s.mem[cur]? with
      | none => none
      | some cc =>
        if cc.left = none ∧ cc.right = none then
          if some cur ≠ s.root then
            match load s.mem parent with
            | none => none
            | some pc =>
              match (if pc.left = some cur
                  then store s.mem parent (fun c => { c with left := none })
                  else store s.mem parent (fun c => { c with right := none })) with
              | none => none
              | some m => some ({ s with mem := m }, true)
          else some ({ s with root := none }, true)
        else if cc.left ≠ none ∧ cc.right ≠ none then
          match fuel with
          | 0 => none
          | f + 1 =>
            match getMinKey s.mem s.mem.length cc.right with
            | none => none
            | some successor =>
              match load s.mem successor with
              | none => none
              | some sc =>
                match remove f s sc.key with
                | none => none
                | some (s1, _) =>
                  match store s1.mem (some cur) (fun c => { c with key := sc.key }) with
                  | none => none
                  | some m => some ({ s1 with mem := m }, true)
        else
          let child : Ptr := if cc.left ≠ none then cc.left else cc.right
          if some cur ≠ s.root then
            match load s.mem parent with
            | none => none
            | some pc =>
              match (if some cur = pc.left
                  then store s.mem parent (fun c => { c with left := child })
                  else store s.mem parent (fun c => { c with right := child })) with
              | none => none
              | some m => some ({ s with mem := m }, true)
          else some ({ s with root := child }, true)

/-- Function `Remove(key)`. -/
def Remove (s : Scapegoat K) (key : K) : Option (Scapegoat K × Bool) :=
  match remove s.mem.length s key with
  | none => none
  | some (s1, false) => some (s1, false)
  | some (s1, true) =>
    let s2 := { s1 with
      Stats := { s1.Stats with TotalRemovals := s1.Stats.TotalRemovals + 1 },
      n := s1.n - 1 }
    if s2.n ≤ s2.q.tdiv 2 then
      let s3 := { s2 with Stats := { s2.Stats with
        TotalRebalancesAfterRemove := s2.Stats.TotalRebalancesAfterRemove + 1 } }
      match rebalance s3 s3.root with
      | none => none
      | some (s4, r) => some ({ s4 with root := r, q := s4.n }, true)
    else some (s2, true)

/-- Keys met by the in-order traversal from the root along `left` and
`right` links (the empty list when the traversal faults). -/
def keys (s : Scapegoat K) : List K :=
  match flatten s.mem s.mem.length s.root [] with
  | none => []
  | some nodes => nodes.map node.key

end ops


/-! ## Abstraction: the tree a memory region represents -/

/-- Binary trees whose nodes record the address of their cell. -/
inductive Shape (K : Type) where
  | nil
  | node (a : Nat) (l : Shape K) (k : K) (r : Shape K)

namespace Shape
variable {K : Type}

/-- Pointer to the root cell of a shape. -/
def ptr : Shape K → Ptr
  | nil => none
  | node a _ _ _ => some a

/-- In-order key sequence. -/
def keys : Shape K → List K
  | nil => []
  | node _ l k r => l.keys ++ k :: r.keys

/-- Addresses of the cells of a shape. -/
def addrs : Shape K → List Nat
  | nil => []
  | node a l _ r => a :: (l.addrs ++ r.addrs)

/-- Number of nodes. -/
def size : Shape K → Nat
  | nil => 0
  | node _ l _ r => 1 + l.size + r.size

variable [LinearOrder K]

/-- Subtree found at the end of the search path of `key`: the node holding
`key`, or `nil` when the path leaves the tree. -/
def sub (key : K) : Shape K → Shape K
  | nil => nil
  | node a l k r => if k = key then node a l k r else if key < k then l.sub key else r.sub key

/-- Replace the subtree at the end of the search path of `key` by `u`. -/
def graft (key : K) : Shape K → Shape K → Shape K
  | nil, u => u
  | node a l k r, u =>
    if k = key then u
    else if key < k then node a (l.graft key u) k r
    else node a l k (r.graft key u)

/-- Last cell passed on the search path of `key` before its end; `par` when
the path ends at the root. -/
def parentOf (key : K) : Shape K → Ptr → Ptr
  | nil, par => par
  | node a l k r, par =>
    if k = key then par
    else if key < k then l.parentOf key (some a) else r.parentOf key (some a)

/-- Number of edges on the search path of `key`. -/
def depthOf (key : K) : Shape K → Nat
  | nil => 0
  | node _ l k r => if k = key then 0 else if key < k then l.depthOf key + 1 else r.depthOf key + 1

end Shape

/-- The cells of `t` are in memory with the keys and child links of `t`. -/
def Rep {K : Type} (mem : List (node K)) : Shape K → Prop
  | Shape.nil => True
  | Shape.node a l k r =>
    (∃ c, mem[a]? = some c ∧ c.key = k ∧ c.left = l.ptr ∧ c.right = r.ptr) ∧
      Rep mem l ∧ Rep mem r

/-- Allocation discipline of the program: child pointers refer to cells
allocated later than their owner, parent pointers to cells allocated
earlier. -/
def WellLinked {K : Type} (mem : List (node K)) : Prop :=
  ∀ a c, mem[a]? = some c →
    (∀ x, c.left = some x → a < x ∧ x < mem.length) ∧
    (∀ x, c.right = some x → a < x ∧ x < mem.length) ∧
    (∀ x, c.parent = some x → x < a)

/-- Number of cells from a pointer to the end of memory. -/
def room {K : Type} (mem : List (node K)) : Ptr → Nat
  | none => 0
  | some a => mem.length - a

/-- Invariant of the container: memory is well linked, the root represents a
search tree with `n` nodes, and `q/2 <= n <= q`. -/
def Inv {K : Type} [LinearOrder K] (s : Scapegoat K) : Prop :=
  WellLinked s.mem ∧
  ∃ t : Shape K, Rep s.mem t ∧ t.ptr = s.root ∧ t.keys.Sorted (· < ·) ∧
    s.n = t.size ∧ s.q.tdiv 2 ≤ s.n ∧ s.n ≤ s.q

/-- The counters after a successful `Insert`. -/
def statsAfterInsert (st : stats) (rebuilt : Bool) : stats :=
  if rebuilt then
    { st with
      TotalInserts := st.TotalInserts + 1,
      TotalRebalances := st.TotalRebalances + 1,
      TotalRebalancesAfterInsert := st.TotalRebalancesAfterInsert + 1 }
  else { st with TotalInserts := st.TotalInserts + 1 }

/-- The counters after a successful `Remove`. -/
def statsAfterRemove (st : stats) (rebuilt : Bool) : stats :=
  if rebuilt then
    { st with
      TotalRemovals := st.TotalRemovals + 1,
      TotalRebalances := st.TotalRebalances + 1,
      TotalRebalancesAfterRemove := st.TotalRebalancesAfterRemove + 1 }
  else { st with TotalRemovals := st.TotalRemovals + 1 }

/-- States reachable from `New` by `Insert`, `Remove` and `Search` calls. -/
inductive Reachable {K : Type} [LinearOrder K] : Scapegoat K → Prop where
  | init (alpha : F64) (s : Scapegoat K) : New K alpha = Except.ok s → Reachable s
  | insert (s s1 : Scapegoat K) (k : K) (e : Option Err) :
      Reachable s → Insert s k = some (s1, e) → Reachable s1
  | remove (s s1 : Scapegoat K) (k : K) (b : Bool) :
      Reachable s → Remove s k = some (s1, b) → Reachable s1
  | search (s s1 : Scapegoat K) (k : K) (b : Bool) :
      Reachable s → Search s k = some (s1, b) → Reachable s1


/-! ## Call sequences and the test scenarios of the repository -/

section calls
variable {K : Type} [LinearOrder K]

/-- A call that may change the key set. -/
inductive Call (K : Type) where
  | insert (k : K)
  | remove (k : K)
deriving DecidableEq

/-- Perform one call and drop the returned value. -/
def applyCall (s : Scapegoat K) : Call K → Option (Scapegoat K)
  | Call.insert k => (Insert s k).map Prod.fst
  | Call.remove k => (Remove s k).map Prod.fst

/-- Perform a sequence of calls in order. -/
def runCalls (s : Scapegoat K) : List (Call K) → Option (Scapegoat K)
  | [] => some s
  | c :: cs =>
    match applyCall s c with
    | none => none
    | some s1 => runCalls s1 cs

/-- The key `k` was inserted by some call and not removed by a later one. -/
def Live (k : K) (calls : List (Call K)) : Prop :=
  ∃ i : Nat, calls[i]? = some (Call.insert k) ∧
    ∀ j : Nat, i < j → calls[j]? ≠ some (Call.remove k)

end calls

/-- The empty tree `New(1.5)`. -/
def stI0 : Scapegoat Int :=
  ⟨[], none, (F64.fin 3 (-1)), 0, 0, ⟨0, 0, 0, 0, 0, 0⟩⟩

/-- State of the test tree after inserting the first test key. -/
def stI1 : Scapegoat Int :=
  ⟨[⟨none, none, none, 42⟩], (some 0), (F64.fin 3 (-1)), 1, 1, ⟨0, 0, 0, 1, 0, 0⟩⟩

/-- State of the test tree after inserting the first 2 test keys. -/
def stI2 : Scapegoat Int :=
  ⟨[⟨(some 1), none, none, 42⟩, ⟨none, none, (some 0), 27⟩], (some 0), (F64.fin 3 (-1)), 2, 2,
    ⟨0, 0, 0, 2, 0, 0⟩⟩

/-- State of the test tree after inserting the first 3 test keys. -/
def stI3 : Scapegoat Int :=
  ⟨[⟨(some 1), none, none, 42⟩, ⟨(some 2), none, (some 0), 27⟩,
    ⟨none, none, (some 1), 3⟩], (some 0), (F64.fin 3 (-1)), 3, 3, ⟨0, 0, 0, 3, 0, 0⟩⟩

/-- State of the test tree after inserting the first 4 test keys. -/
def stI4 : Scapegoat Int :=
  ⟨[⟨(some 1), none, none, 42⟩, ⟨(some 2), none, (some 0), 27⟩, ⟨(some 3), none, (some 1), 3⟩,
    ⟨none, none, (some 2), 1⟩], (some 0), (F64.fin 3 (-1)), 4, 4, ⟨0, 0, 0, 4, 0, 0⟩⟩

/-- State of the test tree after inserting the first 5 test keys. -/
def stI5 : Scapegoat Int :=
  ⟨[⟨(some 1), none, none, 42⟩, ⟨(some 2), none, (some 0), 27⟩, ⟨(some 6), (some 7), (some 1), 2⟩,
    ⟨none, (some 4), (some 2), 1⟩, ⟨none, none, (some 3), 2⟩, ⟨(some 6), (some 7), none, 2⟩,
    ⟨none, none, (some 2), 1⟩, ⟨none, none, (some 2), 3⟩], (some 0), (F64.fin 3 (-1)), 5, 5,
    ⟨1, 1, 0, 5, 0, 0⟩⟩

/-- State of the test tree after inserting the first 6 test keys. -/
def stI6 : Scapegoat Int :=
  ⟨[⟨(some 1), (some 8), none, 42⟩, ⟨(some 2), none, (some 0), 27⟩,
    ⟨(some 6), (some 7), (some 1), 2⟩, ⟨none, (some 4), (some 2), 1⟩, ⟨none, none, (some 3), 2⟩,
    ⟨(some 6), (some 7), none, 2⟩, ⟨none, none, (some 2), 1⟩, ⟨none, none, (some 2), 3⟩,
    ⟨none, none, (some 0), 99⟩], (some 0), (F64.fin 3 (-1)), 6, 6, ⟨1, 1, 0, 6, 0, 0⟩⟩

/-- State of the test tree after inserting the first 7 test keys. -/
def stI7 : Scapegoat Int :=
  ⟨[⟨(some 1), (some 8), none, 42⟩, ⟨(some 2), none, (some 0), 27⟩,
    ⟨(some 6), (some 7), (some 1), 2⟩, ⟨none, (some 4), (some 2), 1⟩, ⟨none, none, (some 3), 2⟩,
    ⟨(some 6), (some 7), none, 2⟩, ⟨none, none, (some 2), 1⟩, ⟨none, none, (some 2), 3⟩,
    ⟨(some 9), none, (some 0), 99⟩, ⟨none, none, (some 8), 55⟩], (some 0), (F64.fin 3 (-1)), 7, 7,
    ⟨1, 1, 0, 7, 0, 0⟩⟩

/-- State of the test tree after inserting the first 8 test keys. -/
def stI8 : Scapegoat Int :=
  ⟨[⟨(some 1), (some 8), none, 42⟩, ⟨(some 2), none, (some 0), 27⟩,
    ⟨(some 6), (some 7), (some 1), 2⟩, ⟨none, (some 4), (some 2), 1⟩, ⟨none, none, (some 3), 2⟩,
    ⟨(some 6), (some 7), none, 2⟩, ⟨none, none, (some 2), 1⟩, ⟨none, none, (some 2), 3⟩,
    ⟨(some 9), none, (some 0), 99⟩, ⟨(some 10), none, (some 8), 55⟩,
    ⟨none, none, (some 9), 48⟩], (some 0), (F64.fin 3 (-1)), 8, 8, ⟨1, 1, 0, 8, 0, 0⟩⟩

/-- State of the test tree after inserting the first 9 test keys. -/
def stI9 : Scapegoat Int :=
  ⟨[⟨(some 1), (some 8), none, 42⟩, ⟨(some 2), (some 11), (some 0), 27⟩,
    ⟨(some 6), (some 7), (some 1), 2⟩, ⟨none, (some 4), (some 2), 1⟩, ⟨none, none, (some 3), 2⟩,
    ⟨(some 6), (some 7), none, 2⟩, ⟨none, none, (some 2), 1⟩, ⟨none, none, (some 2), 3⟩,
    ⟨(some 9), none, (some 0), 99⟩, ⟨(some 10), none, (some 8), 55⟩, ⟨none, none, (some 9), 48⟩,
    ⟨none, none, (some 1), 39⟩], (some 0), (F64.fin 3 (-1)), 9, 9, ⟨1, 1, 0, 9, 0, 0⟩⟩

/-- State of the test tree after inserting the first 10 test keys. -/
def stI10 : Scapegoat Int :=
  ⟨[⟨(some 1), (some 8), none, 42⟩, ⟨(some 2), (some 11), (some 0), 27⟩,
    ⟨(some 6), (some 7), (some 1), 2⟩, ⟨none, (some 4), (some 2), 1⟩, ⟨none, none, (some 3), 2⟩,
    ⟨(some 6), (some 7), none, 2⟩, ⟨none, none, (some 2), 1⟩, ⟨none, none, (some 2), 3⟩,
    ⟨(some 9), none, (some 0), 99⟩, ⟨(some 10), none, (some 8), 55⟩, ⟨(some 12), none, (some 9), 48⟩,
    ⟨none, none, (some 1), 39⟩, ⟨none, none, (some 10), 47⟩], (some 0), (F64.fin 3 (-1)), 10, 10,
    ⟨1, 1, 0, 10, 0, 0⟩⟩

/-- State of the test tree after inserting the first 11 test keys. -/
def stI11 : Scapegoat Int :=
  ⟨[⟨(some 1), (some 8), none, 42⟩, ⟨(some 2), (some 11), (some 0), 27⟩,
    ⟨(some 6), (some 7), (some 1), 2⟩, ⟨none, (some 4), (some 2), 1⟩, ⟨none, none, (some 3), 2⟩,
    ⟨(some 6), (some 7), none, 2⟩, ⟨none, none, (some 2), 1⟩, ⟨none, none, (some 2), 3⟩,
    ⟨(some 9), none, (some 0), 99⟩, ⟨(some 10), none, (some 8), 55⟩, ⟨(some 12), none, (some 9), 48⟩,
    ⟨none, none, (some 1), 39⟩, ⟨(some 13), none, (some 10), 47⟩,
    ⟨none, none, (some 12), 46⟩], (some 0), (F64.fin 3 (-1)), 11, 11, ⟨1, 1, 0, 11, 0, 0⟩⟩

/-- State of the test tree after inserting the first 12 test keys. -/
def stI12 : Scapegoat Int :=
  ⟨[⟨(some 1), (some 8), none, 42⟩, ⟨(some 2), (some 11), (some 0), 27⟩,
    ⟨(some 6), (some 7), (some 1), 2⟩, ⟨none, (some 4), (some 2), 1⟩, ⟨none, none, (some 3), 2⟩,
    ⟨(some 6), (some 7), none, 2⟩, ⟨none, none, (some 2), 1⟩, ⟨none, none, (some 2), 3⟩,
    ⟨(some 9), none, (some 0), 99⟩, ⟨(some 10), none, (some 8), 55⟩, ⟨(some 12), none, (some 9), 48⟩,
    ⟨none, none, (some 1), 39⟩, ⟨(some 13), none, (some 10), 47⟩, ⟨(some 14), none, (some 12), 46⟩,
    ⟨none, none, (some 13), 45⟩], (some 0), (F64.fin 3 (-1)), 12, 12, ⟨1, 1, 0, 12, 0, 0⟩⟩

/-- State of the test tree after the first test removal. -/
def stR1 : Scapegoat Int :=
  ⟨[⟨(some 1), (some 8), none, 42⟩, ⟨(some 2), (some 11), (some 0), 27⟩,
    ⟨(some 6), none, (some 1), 2⟩, ⟨none, (some 4), (some 2), 1⟩, ⟨none, none, (some 3), 2⟩,
    ⟨(some 6), (some 7), none, 2⟩, ⟨none, none, (some 2), 1⟩, ⟨none, none, (some 2), 3⟩,
    ⟨(some 9), none, (some 0), 99⟩, ⟨(some 10), none, (some 8), 55⟩, ⟨(some 12), none, (some 9), 48⟩,
    ⟨none, none, (some 1), 39⟩, ⟨(some 13), none, (some 10), 47⟩, ⟨(some 14), none, (some 12), 46⟩,
    ⟨none, none, (some 13), 45⟩], (some 0), (F64.fin 3 (-1)), 11, 12, ⟨1, 1, 0, 12, 1, 0⟩⟩

/-- State of the test tree after the first 2 test removals. -/
def stR2 : Scapegoat Int :=
  ⟨[⟨(some 1), (some 8), none, 42⟩, ⟨(some 2), (some 11), (some 0), 27⟩, ⟨none, none, (some 1), 2⟩,
    ⟨none, (some 4), (some 2), 1⟩, ⟨none, none, (some 3), 2⟩, ⟨(some 6), (some 7), none, 2⟩,
    ⟨none, none, (some 2), 1⟩, ⟨none, none, (some 2), 3⟩, ⟨(some 9), none, (some 0), 99⟩,
    ⟨(some 10), none, (some 8), 55⟩, ⟨(some 12), none, (some 9), 48⟩, ⟨none, none, (some 1), 39⟩,
    ⟨(some 13), none, (some 10), 47⟩, ⟨(some 14), none, (some 12), 46⟩,
    ⟨none, none, (some 13), 45⟩], (some 0), (F64.fin 3 (-1)), 10, 12, ⟨1, 1, 0, 12, 2, 0⟩⟩

/-- State of the test tree after the first 3 test removals. -/
def stR3 : Scapegoat Int :=
  ⟨[⟨(some 1), (some 8), none, 42⟩, ⟨none, (some 11), (some 0), 27⟩, ⟨none, none, (some 1), 2⟩,
    ⟨none, (some 4), (some 2), 1⟩, ⟨none, none, (some 3), 2⟩, ⟨(some 6), (some 7), none, 2⟩,
    ⟨none, none, (some 2), 1⟩, ⟨none, none, (some 2), 3⟩, ⟨(some 9), none, (some 0), 99⟩,
    ⟨(some 10), none, (some 8), 55⟩, ⟨(some 12), none, (some 9), 48⟩, ⟨none, none, (some 1), 39⟩,
    ⟨(some 13), none, (some 10), 47⟩, ⟨(some 14), none, (some 12), 46⟩,
    ⟨none, none, (some 13), 45⟩], (some 0), (F64.fin 3 (-1)), 9, 12, ⟨1, 1, 0, 12, 3, 0⟩⟩

/-- State of the test tree after the first 4 test removals. -/
def stR4 : Scapegoat Int :=
  ⟨[⟨(some 1), (some 9), none, 42⟩, ⟨none, (some 11), (some 0), 27⟩, ⟨none, none, (some 1), 2⟩,
    ⟨none, (some 4), (some 2), 1⟩, ⟨none, none, (some 3), 2⟩, ⟨(some 6), (some 7), none, 2⟩,
    ⟨none, none, (some 2), 1⟩, ⟨none, none, (some 2), 3⟩, ⟨(some 9), none, (some 0), 99⟩,
    ⟨(some 10), none, (some 8), 55⟩, ⟨(some 12), none, (some 9), 48⟩, ⟨none, none, (some 1), 39⟩,
    ⟨(some 13), none, (some 10), 47⟩, ⟨(some 14), none, (some 12), 46⟩,
    ⟨none, none, (some 13), 45⟩], (some 0), (F64.fin 3 (-1)), 8, 12, ⟨1, 1, 0, 12, 4, 0⟩⟩

/-- State of the test tree after the first 5 test removals. -/
def stR5 : Scapegoat Int :=
  ⟨[⟨(some 1), (some 10), none, 42⟩, ⟨none, (some 11), (some 0), 27⟩, ⟨none, none, (some 1), 2⟩,
    ⟨none, (some 4), (some 2), 1⟩, ⟨none, none, (some 3), 2⟩, ⟨(some 6), (some 7), none, 2⟩,
    ⟨none, none, (some 2), 1⟩, ⟨none, none, (some 2), 3⟩, ⟨(some 9), none, (some 0), 99⟩,
    ⟨(some 10), none, (some 8), 55⟩, ⟨(some 12), none, (some 9), 48⟩, ⟨none, none, (some 1), 39⟩,
    ⟨(some 13), none, (some 10), 47⟩, ⟨(some 14), none, (some 12), 46⟩,
    ⟨none, none, (some 13), 45⟩], (some 0), (F64.fin 3 (-1)), 7, 12, ⟨1, 1, 0, 12, 5, 0⟩⟩

/-- State of the test tree after the first 6 test removals. -/
def stR6 : Scapegoat Int :=
  ⟨[⟨(some 1), (some 12), none, 42⟩, ⟨none, (some 11), (some 0), 27⟩, ⟨none, none, (some 1), 2⟩,
    ⟨none, (some 4), (some 2), 1⟩, ⟨none, none, (some 3), 2⟩, ⟨(some 6), (some 7), none, 2⟩,
    ⟨none, none, (some 2), 1⟩, ⟨none, none, (some 2), 3⟩, ⟨(some 9), none, (some 0), 99⟩,
    ⟨(some 10), none, (some 8), 55⟩, ⟨(some 12), none, (some 9), 48⟩, ⟨none, none, (some 1), 39⟩,
    ⟨(some 13), none, (some 10), 47⟩, ⟨(some 14), none, (some 12), 46⟩, ⟨none, none, (some 13), 45⟩,
    ⟨(some 16), (some 18), none, 42⟩, ⟨none, (some 17), none, 27⟩, ⟨none, none, none, 39⟩,
    ⟨(some 19), (some 20), none, 46⟩, ⟨none, none, none, 45⟩,
    ⟨none, none, none, 47⟩], (some 15), (F64.fin 3 (-1)), 6, 6, ⟨2, 1, 1, 12, 6, 0⟩⟩

/-- State of the test tree after the first 7 test removals. -/
def stR7 : Scapegoat Int :=
  ⟨[⟨(some 1), (some 12), none, 42⟩, ⟨none, (some 11), (some 0), 27⟩, ⟨none, none, (some 1), 2⟩,
    ⟨none, (some 4), (some 2), 1⟩, ⟨none, none, (some 3), 2⟩, ⟨(some 6), (some 7), none, 2⟩,
    ⟨none, none, (some 2), 1⟩, ⟨none, none, (some 2), 3⟩, ⟨(some 9), none, (some 0), 99⟩,
    ⟨(some 10), none, (some 8), 55⟩, ⟨(some 12), none, (some 9), 48⟩, ⟨none, none, (some 1), 39⟩,
    ⟨(some 13), none, (some 10), 47⟩, ⟨(some 14), none, (some 12), 46⟩, ⟨none, none, (some 13), 45⟩,
    ⟨(some 16), (some 18), none, 42⟩, ⟨none, none, none, 27⟩, ⟨none, none, none, 39⟩,
    ⟨(some 19), (some 20), none, 46⟩, ⟨none, none, none, 45⟩,
    ⟨none, none, none, 47⟩], (some 15), (F64.fin 3 (-1)), 5, 6, ⟨2, 1, 1, 12, 7, 0⟩⟩

/-- State of the test tree after the first 8 test removals. -/
def stR8 : Scapegoat Int :=
  ⟨[⟨(some 1), (some 12), none, 42⟩, ⟨none, (some 11), (some 0), 27⟩, ⟨none, none, (some 1), 2⟩,
    ⟨none, (some 4), (some 2), 1⟩, ⟨none, none, (some 3), 2⟩, ⟨(some 6), (some 7), none, 2⟩,
    ⟨none, none, (some 2), 1⟩, ⟨none, none, (some 2), 3⟩, ⟨(some 9), none, (some 0), 99⟩,
    ⟨(some 10), none, (some 8), 55⟩, ⟨(some 12), none, (some 9), 48⟩, ⟨none, none, (some 1), 39⟩,
    ⟨(some 13), none, (some 10), 47⟩, ⟨(some 14), none, (some 12), 46⟩, ⟨none, none, (some 13), 45⟩,
    ⟨(some 16), (some 18), none, 42⟩, ⟨none, none, none, 27⟩, ⟨none, none, none, 39⟩,
    ⟨(some 19), none, none, 46⟩, ⟨none, none, none, 45⟩,
    ⟨none, none, none, 47⟩], (some 15), (F64.fin 3 (-1)), 4, 6, ⟨2, 1, 1, 12, 8, 0⟩⟩

/-- The tree represented by `stI4`: the chain 42, 27, 3, 1 of left children. -/
def shI4 : Shape Int :=
  Shape.node 0 (Shape.node 1 (Shape.node 2 (Shape.node 3 Shape.nil 1 Shape.nil) 3 Shape.nil)
    27 Shape.nil) 42 Shape.nil

/-! ## Shape measures and checks used by the later claims -/

namespace Shape
variable {K : Type}

/-- Number of cells on the longest downward path (0 for the empty shape);
the height in edges of a non-empty shape is `levels - 1`. -/
def levels : Shape K → Nat
  | nil => 0
  | node _ l _ r => 1 + max l.levels r.levels

/-- At every node the right subtree has as many cells as the left one, or
one more. -/
def SizeBalanced : Shape K → Prop
  | nil => True
  | node _ l _ r => l.size ≤ r.size ∧ r.size ≤ l.size + 1 ∧ l.SizeBalanced ∧ r.SizeBalanced

end Shape

/-- Number of cells on the longest path that starts at a pointer and follows
`left` and `right` links. -/
def levels {K : Type} (mem : List (node K)) : Nat → Ptr → Nat
  | _, none => 0
  | 0, some _ => 0
  | fuel + 1, some a =>
    match mem[a]? with
    | none => 0
    | some c => 1 + max (levels mem fuel c.left) (levels mem fuel c.right)

/-- The comparison `a < b` on `float64` (false when an operand is NaN). -/
def F64.lt : F64 → F64 → Bool
  | F64.nan, _ => false
  | _, F64.nan => false
  | F64.fin m1 e1, F64.fin m2 e2 =>
    decide (m1 * 2 ^ (e1 - e2).toNat < m2 * 2 ^ (e2 - e1).toNat)
  | F64.ninf, F64.ninf => false
  | F64.ninf, _ => true
  | _, F64.ninf => false
  | F64.pinf, _ => false
  | _, F64.pinf => true

/-- Check of the parent back-references below a pointer: the cell it refers
to has parent `par`, and so on for both subtrees. -/
def parentsOK {K : Type} [DecidableEq K] (mem : List (node K)) : Nat → Ptr → Ptr → Bool
  | _, none, _ => true
  | 0, some _, _ => false
  | fuel + 1, some a, par =>
    match mem[a]? with
    | none => false
    | some c =>
      decide (c.parent = par) && parentsOK mem fuel c.left (some a) &&
        parentsOK mem fuel c.right (some a)

/-- State after 0 calls of the scenario with alpha = 1.25 and the keys 42, 27, 3, 1, 2. -/
def stA0 : Scapegoat Int :=
  ⟨[], none, (F64.fin 5 (-2)), 0, 0, ⟨0, 0, 0, 0, 0, 0⟩⟩

/-- State after 1 calls of the scenario with alpha = 1.25 and the keys 42, 27, 3, 1, 2. -/
def stA1 : Scapegoat Int :=
  ⟨[⟨none, none, none, 42⟩], (some 0), (F64.fin 5 (-2)), 1, 1, ⟨0, 0, 0, 1, 0, 0⟩⟩

/-- State after 2 calls of the scenario with alpha = 1.25 and the keys 42, 27, 3, 1, 2. -/
def stA2 : Scapegoat Int :=
  ⟨[⟨(some 1), none, none, 42⟩, ⟨none, none, (some 0), 27⟩], (some 0), (F64.fin 5 (-2)), 2, 2,
    ⟨0, 0, 0, 2, 0, 0⟩⟩

/-- State after 3 calls of the scenario with alpha = 1.25 and the keys 42, 27, 3, 1, 2. -/
def stA3 : Scapegoat Int :=
  ⟨[⟨(some 1), none, none, 42⟩, ⟨(some 2), none, (some 0), 27⟩,
    ⟨none, none, (some 1), 3⟩], (some 0), (F64.fin 5 (-2)), 3, 3, ⟨0, 0, 0, 3, 0, 0⟩⟩

/-- State after 4 calls of the scenario with alpha = 1.25 and the keys 42, 27, 3, 1, 2. -/
def stA4 : Scapegoat Int :=
  ⟨[⟨(some 1), none, none, 42⟩, ⟨(some 2), none, (some 0), 27⟩, ⟨(some 3), none, (some 1), 3⟩,
    ⟨none, none, (some 2), 1⟩], (some 0), (F64.fin 5 (-2)), 4, 4, ⟨0, 0, 0, 4, 0, 0⟩⟩

/-- State after 5 calls of the scenario with alpha = 1.25 and the keys 42, 27, 3, 1, 2. -/
def stA5 : Scapegoat Int :=
  ⟨[⟨(some 1), none, none, 42⟩, ⟨(some 2), none, (some 0), 27⟩, ⟨(some 3), none, (some 1), 3⟩,
    ⟨none, (some 4), (some 2), 1⟩, ⟨none, none, (some 3), 2⟩], (some 0), (F64.fin 5 (-2)), 5, 5,
    ⟨0, 0, 0, 5, 0, 0⟩⟩

/-- State after 0 calls of the scenario with alpha = 8 and the keys 1, 2, 3, 4. -/
def stH0 : Scapegoat Int :=
  ⟨[], none, (F64.fin 1 3), 0, 0, ⟨0, 0, 0, 0, 0, 0⟩⟩

/-- State after 1 calls of the scenario with alpha = 8 and the keys 1, 2, 3, 4. -/
def stH1 : Scapegoat Int :=
  ⟨[⟨none, none, none, 1⟩], (some 0), (F64.fin 1 3), 1, 1, ⟨0, 0, 0, 1, 0, 0⟩⟩

/-- State after 2 calls of the scenario with alpha = 8 and the keys 1, 2, 3, 4. -/
def stH2 : Scapegoat Int :=
  ⟨[⟨none, (some 3), none, 1⟩, ⟨none, none, (some 0), 2⟩, ⟨none, (some 3), none, 1⟩,
    ⟨none, none, (some 0), 2⟩], (some 0), (F64.fin 1 3), 2, 2, ⟨1, 1, 0, 2, 0, 0⟩⟩

/-- State after 3 calls of the scenario with alpha = 8 and the keys 1, 2, 3, 4. -/
def stH3 : Scapegoat Int :=
  ⟨[⟨(some 6), (some 7), none, 2⟩, ⟨none, none, (some 0), 2⟩, ⟨none, (some 3), none, 1⟩,
    ⟨none, (some 4), (some 0), 2⟩, ⟨none, none, (some 3), 3⟩, ⟨(some 6), (some 7), none, 2⟩,
    ⟨none, none, (some 0), 1⟩, ⟨none, none, (some 0), 3⟩], (some 0), (F64.fin 1 3), 3, 3,
    ⟨2, 2, 0, 3, 0, 0⟩⟩

/-- State after 4 calls of the scenario with alpha = 8 and the keys 1, 2, 3, 4. -/
def stH4 : Scapegoat Int :=
  ⟨[⟨(some 10), (some 11), none, 2⟩, ⟨none, none, (some 0), 2⟩, ⟨none, (some 3), none, 1⟩,
    ⟨none, (some 4), (some 0), 2⟩, ⟨none, none, (some 3), 3⟩, ⟨(some 6), (some 7), none, 2⟩,
    ⟨none, none, (some 0), 1⟩, ⟨none, (some 8), (some 0), 3⟩, ⟨none, none, (some 7), 4⟩,
    ⟨(some 10), (some 11), none, 2⟩, ⟨none, none, (some 0), 1⟩, ⟨none, (some 12), (some 0), 3⟩,
    ⟨none, none, none, 4⟩], (some 0), (F64.fin 1 3), 4, 4, ⟨3, 3, 0, 4, 0, 0⟩⟩

/-- State after 0 calls of the scenario with alpha = 2 and the calls insert 5, 4, 6, remove 6, insert 3, 2. -/
def stQ0 : Scapegoat Int :=
  ⟨[], none, (F64.fin 1 1), 0, 0, ⟨0, 0, 0, 0, 0, 0⟩⟩

/-- State after 1 calls of the scenario with alpha = 2 and the calls insert 5, 4, 6, remove 6, insert 3, 2. -/
def stQ1 : Scapegoat Int :=
  ⟨[⟨none, none, none, 5⟩], (some 0), (F64.fin 1 1), 1, 1, ⟨0, 0, 0, 1, 0, 0⟩⟩

/-- State after 2 calls of the scenario with alpha = 2 and the calls insert 5, 4, 6, remove 6, insert 3, 2. -/
def stQ2 : Scapegoat Int :=
  ⟨[⟨(some 1), none, none, 5⟩, ⟨none, none, (some 0), 4⟩], (some 0), (F64.fin 1 1), 2, 2,
    ⟨0, 0, 0, 2, 0, 0⟩⟩

/-- State after 3 calls of the scenario with alpha = 2 and the calls insert 5, 4, 6, remove 6, insert 3, 2. -/
def stQ3 : Scapegoat Int :=
  ⟨[⟨(some 1), (some 2), none, 5⟩, ⟨none, none, (some 0), 4⟩,
    ⟨none, none, (some 0), 6⟩], (some 0), (F64.fin 1 1), 3, 3, ⟨0, 0, 0, 3, 0, 0⟩⟩

/-- State after 4 calls of the scenario with alpha = 2 and the calls insert 5, 4, 6, remove 6, insert 3, 2. -/
def stQ4 : Scapegoat Int :=
  ⟨[⟨(some 1), none, none, 5⟩, ⟨none, none, (some 0), 4⟩,
    ⟨none, none, (some 0), 6⟩], (some 0), (F64.fin 1 1), 2, 3, ⟨0, 0, 0, 3, 1, 0⟩⟩

/-- State after 5 calls of the scenario with alpha = 2 and the calls insert 5, 4, 6, remove 6, insert 3, 2. -/
def stQ5 : Scapegoat Int :=
  ⟨[⟨(some 1), none, none, 5⟩, ⟨(some 3), none, (some 0), 4⟩, ⟨none, none, (some 0), 6⟩,
    ⟨none, none, (some 1), 3⟩], (some 0), (F64.fin 1 1), 3, 4, ⟨0, 0, 0, 4, 1, 0⟩⟩

/-- State after 6 calls of the scenario with alpha = 2 and the calls insert 5, 4, 6, remove 6, insert 3, 2. -/
def stQ6 : Scapegoat Int :=
  ⟨[⟨(some 1), none, none, 5⟩, ⟨(some 6), (some 7), (some 0), 3⟩, ⟨none, none, (some 0), 6⟩,
    ⟨(some 4), none, (some 1), 3⟩, ⟨none, none, (some 3), 2⟩, ⟨(some 6), (some 7), none, 3⟩,
    ⟨none, none, (some 1), 2⟩, ⟨none, none, (some 1), 4⟩], (some 0), (F64.fin 1 1), 4, 5,
    ⟨1, 1, 0, 5, 1, 0⟩⟩

/-- State after inserting 42, 27, 3 and removing 27 with alpha = 1.5. -/
def stB1 : Scapegoat Int :=
  ⟨[⟨(some 2), none, none, 42⟩, ⟨(some 2), none, (some 0), 27⟩,
    ⟨none, none, (some 1), 3⟩], (some 0), (F64.fin 3 (-1)), 2, 3, ⟨0, 0, 0, 3, 1, 0⟩⟩

/-- State after 1 calls of the scenario with alpha = 1.5 and the calls insert 2, 1, 3, remove 2. -/
def stT1 : Scapegoat Int :=
  ⟨[⟨none, none, none, 2⟩], (some 0), (F64.fin 3 (-1)), 1, 1, ⟨0, 0, 0, 1, 0, 0⟩⟩

/-- State after 2 calls of the scenario with alpha = 1.5 and the calls insert 2, 1, 3, remove 2. -/
def stT2 : Scapegoat Int :=
  ⟨[⟨(some 1), none, none, 2⟩, ⟨none, none, (some 0), 1⟩], (some 0), (F64.fin 3 (-1)), 2, 2,
    ⟨0, 0, 0, 2, 0, 0⟩⟩

/-- State after 3 calls of the scenario with alpha = 1.5 and the calls insert 2, 1, 3, remove 2. -/
def stT3 : Scapegoat Int :=
  ⟨[⟨(some 1), (some 2), none, 2⟩, ⟨none, none, (some 0), 1⟩,
    ⟨none, none, (some 0), 3⟩], (some 0), (F64.fin 3 (-1)), 3, 3, ⟨0, 0, 0, 3, 0, 0⟩⟩

/-- State after 4 calls of the scenario with alpha = 1.5 and the calls insert 2, 1, 3, remove 2. -/
def stT4 : Scapegoat Int :=
  ⟨[⟨(some 1), none, none, 3⟩, ⟨none, none, (some 0), 1⟩,
    ⟨none, none, (some 0), 3⟩], (some 0), (F64.fin 3 (-1)), 2, 3, ⟨0, 0, 0, 3, 1, 0⟩⟩

/-- The tree represented by `stT3`: root 2 with the leaves 1 and 3. -/
def shT3 : Shape Int :=
  Shape.node 0 (Shape.node 1 Shape.nil 1 Shape.nil) 2 (Shape.node 2 Shape.nil 3 Shape.nil)

/-- Three flattened cells with the keys 1, 2, 3. -/
def cells123 : List (node Int) :=
  [⟨none, none, none, 1⟩, ⟨none, none, none, 2⟩, ⟨none, none, none, 3⟩]

end scapegoat

namespace scapegoat
variable {K : Type}

theorem Shape.size_eq_length (t : Shape K) : t.size = t.keys.length := by
  induction t with
  | nil => rfl
  | node a l k r ihl ihr => simp [Shape.size, Shape.keys, ihl, ihr]; omega

theorem Shape.ptr_eq_none {t : Shape K} : t.ptr = none ↔ t = Shape.nil := by
  cases t <;> simp [Shape.ptr]

theorem Rep_ext {mem mem' : List (node K)} :
    ∀ t : Shape K, Rep mem t → (∀ a ∈ t.addrs, mem'[a]? = mem[a]?) → Rep mem' t := by
  intro t
  induction t with
  | nil => intro _ _; trivial
  | node a l k r ihl ihr =>
    intro h hs
    obtain ⟨⟨c, hc, hk, hl, hr⟩, h1, h2⟩ := h
    refine ⟨⟨c, ?_, hk, hl, hr⟩, ihl h1 ?_, ihr h2 ?_⟩
    · rw [hs a (by simp [Shape.addrs])]; exact hc
    · intro x hx; exact hs x (by simp [Shape.addrs, hx])
    · intro x hx; exact hs x (by simp [Shape.addrs, hx])

theorem Rep_key_mem {mem : List (node K)} :
    ∀ t : Shape K, Rep mem t → ∀ x ∈ t.addrs, ∃ c, mem[x]? = some c ∧ c.key ∈ t.keys := by
  intro t
  induction t with
  | nil => intro _ x hx; simp [Shape.addrs] at hx
  | node a l k r ihl ihr =>
    intro h x hx
    obtain ⟨⟨c, hc, hk, _, _⟩, h1, h2⟩ := h
    simp only [Shape.addrs, List.mem_cons, List.mem_append] at hx
    rcases hx with rfl | hx | hx
    · exact ⟨c, hc, by simp [Shape.keys, hk]⟩
    · obtain ⟨c', h', hm⟩ := ihl h1 x hx
      exact ⟨c', h', by simp [Shape.keys, hm]⟩
    · obtain ⟨c', h', hm⟩ := ihr h2 x hx
      exact ⟨c', h', by simp [Shape.keys, hm]⟩

theorem Rep_addr_lt {mem : List (node K)} (t : Shape K) (h : Rep mem t) (x : Nat)
    (hx : x ∈ t.addrs) : x < mem.length := by
  obtain ⟨c, hc, _⟩ := Rep_key_mem t h x hx
  exact (List.getElem?_eq_some.mp hc).1

theorem Rep_unique {mem : List (node K)} :
    ∀ t t' : Shape K, Rep mem t → Rep mem t' → t.ptr = t'.ptr → t = t' := by
  intro t
  induction t with
  | nil => intro t' _ _ hp; exact (Shape.ptr_eq_none.mp hp.symm).symm
  | node a l k r ihl ihr =>
    intro t' h h' hp
    cases t' with
    | nil => simp [Shape.ptr] at hp
    | node a' l' k' r' =>
      simp only [Shape.ptr, Option.some.injEq] at hp
      subst hp
      obtain ⟨⟨c, hc, hk, hl, hr⟩, h1, h2⟩ := h
      obtain ⟨⟨c', hc', hk', hl', hr'⟩, h1', h2'⟩ := h'
      rw [hc] at hc'
      cases hc'
      rw [ihl l' h1 h1' (hl.symm.trans hl'), ihr r' h2 h2' (hr.symm.trans hr'), ← hk, ← hk']

section ord
variable [LinearOrder K]

theorem Shape.sorted_node {a : Nat} {l r : Shape K} {k : K} :
    (Shape.node a l k r).keys.Sorted (· < ·) ↔
      l.keys.Sorted (· < ·) ∧ r.keys.Sorted (· < ·) ∧ (∀ x ∈ l.keys, x < k) ∧
        (∀ y ∈ r.keys, k < y) := by
  simp only [Shape.keys, List.Sorted, List.pairwise_append, List.pairwise_cons, List.mem_cons]
  constructor
  · rintro ⟨h1, ⟨h2, h3⟩, h4⟩
    exact ⟨h1, h3, fun x hx => h4 x hx k (Or.inl rfl), h2⟩
  · rintro ⟨h1, h2, h3, h4⟩
    refine ⟨h1, ⟨h4, h2⟩, ?_⟩
    intro x hx y hy
    rcases hy with rfl | hy
    · exact h3 x hx
    · exact lt_trans (h3 x hx) (h4 y hy)

/-- In a search tree no cell is used twice. -/
theorem Rep_sep {mem : List (node K)} {a : Nat} {l r : Shape K} {k : K}
    (h : Rep mem (Shape.node a l k r)) (hs : (Shape.node a l k r).keys.Sorted (· < ·)) :
    a ∉ l.addrs ∧ a ∉ r.addrs ∧ ∀ x, x ∈ l.addrs → x ∉ r.addrs := by
  obtain ⟨⟨c, hc, hk, _, _⟩, h1, h2⟩ := h
  obtain ⟨_, _, hl, hr⟩ := Shape.sorted_node.mp hs
  refine ⟨?_, ?_, ?_⟩
  · intro ha
    obtain ⟨c', hc', hm⟩ := Rep_key_mem l h1 a ha
    rw [hc] at hc'; cases hc'
    exact lt_irrefl _ (hk ▸ hl _ hm)
  · intro ha
    obtain ⟨c', hc', hm⟩ := Rep_key_mem r h2 a ha
    rw [hc] at hc'; cases hc'
    exact lt_irrefl _ (hk ▸ hr _ hm)
  · intro x hxl hxr
    obtain ⟨c1, hc1, hm1⟩ := Rep_key_mem l h1 x hxl
    obtain ⟨c2, hc2, hm2⟩ := Rep_key_mem r h2 x hxr
    rw [hc1] at hc2; cases hc2
    exact lt_irrefl _ (lt_trans (hl _ hm1) (hr _ hm2))

end ord
end scapegoat

namespace scapegoat
variable {K : Type} [LinearOrder K]

theorem Shape.sub_addrs (key : K) : ∀ t : Shape K, ∀ x ∈ (t.sub key).addrs, x ∈ t.addrs := by
  intro t
  induction t with
  | nil => intro x hx; simpa [Shape.sub] using hx
  | node a l k r ihl ihr =>
    intro x hx
    simp only [Shape.sub] at hx
    split_ifs at hx with h1 h2
    · exact hx
    · simp [Shape.addrs, ihl x hx]
    · simp [Shape.addrs, ihr x hx]

/-- Either the search path of `key` ends at the root of `t`, or its last
cell before the end is a cell of `t`. -/
theorem Shape.parentOf_cases (key : K) : ∀ t : Shape K,
    ((∀ par, t.parentOf key par = par) ∧ t.sub key = t ∧ (∀ u, t.graft key u = u) ∧
        t.depthOf key = 0) ∨
      (∃ pa, pa ∈ t.addrs ∧ (∀ par, t.parentOf key par = some pa) ∧ 0 < t.depthOf key) := by
  intro t
  induction t with
  | nil => left; simp [Shape.parentOf, Shape.sub, Shape.graft, Shape.depthOf]
  | node a l k r ihl ihr =>
    by_cases h1 : k = key
    · left; simp [Shape.parentOf, Shape.sub, Shape.graft, Shape.depthOf, h1]
    · right
      by_cases h2 : key < k
      · rcases ihl with ⟨h, _⟩ | ⟨pa, hpa, h, _⟩
        · exact ⟨a, by simp [Shape.addrs], by simp [Shape.parentOf, h1, h2, h],
            by simp [Shape.depthOf, h1, h2]⟩
        · exact ⟨pa, by simp [Shape.addrs, hpa], by simp [Shape.parentOf, h1, h2, h],
            by simp [Shape.depthOf, h1, h2]⟩
      · rcases ihr with ⟨h, _⟩ | ⟨pa, hpa, h, _⟩
        · exact ⟨a, by simp [Shape.addrs], by simp [Shape.parentOf, h1, h2, h],
            by simp [Shape.depthOf, h1, h2]⟩
        · exact ⟨pa, by simp [Shape.addrs, hpa], by simp [Shape.parentOf, h1, h2, h],
            by simp [Shape.depthOf, h1, h2]⟩

/-- The keys of a search tree split around the end of the search path. -/
theorem Shape.keys_split (key : K) : ∀ t : Shape K, t.keys.Sorted (· < ·) →
    ∃ pre post, t.keys = pre ++ (t.sub key).keys ++ post ∧
      (∀ u, (t.graft key u).keys = pre ++ u.keys ++ post) ∧
      (∀ x ∈ pre, x < key) ∧ (∀ x ∈ post, key < x) := by
  intro t
  induction t with
  | nil => intro _; exact ⟨[], [], by simp [Shape.sub, Shape.keys, Shape.graft]⟩
  | node a l k r ihl ihr =>
    intro hs
    obtain ⟨hsl, hsr, hl, hr⟩ := Shape.sorted_node.mp hs
    by_cases h1 : k = key
    · exact ⟨[], [], by simp [Shape.sub, Shape.graft, h1]⟩
    · by_cases h2 : key < k
      · obtain ⟨pre, post, e1, e2, e3, e4⟩ := ihl hsl
        refine ⟨pre, post ++ k :: r.keys, ?_, ?_, e3, ?_⟩
        · simp [Shape.sub, Shape.keys, h1, h2, e1]
        · intro u; simp [Shape.graft, Shape.keys, h1, h2, e2 u]
        · intro x hx
          simp only [List.mem_append, List.mem_cons] at hx
          rcases hx with hx | rfl | hx
          · exact e4 x hx
          · exact h2
          · exact lt_trans h2 (hr x hx)
      · have h3 : k < key := lt_of_le_of_ne (not_lt.mp h2) h1
        obtain ⟨pre, post, e1, e2, e3, e4⟩ := ihr hsr
        refine ⟨l.keys ++ k :: pre, post, ?_, ?_, ?_, e4⟩
        · simp [Shape.sub, Shape.keys, h1, h2, e1]
        · intro u; simp [Shape.graft, Shape.keys, h1, h2, e2 u]
        · intro x hx
          simp only [List.mem_append, List.mem_cons] at hx
          rcases hx with hx | rfl | hx
          · exact lt_trans (hl x hx) h3
          · exact h3
          · exact e3 x hx

theorem Shape.sub_root (key : K) : ∀ t : Shape K,
    t.sub key = Shape.nil ∨ ∃ a l r, t.sub key = Shape.node a l key r := by
  intro t
  induction t with
  | nil => left; rfl
  | node a l k r ihl ihr =>
    by_cases h1 : k = key
    · right; exact ⟨a, l, r, by simp [Shape.sub, h1]⟩
    · by_cases h2 : key < k
      · simpa [Shape.sub, h1, h2] using ihl
      · simpa [Shape.sub, h1, h2] using ihr

theorem Shape.sub_eq_nil_iff (key : K) (t : Shape K) (hs : t.keys.Sorted (· < ·)) :
    t.sub key = Shape.nil ↔ key ∉ t.keys := by
  obtain ⟨pre, post, e1, _, e3, e4⟩ := Shape.keys_split key t hs
  constructor
  · intro h hk
    rw [e1, h] at hk
    simp only [Shape.keys, List.append_nil, List.mem_append] at hk
    rcases hk with hk | hk
    · exact lt_irrefl _ (e3 _ hk)
    · exact lt_irrefl _ (e4 _ hk)
  · intro h
    rcases Shape.sub_root key t with h0 | ⟨a, l, r, h0⟩
    · exact h0
    · exfalso; apply h; rw [e1, h0]; simp [Shape.keys]

theorem Rep_sub {mem : List (node K)} (key : K) :
    ∀ t : Shape K, Rep mem t → Rep mem (t.sub key) := by
  intro t
  induction t with
  | nil => intro h; exact h
  | node a l k r ihl ihr =>
    intro h
    simp only [Shape.sub]
    split_ifs
    · exact h
    · exact ihl h.2.1
    · exact ihr h.2.2

theorem Shape.sub_sorted (key : K) : ∀ t : Shape K, t.keys.Sorted (· < ·) →
    (t.sub key).keys.Sorted (· < ·) := by
  intro t
  induction t with
  | nil => intro h; exact h
  | node a l k r ihl ihr =>
    intro h
    obtain ⟨hsl, hsr, _, _⟩ := Shape.sorted_node.mp h
    simp only [Shape.sub]
    split_ifs
    · exact h
    · exact ihl hsl
    · exact ihr hsr

/-- Surgery at the end of a search path: if memory changes only below the end
of the path of `key` and at the link leading to it, which now leads to a
representation of `u`, the whole tree represents `t.graft key u`. -/
theorem Rep_graft {mem mem' : List (node K)} (key : K) (u : Shape K) (hu : Rep mem' u) :
    ∀ t : Shape K, Rep mem t → t.keys.Sorted (· < ·) →
      (∀ a ∈ t.addrs, a ∉ (t.sub key).addrs → some a ≠ t.parentOf key none →
        mem'[a]? = mem[a]?) →
      (∀ pa, t.parentOf key none = some pa → ∃ c c', mem[pa]? = some c ∧ mem'[pa]? = some c' ∧
        c'.key = c.key ∧
        (if key < c.key then c'.left = u.ptr ∧ c'.right = c.right
          else c'.right = u.ptr ∧ c'.left = c.left)) →
      Rep mem' (t.graft key u) := by
  intro t
  induction t with
  | nil => intro _ _ _ _; exact hu
  | node a l k r ihl ihr =>
    intro h hs hsame hpar
    obtain ⟨hsl, hsr, hl, hr⟩ := Shape.sorted_node.mp hs
    obtain ⟨hal, har, hlr⟩ := Rep_sep h hs
    obtain ⟨⟨c, hc, hk, hcl, hcr⟩, h1, h2⟩ := h
    by_cases e1 : k = key
    · simpa [Shape.graft, e1] using hu
    · by_cases e2 : key < k
      · simp only [Shape.graft, e1, e2, if_true, if_false]
        have hsubl : ∀ x ∈ ((Shape.node a l k r).sub key).addrs, x ∈ l.addrs := by
          intro x hx
          simp only [Shape.sub, e1, e2, if_true, if_false] at hx
          exact Shape.sub_addrs key l x hx
        have hr' : Rep mem' r := by
          apply Rep_ext r h2
          intro x hx
          apply hsame x (by simp [Shape.addrs, hx])
          · intro hx'; exact hlr x (hsubl x hx') hx
          · simp only [Shape.parentOf, e1, e2, if_true, if_false]
            rcases Shape.parentOf_cases key l with ⟨hp, _⟩ | ⟨pa, hpa, hp, _⟩
            · rw [hp]; intro e; cases e; exact har hx
            · rw [hp]; intro e; cases e; exact hlr _ hpa hx
        rcases Shape.parentOf_cases key l with ⟨hp, _, hg, _⟩ | ⟨pa, hpa, hp, _⟩
        · obtain ⟨c0, c', hc0, hc', hk', hside⟩ := hpar a (by
            simp [Shape.parentOf, e1, e2, hp])
          rw [hc] at hc0; cases hc0
          rw [hk] at hside hk'
          simp only [e2, if_true] at hside
          rw [hg u]
          exact ⟨⟨c', hc', hk', hside.1, hside.2.trans hcr⟩, hu, hr'⟩
        · have hne : a ≠ pa := fun e => hal (e ▸ hpa)
          have hca : mem'[a]? = mem[a]? := by
            apply hsame a (by simp [Shape.addrs])
            · intro hx'; exact hal (hsubl a hx')
            · simp only [Shape.parentOf, e1, e2, if_true, if_false, hp]
              intro e; cases e; exact hne rfl
          refine ⟨⟨c, hca.trans hc, hk, ?_, hcr⟩, ?_, hr'⟩
          · rw [hcl]
            cases l with
            | nil => simp [Shape.addrs] at hpa
            | node b l1 k1 r1 =>
              simp only [Shape.graft]
              split_ifs with e3 e4
              · exfalso
                have := hp none
                simp [Shape.parentOf, e3] at this
              · rfl
              · rfl
          · apply ihl h1 hsl
            · intro x hx hx1 hx2
              apply hsame x (by simp [Shape.addrs, hx])
              · simpa [Shape.sub, e1, e2] using hx1
              · simp only [Shape.parentOf, e1, e2, if_true, if_false, hp]
                rw [hp] at hx2; exact hx2
            · intro pa' hpa'
              apply hpar pa'
              simp only [Shape.parentOf, e1, e2, if_true, if_false, hp]
              rw [hp] at hpa'; exact hpa'
      · simp only [Shape.graft, e1, e2, if_true, if_false]
        have hsubr : ∀ x ∈ ((Shape.node a l k r).sub key).addrs, x ∈ r.addrs := by
          intro x hx
          simp only [Shape.sub, e1, e2, if_true, if_false] at hx
          exact Shape.sub_addrs key r x hx
        have hl' : Rep mem' l := by
          apply Rep_ext l h1
          intro x hx
          apply hsame x (by simp [Shape.addrs, hx])
          · intro hx'; exact hlr x hx (hsubr x hx')
          · simp only [Shape.parentOf, e1, e2, if_true, if_false]
            rcases Shape.parentOf_cases key r with ⟨hp, _⟩ | ⟨pa, hpa, hp, _⟩
            · rw [hp]; intro e; cases e; exact hal hx
            · rw [hp]; intro e; cases e; exact hlr _ hx hpa
        rcases Shape.parentOf_cases key r with ⟨hp, _, hg, _⟩ | ⟨pa, hpa, hp, _⟩
        · obtain ⟨c0, c', hc0, hc', hk', hside⟩ := hpar a (by
            simp [Shape.parentOf, e1, e2, hp])
          rw [hc] at hc0; cases hc0
          rw [hk] at hside hk'
          simp only [e2, if_false] at hside
          rw [hg u]
          exact ⟨⟨c', hc', hk', hside.2.trans hcl, hside.1⟩, hl', hu⟩
        · have hne : a ≠ pa := fun e => har (e ▸ hpa)
          have hca : mem'[a]? = mem[a]? := by
            apply hsame a (by simp [Shape.addrs])
            · intro hx'; exact har (hsubr a hx')
            · simp only [Shape.parentOf, e1, e2, if_true, if_false, hp]
              intro e; cases e; exact hne rfl
          refine ⟨⟨c, hca.trans hc, hk, hcl, ?_⟩, hl', ?_⟩
          · rw [hcr]
            cases r with
            | nil => simp [Shape.addrs] at hpa
            | node b l1 k1 r1 =>
              simp only [Shape.graft]
              split_ifs with e3 e4
              · exfalso
                have := hp none
                simp [Shape.parentOf, e3] at this
              · rfl
              · rfl
          · apply ihr h2 hsr
            · intro x hx hx1 hx2
              apply hsame x (by simp [Shape.addrs, hx])
              · simpa [Shape.sub, e1, e2] using hx1
              · simp only [Shape.parentOf, e1, e2, if_true, if_false, hp]
                rw [hp] at hx2; exact hx2
            · intro pa' hpa'
              apply hpar pa'
              simp only [Shape.parentOf, e1, e2, if_true, if_false, hp]
              rw [hp] at hpa'; exact hpa'

end scapegoat

namespace scapegoat
variable {K : Type}

theorem Shape.ptr_node (a : Nat) (l r : Shape K) (k : K) :
    (Shape.node a l k r).ptr = some a := rfl

theorem room_step {mem : List (node K)} (hw : WellLinked mem) {a : Nat} {c : node K}
    (hc : mem[a]? = some c) {fuel : Nat} (hf : room mem (some a) ≤ fuel) :
    ∃ f, fuel = f + 1 ∧ room mem c.left ≤ f ∧ room mem c.right ≤ f := by
  have ha : a < mem.length := (List.getElem?_eq_some.mp hc).1
  obtain ⟨hl, hr, _⟩ := hw a c hc
  simp only [room] at hf
  obtain ⟨f, rfl⟩ : ∃ f, fuel = f + 1 := ⟨fuel - 1, by omega⟩
  refine ⟨f, rfl, ?_, ?_⟩
  · cases h : c.left with
    | none => simp [room]
    | some x => have := hl x h; simp only [room]; omega
  · cases h : c.right with
    | none => simp [room]
    | some x => have := hr x h; simp only [room]; omega

/-- Every valid pointer of a well linked memory is the root of a shape. -/
theorem exists_Rep {mem : List (node K)} (hw : WellLinked mem) :
    ∀ (m : Nat) (p : Ptr), room mem p ≤ m → (∀ x, p = some x → x < mem.length) →
      ∃ t : Shape K, Rep mem t ∧ t.ptr = p := by
  intro m
  induction m with
  | zero =>
    intro p hm hv
    cases p with
    | none => exact ⟨Shape.nil, trivial, rfl⟩
    | some a => have := hv a rfl; simp only [room] at hm; omega
  | succ m ih =>
    intro p hm hv
    cases p with
    | none => exact ⟨Shape.nil, trivial, rfl⟩
    | some a =>
      have ha := hv a rfl
      obtain ⟨c, hc⟩ : ∃ c, mem[a]? = some c := ⟨mem[a], List.getElem?_eq_getElem ha⟩
      obtain ⟨f, hf, h1, h2⟩ := room_step hw hc hm
      cases hf
      obtain ⟨hl, hr, _⟩ := hw a c hc
      obtain ⟨l, hl1, hl2⟩ := ih c.left h1 (fun x hx => (hl x hx).2)
      obtain ⟨r, hr1, hr2⟩ := ih c.right h2 (fun x hx => (hr x hx).2)
      exact ⟨Shape.node a l c.key r, ⟨⟨c, hc, rfl, hl2.symm, hr2.symm⟩, hl1, hr1⟩, rfl⟩

theorem sizeOfSubtree_eq {mem : List (node K)} [LinearOrder K] (hw : WellLinked mem) :
    ∀ (t : Shape K), Rep mem t → ∀ fuel, room mem t.ptr ≤ fuel →
      sizeOfSubtree mem fuel t.ptr = some t.size := by
  intro t
  induction t with
  | nil => intro _ fuel _; cases fuel <;> rfl
  | node a l k r ihl ihr =>
    intro h fuel hf
    obtain ⟨⟨c, hc, hk, hcl, hcr⟩, h1, h2⟩ := h
    obtain ⟨f, rfl, hf1, hf2⟩ := room_step hw hc hf
    simp only [Shape.ptr_node, sizeOfSubtree, hc, hcl, hcr, ihl h1 f (hcl ▸ hf1),
      ihr h2 f (hcr ▸ hf2), Shape.size]

theorem flatten_eq {mem : List (node K)} [LinearOrder K] (hw : WellLinked mem) :
    ∀ (t : Shape K), Rep mem t → ∀ fuel acc, room mem t.ptr ≤ fuel →
      ∃ cells, flatten mem fuel t.ptr acc = some (acc ++ cells) ∧
        cells.map node.key = t.keys := by
  intro t
  induction t with
  | nil => intro _ fuel acc _; exact ⟨[], by cases fuel <;> simp [Shape.ptr, flatten], rfl⟩
  | node a l k r ihl ihr =>
    intro h fuel acc hf
    obtain ⟨⟨c, hc, hk, hcl, hcr⟩, h1, h2⟩ := h
    obtain ⟨f, rfl, hf1, hf2⟩ := room_step hw hc hf
    obtain ⟨cl, e1, e2⟩ := ihl h1 f acc (hcl ▸ hf1)
    obtain ⟨cr, e3, e4⟩ := ihr h2 f (acc ++ cl ++ [c]) (hcr ▸ hf2)
    refine ⟨cl ++ c :: cr, ?_, ?_⟩
    · simp only [Shape.ptr_node, flatten, hc, hcl, hcr, e1]
      rw [show acc ++ cl ++ [c] = acc ++ cl ++ [c] from rfl, e3]
      simp
    · simp [Shape.keys, e2, e4, hk]

section ord
variable [LinearOrder K]

theorem searchLoop_eq {mem : List (node K)} (hw : WellLinked mem) (key : K) :
    ∀ (t : Shape K), Rep mem t → ∀ fuel, room mem t.ptr ≤ fuel →
      searchLoop mem key fuel t.ptr = some (t.sub key).ptr.isSome := by
  intro t
  induction t with
  | nil => intro _ fuel _; cases fuel <;> rfl
  | node a l k r ihl ihr =>
    intro h fuel hf
    obtain ⟨⟨c, hc, hk, hcl, hcr⟩, h1, h2⟩ := h
    obtain ⟨f, rfl, hf1, hf2⟩ := room_step hw hc hf
    simp only [Shape.ptr_node, searchLoop, hc, hk, Shape.sub]
    split_ifs with e1 e2
    · rfl
    · rw [hcl]; exact ihl h1 f (hcl ▸ hf1)
    · rw [hcr]; exact ihr h2 f (hcr ▸ hf2)

theorem descend_eq {mem : List (node K)} (hw : WellLinked mem) (key : K) :
    ∀ (t : Shape K), Rep mem t → t.sub key = Shape.nil → ∀ fuel par d, room mem t.ptr ≤ fuel →
      descend mem key fuel t.ptr par d = some (t.parentOf key par, d + t.depthOf key) := by
  intro t
  induction t with
  | nil => intro _ _ fuel par d _; cases fuel <;> rfl
  | node a l k r ihl ihr =>
    intro h hsub fuel par d hf
    obtain ⟨⟨c, hc, hk, hcl, hcr⟩, h1, h2⟩ := h
    obtain ⟨f, rfl, hf1, hf2⟩ := room_step hw hc hf
    simp only [Shape.sub] at hsub
    simp only [Shape.ptr_node, descend, hc, hk, Shape.parentOf, Shape.depthOf]
    split_ifs at hsub ⊢ with e1 e2
    · rw [hcl, ihl h1 hsub f _ _ (hcl ▸ hf1)]; simp [Nat.add_assoc, Nat.add_comm]
    · rw [hcr, ihr h2 hsub f _ _ (hcr ▸ hf2)]; simp [Nat.add_assoc, Nat.add_comm]

theorem removeLoop_eq {mem : List (node K)} (hw : WellLinked mem) (key : K) :
    ∀ (t : Shape K), Rep mem t → ∀ fuel par, room mem t.ptr ≤ fuel →
      removeLoop mem key fuel par t.ptr = some (t.parentOf key par, (t.sub key).ptr) := by
  intro t
  induction t with
  | nil => intro _ fuel par _; cases fuel <;> rfl
  | node a l k r ihl ihr =>
    intro h fuel par hf
    obtain ⟨⟨c, hc, hk, hcl, hcr⟩, h1, h2⟩ := h
    obtain ⟨f, rfl, hf1, hf2⟩ := room_step hw hc hf
    simp only [Shape.ptr_node, removeLoop, hc, hk, Shape.parentOf, Shape.sub]
    by_cases e1 : k = key
    · simp [e1, Shape.ptr_node]
    · by_cases e2 : key < k
      · simp only [e1, e2, ne_eq, not_false_eq_true, if_true, if_false]
        rw [hcl]; exact ihl h1 f _ (hcl ▸ hf1)
      · simp only [e1, e2, ne_eq, not_false_eq_true, if_true, if_false]
        rw [hcr]; exact ihr h2 f _ (hcr ▸ hf2)

theorem room_le_length (mem : List (node K)) (p : Ptr) : room mem p ≤ mem.length := by
  cases p <;> simp [room]

end ord
end scapegoat

namespace scapegoat
variable {K : Type}

theorem store_eq {mem : List (node K)} {a : Nat} {c : node K} (h : mem[a]? = some c)
    (f : node K → node K) : store mem (some a) f = some (mem.set a (f c)) := by
  simp [store, h]

theorem store_some {mem m : List (node K)} {p : Ptr} {f : node K → node K}
    (h : store mem p f = some m) :
    ∃ a c, p = some a ∧ mem[a]? = some c ∧ m = mem.set a (f c) := by
  cases p with
  | none => simp [store] at h
  | some a =>
    simp only [store] at h
    cases hc : mem[a]? with
    | none => simp [hc] at h
    | some c => simp only [hc, Option.some.injEq] at h; exact ⟨a, c, rfl, hc, h.symm⟩

theorem set_same {mem : List (node K)} {a : Nat} {c : node K} (h : mem[a]? = some c) :
    mem.set a c = mem := by
  apply List.ext_getElem?
  intro i
  rw [List.getElem?_set]
  split_ifs with e1 e2
  · subst e1; exact h.symm
  · subst e1; exact (List.getElem?_eq_none (by omega)).symm
  · rfl

theorem WellLinked_set {mem : List (node K)} (hw : WellLinked mem) (a : Nat) (c : node K)
    (hl : ∀ x, c.left = some x → a < x ∧ x < mem.length)
    (hr : ∀ x, c.right = some x → a < x ∧ x < mem.length)
    (hp : ∀ x, c.parent = some x → x < a) : WellLinked (mem.set a c) := by
  intro b cb hb
  rw [List.getElem?_set] at hb
  simp only [List.length_set]
  split_ifs at hb with e1 e2
  · cases hb; subst e1; exact ⟨hl, hr, hp⟩
  · exact hw b cb hb

theorem WellLinked_append {mem : List (node K)} (hw : WellLinked mem) (k : K) :
    WellLinked (mem ++ [{ left := none, right := none, parent := none, key := k }]) := by
  intro b cb hb
  rw [List.getElem?_append] at hb
  split_ifs at hb with e1
  · obtain ⟨h1, h2, h3⟩ := hw b cb hb
    simp only [List.length_append, List.length_singleton]
    exact ⟨fun x hx => ⟨(h1 x hx).1, by have := (h1 x hx).2; omega⟩,
      fun x hx => ⟨(h2 x hx).1, by have := (h2 x hx).2; omega⟩, h3⟩
  · have : b - mem.length = 0 := by
      have := (List.getElem?_eq_some.mp hb).1
      simp at this; omega
    rw [this] at hb
    simp at hb
    subst hb
    simp

theorem Rep_append {mem : List (node K)} (t : Shape K) (h : Rep mem t) (xs : List (node K)) :
    Rep (mem ++ xs) t :=
  Rep_ext t h (fun a ha => List.getElem?_append_left (Rep_addr_lt t h a ha))

theorem Shape.graft_ptr [LinearOrder K] (key : K) (u : Shape K) (t : Shape K) :
    (t.graft key u).ptr = if t.parentOf key none = none then u.ptr else t.ptr := by
  cases t with
  | nil => simp [Shape.graft, Shape.parentOf]
  | node a l k r =>
    have hl : l.parentOf key (some a) ≠ none := by
      rcases Shape.parentOf_cases key l with ⟨h, _⟩ | ⟨pa, _, h, _⟩ <;> rw [h] <;> simp
    have hr : r.parentOf key (some a) ≠ none := by
      rcases Shape.parentOf_cases key r with ⟨h, _⟩ | ⟨pa, _, h, _⟩ <;> rw [h] <;> simp
    by_cases e1 : k = key
    · simp [Shape.graft, Shape.parentOf, e1]
    · by_cases e2 : key < k
      · simp [Shape.graft, Shape.parentOf, e1, e2, hl, Shape.ptr]
      · simp [Shape.graft, Shape.parentOf, e1, e2, hr, Shape.ptr]

section ord
variable [LinearOrder K]

/-- The linking phase of `Insert` for a key that is not in the tree. -/
theorem link_spec {mem : List (node K)} (hw : WellLinked mem) (t : Shape K) (hr : Rep mem t)
    (hs : t.keys.Sorted (· < ·)) (key : K) (hsub : t.sub key = Shape.nil) :
    ∃ m, link (mem ++ [{ left := none, right := none, parent := none, key := key }]) t.ptr
        (some mem.length) key =
        some (m, (t.graft key (Shape.node mem.length Shape.nil key Shape.nil)).ptr,
          t.depthOf key) ∧
      WellLinked m ∧ Rep m (t.graft key (Shape.node mem.length Shape.nil key Shape.nil)) ∧
      m.length = mem.length + 1 ∧
      m[mem.length]? =
        some { left := none, right := none, parent := t.parentOf key none, key := key } := by
  have hw0 := WellLinked_append hw key
  have hr0 := Rep_append t hr [{ left := none, right := none, parent := none, key := key }]
  have hnw := List.getElem?_concat_length mem
    ({ left := none, right := none, parent := none, key := key } : node K)
  rcases Shape.parentOf_cases key t with ⟨hp, hst, hg, hd⟩ | ⟨pa, hpa, hp, hd⟩
  · rw [hsub] at hst
    subst hst
    refine ⟨_, by simp [link, Shape.ptr, Shape.graft, Shape.depthOf], hw0, ?_, by simp, ?_⟩
    · simp only [Shape.graft]
      exact ⟨⟨_, hnw, rfl, rfl, rfl⟩, trivial, trivial⟩
    · simpa [Shape.parentOf] using hnw
  · have hpalt : pa < mem.length := Rep_addr_lt t hr pa hpa
    have hne : mem.length ≠ pa := by omega
    obtain ⟨pc, hpc⟩ : ∃ c, mem[pa]? = some c := ⟨mem[pa], List.getElem?_eq_getElem hpalt⟩
    have hpc0 : (mem ++ [({ left := none, right := none, parent := none, key := key } :
        node K)])[pa]? = some pc := by
      rw [List.getElem?_append_left hpalt]; exact hpc
    have hroot : t.ptr ≠ none := by
      intro h
      rw [Shape.ptr_eq_none.mp h] at hpa
      simp [Shape.addrs] at hpa
    have hdesc := descend_eq hw0 key t hr0 hsub _ none 0 (room_le_length _ t.ptr)
    rw [hp] at hdesc
    have hgp : (t.graft key (Shape.node mem.length Shape.nil key Shape.nil)).ptr = t.ptr := by
      rw [Shape.graft_ptr, hp]; simp
    obtain ⟨hpl, hpr, hpp⟩ := hw pa pc hpc
    generalize hmem0 : mem ++ [(⟨none, none, none, key⟩ : node K)] = mem0 at *
    obtain ⟨m1, hm1⟩ : ∃ m1, m1 = mem0.set mem.length (⟨none, none, some pa, key⟩ : node K) :=
      ⟨_, rfl⟩
    by_cases hlt : key < pc.key
    · obtain ⟨m2, hm2⟩ : ∃ m2, m2 = m1.set pa { pc with left := some mem.length } := ⟨_, rfl⟩
      have e1 : store mem0 (some mem.length) (fun c => { c with parent := some pa }) =
          some m1 := by rw [hm1]; exact store_eq hnw _
      have h1nw : m1[mem.length]? = some (⟨none, none, some pa, key⟩ : node K) := by
        rw [hm1, List.getElem?_set_self]; rw [← hmem0, List.length_append]; simp
      have h1pa : m1[pa]? = some pc := by
        rw [hm1, List.getElem?_set_ne hne]; exact hpc0
      have e2 : load m1 (some mem.length) = some (⟨none, none, some pa, key⟩ : node K) := h1nw
      have e3 : load m1 (some pa) = some pc := h1pa
      have e4 : store m1 (some pa) (fun c => { c with left := some mem.length }) =
          some m2 := by rw [hm2]; exact store_eq h1pa _
      have h2nw : m2[mem.length]? = some (⟨none, none, some pa, key⟩ : node K) := by
        rw [hm2, List.getElem?_set_ne hne.symm]; exact h1nw
      have h2pa : m2[pa]? = some { pc with left := some mem.length } := by
        rw [hm2, List.getElem?_set_self]
        rw [hm1, List.length_set, ← hmem0, List.length_append]; omega
      have e5 : store m2 (some mem.length) (fun c => { c with left := none }) = some m2 := by
        rw [store_eq h2nw]; exact congrArg some (set_same h2nw)
      have e6 : store m2 (some mem.length) (fun c => { c with right := none }) = some m2 := by
        rw [store_eq h2nw]; exact congrArg some (set_same h2nw)
      have hlen : m2.length = mem.length + 1 := by
        rw [hm2, List.length_set, hm1, List.length_set, ← hmem0, List.length_append]; rfl
      refine ⟨m2, ?_, ?_, ?_, hlen, ?_⟩
      · simp only [link, if_neg hroot, hdesc, e1, e2, e3, hlt, if_true, e4, e5, e6, hgp,
          Nat.zero_add]
      · rw [hm2]
        apply WellLinked_set
        · rw [hm1]
          apply WellLinked_set hw0
          · intro x hx; cases hx
          · intro x hx; cases hx
          · intro x hx; cases hx; exact hpalt
        · intro x hx
          simp only [List.length_set, hm1, ← hmem0, List.length_append, List.length_singleton]
          cases hx; omega
        · intro x hx
          simp only [List.length_set, hm1, ← hmem0, List.length_append, List.length_singleton]
          have := hpr x hx; omega
        · exact hpp
      · apply Rep_graft key _ _ t hr0 hs
        · intro a ha _ hne2
          rw [hp] at hne2
          have halt := Rep_addr_lt t hr a ha
          have h1 : pa ≠ a := fun e => hne2 (by rw [e])
          have h2 : mem.length ≠ a := by omega
          rw [hm2, List.getElem?_set_ne h1, hm1, List.getElem?_set_ne h2]
        · intro pa2 hpa2
          rw [hp] at hpa2
          cases hpa2
          refine ⟨pc, _, hpc0, h2pa, rfl, ?_⟩
          simp [hlt, if_true, Shape.ptr]
        · exact ⟨⟨_, h2nw, rfl, rfl, rfl⟩, trivial, trivial⟩
      · rw [hp]; exact h2nw
    · obtain ⟨m2, hm2⟩ : ∃ m2, m2 = m1.set pa { pc with right := some mem.length } := ⟨_, rfl⟩
      have e1 : store mem0 (some mem.length) (fun c => { c with parent := some pa }) =
          some m1 := by rw [hm1]; exact store_eq hnw _
      have h1nw : m1[mem.length]? = some (⟨none, none, some pa, key⟩ : node K) := by
        rw [hm1, List.getElem?_set_self]; rw [← hmem0, List.length_append]; simp
      have h1pa : m1[pa]? = some pc := by
        rw [hm1, List.getElem?_set_ne hne]; exact hpc0
      have e2 : load m1 (some mem.length) = some (⟨none, none, some pa, key⟩ : node K) := h1nw
      have e3 : load m1 (some pa) = some pc := h1pa
      have e4 : store m1 (some pa) (fun c => { c with right := some mem.length }) =
          some m2 := by rw [hm2]; exact store_eq h1pa _
      have h2nw : m2[mem.length]? = some (⟨none, none, some pa, key⟩ : node K) := by
        rw [hm2, List.getElem?_set_ne hne.symm]; exact h1nw
      have h2pa : m2[pa]? = some { pc with right := some mem.length } := by
        rw [hm2, List.getElem?_set_self]
        rw [hm1, List.length_set, ← hmem0, List.length_append]; omega
      have e5 : store m2 (some mem.length) (fun c => { c with left := none }) = some m2 := by
        rw [store_eq h2nw]; exact congrArg some (set_same h2nw)
      have e6 : store m2 (some mem.length) (fun c => { c with right := none }) = some m2 := by
        rw [store_eq h2nw]; exact congrArg some (set_same h2nw)
      have hlen : m2.length = mem.length + 1 := by
        rw [hm2, List.length_set, hm1, List.length_set, ← hmem0, List.length_append]; rfl
      refine ⟨m2, ?_, ?_, ?_, hlen, ?_⟩
      · simp only [link, if_neg hroot, hdesc, e1, e2, e3, hlt, if_false, e4, e5, e6, hgp,
          Nat.zero_add]
      · rw [hm2]
        apply WellLinked_set
        · rw [hm1]
          apply WellLinked_set hw0
          · intro x hx; cases hx
          · intro x hx; cases hx
          · intro x hx; cases hx; exact hpalt
        · intro x hx
          simp only [List.length_set, hm1, ← hmem0, List.length_append, List.length_singleton]
          have := hpl x hx; omega
        · intro x hx
          simp only [List.length_set, hm1, ← hmem0, List.length_append, List.length_singleton]
          cases hx; omega
        · exact hpp
      · apply Rep_graft key _ _ t hr0 hs
        · intro a ha _ hne2
          rw [hp] at hne2
          have halt := Rep_addr_lt t hr a ha
          have h1 : pa ≠ a := fun e => hne2 (by rw [e])
          have h2 : mem.length ≠ a := by omega
          rw [hm2, List.getElem?_set_ne h1, hm1, List.getElem?_set_ne h2]
        · intro pa2 hpa2
          rw [hp] at hpa2
          cases hpa2
          refine ⟨pc, _, hpc0, h2pa, rfl, ?_⟩
          simp [hlt, if_false, Shape.ptr]
        · exact ⟨⟨_, h2nw, rfl, rfl, rfl⟩, trivial, trivial⟩
      · rw [hp]; exact h2nw

end ord
end scapegoat

namespace scapegoat
variable {K : Type}

theorem slice_split {α : Type} (xs : List α) (lo len h : Nat) (hh : h < len) (x : α)
    (hx : xs[lo + h]? = some x) :
    (xs.drop lo).take len =
      (xs.drop lo).take h ++ x :: (xs.drop (lo + h + 1)).take (len - 1 - h) := by
  obtain ⟨hlt, rfl⟩ := List.getElem?_eq_some.mp hx
  have e : len = h + ((len - 1 - h) + 1) := by omega
  conv_lhs => rw [e, List.take_add, List.drop_drop]
  congr 1
  rw [List.drop_eq_getElem_cons hlt, List.take_succ_cons]

theorem Shape.ptr_mem_addrs {t : Shape K} {x : Nat} (h : t.ptr = some x) : x ∈ t.addrs := by
  cases t with
  | nil => cases h
  | node a l k r => cases h; simp [Shape.addrs]

variable [LinearOrder K]

/-- Building from the slice `nodes[lo .. lo+len-1]` allocates `len` fresh
cells that represent a tree with exactly the keys of the slice, in order. -/
theorem build_spec (nodes : List (node K)) :
    ∀ (fuel : Nat) (mem : List (node K)) (lo len : Nat), len ≤ fuel →
      lo + len ≤ nodes.length → WellLinked mem →
      ∃ m u, buildTreeFromSortedList nodes fuel mem (lo : Int) ((lo : Int) + len - 1) =
          some (m, u.ptr) ∧
        WellLinked m ∧ Rep m u ∧ m.length = mem.length + len ∧
        (∀ a, a < mem.length → m[a]? = mem[a]?) ∧ (∀ a ∈ u.addrs, mem.length ≤ a) ∧
        u.keys = ((nodes.drop lo).take len).map node.key := by
  intro fuel
  induction fuel with
  | zero =>
    intro mem lo len h1 _ hw
    have : len = 0 := by omega
    subst this
    refine ⟨mem, Shape.nil, ?_, hw, trivial, rfl, fun _ _ => rfl, ?_, by simp [Shape.keys]⟩
    · simp [buildTreeFromSortedList, Shape.ptr]
    · intro a ha; simp [Shape.addrs] at ha
  | succ fuel ih =>
    intro mem lo len h1 h2 hw
    by_cases h0 : len = 0
    · subst h0
      refine ⟨mem, Shape.nil, ?_, hw, trivial, rfl, fun _ _ => rfl, ?_, by simp [Shape.keys]⟩
      · simp [buildTreeFromSortedList, Shape.ptr]
      · intro a ha; simp [Shape.addrs] at ha
    · obtain ⟨h, hh⟩ : ∃ h : Nat, h = (len - 1) / 2 := ⟨_, rfl⟩
      have hmid : (lo : Int) + ((lo : Int) + len - 1 - lo).tdiv 2 = ((lo + h : Nat) : Int) := by
        rw [Int.tdiv_eq_ediv (by omega) (by omega)]
        omega
      have hlt : lo + h < nodes.length := by omega
      obtain ⟨src, hsrc⟩ : ∃ c, nodes[lo + h]? = some c :=
        ⟨nodes[lo + h], List.getElem?_eq_getElem hlt⟩
      obtain ⟨mem1, hmem1⟩ : ∃ mem1, mem1 = mem ++ [(⟨none, none, none, src.key⟩ : node K)] :=
        ⟨_, rfl⟩
      have hw1 : WellLinked mem1 := hmem1 ▸ WellLinked_append hw src.key
      have hlen1 : mem1.length = mem.length + 1 := by rw [hmem1]; simp
      have h1nd : mem1[mem.length]? = some (⟨none, none, none, src.key⟩ : node K) := by
        rw [hmem1]; exact List.getElem?_concat_length _ _
      obtain ⟨m2, ul, e2, hw2, hr2, hlen2, hpre2, hfresh2, hk2⟩ :=
        ih mem1 lo h (by omega) (by omega) hw1
      have h2nd : m2[mem.length]? = some (⟨none, none, none, src.key⟩ : node K) := by
        rw [hpre2 _ (by omega)]; exact h1nd
      obtain ⟨m3, hm3⟩ : ∃ m3, m3 = m2.set mem.length
          (⟨ul.ptr, none, none, src.key⟩ : node K) := ⟨_, rfl⟩
      have e3 : store m2 (some mem.length) (fun c => { c with left := ul.ptr }) = some m3 := by
        rw [hm3]; exact store_eq h2nd _
      have hlen3 : m3.length = m2.length := by rw [hm3, List.length_set]
      have hulp : ∀ x, ul.ptr = some x → mem.length < x ∧ x < m2.length := by
        intro x hx
        have hx' := Shape.ptr_mem_addrs hx
        exact ⟨by have := hfresh2 x hx'; omega, Rep_addr_lt ul hr2 x hx'⟩
      have hw3 : WellLinked m3 := by
        rw [hm3]
        apply WellLinked_set hw2
        · exact hulp
        · intro x hx; cases hx
        · intro x hx; cases hx
      have h3nd : m3[mem.length]? = some (⟨ul.ptr, none, none, src.key⟩ : node K) := by
        rw [hm3, List.getElem?_set_self]; omega
      obtain ⟨m4, ur, e4, hw4, hr4, hlen4, hpre4, hfresh4, hk4⟩ :=
        ih m3 (lo + h + 1) (len - 1 - h) (by omega) (by omega) hw3
      have h4nd : m4[mem.length]? = some (⟨ul.ptr, none, none, src.key⟩ : node K) := by
        rw [hpre4 _ (by omega)]; exact h3nd
      obtain ⟨m5, hm5⟩ : ∃ m5, m5 = m4.set mem.length
          (⟨ul.ptr, ur.ptr, none, src.key⟩ : node K) := ⟨_, rfl⟩
      have e5 : store m4 (some mem.length) (fun c => { c with right := ur.ptr }) = some m5 := by
        rw [hm5]; exact store_eq h4nd _
      have hurp : ∀ x, ur.ptr = some x → mem.length < x ∧ x < m4.length := by
        intro x hx
        have hx' := Shape.ptr_mem_addrs hx
        exact ⟨by have := hfresh4 x hx'; omega, Rep_addr_lt ur hr4 x hx'⟩
      have h5nd : m5[mem.length]? = some (⟨ul.ptr, ur.ptr, none, src.key⟩ : node K) := by
        rw [hm5, List.getElem?_set_self]; omega
      have hrl : Rep m5 ul := by
        apply Rep_ext ul hr2
        intro a ha
        have ha1 := hfresh2 a ha
        have ha2 := Rep_addr_lt ul hr2 a ha
        rw [hm5, List.getElem?_set_ne (by omega), hpre4 a (by omega), hm3,
          List.getElem?_set_ne (by omega)]
      have hrr : Rep m5 ur := by
        apply Rep_ext ur hr4
        intro a ha
        have ha1 := hfresh4 a ha
        rw [hm5, List.getElem?_set_ne (by omega)]
      refine ⟨m5, Shape.node mem.length ul src.key ur, ?_, ?_, ?_, ?_, ?_, ?_, ?_⟩
      · have e1 : ¬ ((lo : Int) > (lo : Int) + len - 1) := by omega
        have e6 : ¬ (((lo + h : Nat) : Int) < 0) := by omega
        have e7 : (((lo + h : Nat) : Int)).toNat = lo + h := by omega
        have e8 : ((lo + h : Nat) : Int) - 1 = (lo : Int) + (h : Nat) - 1 := by omega
        have e9 : ((lo + h : Nat) : Int) + 1 = ((lo + h + 1 : Nat) : Int) := by omega
        have e10 : (lo : Int) + len - 1 = ((lo + h + 1 : Nat) : Int) + ((len - 1 - h : Nat) : Int)
            - 1 := by omega
        simp only [buildTreeFromSortedList, if_neg e1, hmid, if_neg e6, e7, hsrc, e8]
        rw [← hmem1, e2]
        simp only [e3, e9]
        rw [e10, e4]
        simp only [e5, Shape.ptr_node]
      · rw [hm5]
        apply WellLinked_set hw4
        · intro x hx
          have := hulp x hx
          omega
        · exact hurp
        · intro x hx; cases hx
      · exact ⟨⟨_, h5nd, rfl, rfl, rfl⟩, hrl, hrr⟩
      · rw [hm5, List.length_set]; omega
      · intro a ha
        rw [hm5, List.getElem?_set_ne (by omega), hpre4 a (by omega), hm3,
          List.getElem?_set_ne (by omega), hpre2 a (by omega), hmem1,
          List.getElem?_append_left ha]
      · intro a ha
        simp only [Shape.addrs, List.mem_cons, List.mem_append] at ha
        rcases ha with rfl | ha | ha
        · exact le_refl _
        · have := hfresh2 a ha; omega
        · have := hfresh4 a ha; omega
      · rw [slice_split nodes lo len h (by omega) src hsrc]
        simp [Shape.keys, hk2, hk4]

end scapegoat

namespace scapegoat
variable {K : Type}

/-- A representation only depends on the keys and child links of its cells. -/
theorem Rep_links {mem mem' : List (node K)} :
    ∀ t : Shape K, Rep mem t →
      (∀ a ∈ t.addrs, ∀ c, mem[a]? = some c →
        ∃ c', mem'[a]? = some c' ∧ c'.left = c.left ∧ c'.right = c.right ∧ c'.key = c.key) →
      Rep mem' t := by
  intro t
  induction t with
  | nil => intro _ _; trivial
  | node a l k r ihl ihr =>
    intro h hs
    obtain ⟨⟨c, hc, hk, hl, hr⟩, h1, h2⟩ := h
    obtain ⟨c', hc', e1, e2, e3⟩ := hs a (by simp [Shape.addrs]) c hc
    refine ⟨⟨c', hc', e3.trans hk, e1.trans hl, e2.trans hr⟩, ihl h1 ?_, ihr h2 ?_⟩
    · intro x hx; exact hs x (by simp [Shape.addrs, hx])
    · intro x hx; exact hs x (by simp [Shape.addrs, hx])

/-- Replacing what the cell `sg` represents by a tree with the same keys
keeps the keys of every tree of the memory. -/
theorem Rep_replace {mem mem' : List (node K)} (sg : Nat)
    (hsg : ∀ u : Shape K, Rep mem u → u.ptr = some sg →
      ∃ u', Rep mem' u' ∧ u'.ptr = some sg ∧ u'.keys = u.keys) :
    ∀ t : Shape K, Rep mem t → (∀ a ∈ t.addrs, a ≠ sg → mem'[a]? = mem[a]?) →
      ∃ t', Rep mem' t' ∧ t'.ptr = t.ptr ∧ t'.keys = t.keys := by
  intro t
  induction t with
  | nil => intro _ _; exact ⟨Shape.nil, trivial, rfl, rfl⟩
  | node a l k r ihl ihr =>
    intro h hs
    by_cases e : a = sg
    · subst e
      exact hsg _ h rfl
    · obtain ⟨⟨c, hc, hk, hl, hr⟩, h1, h2⟩ := h
      obtain ⟨l', hl1, hl2, hl3⟩ := ihl h1 (fun x hx => hs x (by simp [Shape.addrs, hx]))
      obtain ⟨r', hr1, hr2, hr3⟩ := ihr h2 (fun x hx => hs x (by simp [Shape.addrs, hx]))
      refine ⟨Shape.node a l' k r', ⟨⟨c, ?_, hk, hl.trans hl2.symm, hr.trans hr2.symm⟩,
        hl1, hr1⟩, rfl, by simp [Shape.keys, hl3, hr3]⟩
      rw [hs a (by simp [Shape.addrs]) e]; exact hc

theorem Shape.size_pos_of_ptr {t : Shape K} {x : Nat} (h : t.ptr = some x) : 0 < t.size := by
  cases t with
  | nil => cases h
  | node a l k r => simp only [Shape.size]; omega

variable [LinearOrder K]

/-- Function `findScapegoat` started at an allocated cell returns an allocated cell,
never `nil`. -/
theorem findScapegoat_spec {mem : List (node K)} (hw : WellLinked mem) :
    ∀ (fuel a : Nat), a < mem.length → a ≤ fuel →
      ∃ sg, findScapegoat mem fuel (some a) = some (some sg) ∧ sg < mem.length := by
  intro fuel
  induction fuel with
  | zero =>
    intro a ha hf
    obtain ⟨c, hc⟩ : ∃ c, mem[a]? = some c := ⟨mem[a], List.getElem?_eq_getElem ha⟩
    obtain ⟨_, _, hp⟩ := hw a c hc
    have hpn : c.parent = none := by
      cases h : c.parent with
      | none => rfl
      | some x => have := hp x h; omega
    obtain ⟨u, hu1, hu2⟩ := exists_Rep hw mem.length (some a) (room_le_length _ _)
      (fun x hx => by cases hx; exact ha)
    have hsz := sizeOfSubtree_eq hw u hu1 mem.length (room_le_length _ _)
    rw [hu2] at hsz
    have hpos := Shape.size_pos_of_ptr hu2
    refine ⟨a, ?_, ha⟩
    unfold findScapegoat
    simp only [load, hc, hsz, hpn]
    have : sizeOfSubtree mem mem.length none = some 0 := by cases mem.length <;> rfl
    rw [this]
    simp only []
    rw [if_neg (by omega)]
  | succ fuel ih =>
    intro a ha hf
    obtain ⟨c, hc⟩ : ∃ c, mem[a]? = some c := ⟨mem[a], List.getElem?_eq_getElem ha⟩
    obtain ⟨_, _, hp⟩ := hw a c hc
    obtain ⟨u, hu1, hu2⟩ := exists_Rep hw mem.length (some a) (room_le_length _ _)
      (fun x hx => by cases hx; exact ha)
    have hsz := sizeOfSubtree_eq hw u hu1 mem.length (room_le_length _ _)
    rw [hu2] at hsz
    have hpos := Shape.size_pos_of_ptr hu2
    cases hpar : c.parent with
    | none =>
      refine ⟨a, ?_, ha⟩
      unfold findScapegoat
      simp only [load, hc, hsz, hpar]
      have : sizeOfSubtree mem mem.length none = some 0 := by cases mem.length <;> rfl
      rw [this]
      simp only []
      rw [if_neg (by omega)]
    | some x =>
      have hx := hp x hpar
      obtain ⟨v, hv1, hv2⟩ := exists_Rep hw mem.length (some x) (room_le_length _ _)
        (fun y hy => by cases hy; omega)
      have hszp := sizeOfSubtree_eq hw v hv1 mem.length (room_le_length _ _)
      rw [hv2] at hszp
      by_cases hcond : 3 * u.size ≤ 2 * v.size
      · obtain ⟨sg, e, hsg⟩ := ih x (by omega) (by omega)
        refine ⟨sg, ?_, hsg⟩
        unfold findScapegoat
        simp only [load, hc, hsz, hpar, hszp, if_pos hcond, e]
      · refine ⟨a, ?_, ha⟩
        unfold findScapegoat
        simp only [load, hc, hsz, hpar, hszp, if_neg hcond]

/-- Function `rebalance` leaves old cells alone and returns a fresh tree with the
keys of the flattened one, in the same order. -/
theorem rebalance_spec (s : Scapegoat K) (hw : WellLinked s.mem) (u : Shape K)
    (hu : Rep s.mem u) :
    ∃ m v, rebalance s u.ptr =
        some ({ s with
          mem := m,
          Stats := { s.Stats with TotalRebalances := s.Stats.TotalRebalances + 1 } }, v.ptr) ∧
      WellLinked m ∧ Rep m v ∧ m.length = s.mem.length + u.size ∧
      (∀ a, a < s.mem.length → m[a]? = s.mem[a]?) ∧ (∀ a ∈ v.addrs, s.mem.length ≤ a) ∧
      v.keys = u.keys := by
  obtain ⟨cells, e1, e2⟩ := flatten_eq hw u hu s.mem.length [] (room_le_length _ _)
  obtain ⟨m, v, e3, hwm, hrv, hlen, hpre, hfresh, hk⟩ :=
    build_spec cells cells.length s.mem 0 cells.length (le_refl _) (by omega) hw
  have hsz : u.size = cells.length := by
    rw [Shape.size_eq_length, ← e2, List.length_map]
  refine ⟨m, v, ?_, hwm, hrv, by rw [hlen, hsz], hpre, hfresh, ?_⟩
  · simp only [List.nil_append] at e1
    simp only [Nat.cast_zero, zero_add] at e3
    simp only [rebalance, e1, e3]
  · rw [hk, ← e2]; simp

end scapegoat

namespace scapegoat
variable {K : Type}

/-- The conditional assignment `if p != nil { p.parent = sg }`. -/
theorem reparent_spec {m3 : List (node K)} (hw3 : WellLinked m3) (p : Ptr) (sg : Nat)
    (hp : ∀ x, p = some x → sg < x ∧ x < m3.length) :
    ∃ m4, (if p ≠ none then store m3 p (fun c => { c with parent := some sg }) else some m3) =
        some m4 ∧
      WellLinked m4 ∧ m4.length = m3.length ∧ (∀ a : Nat, p ≠ some a → m4[a]? = m3[a]?) ∧
      (∀ (a : Nat) (c : node K), m3[a]? = some c →
        ∃ c', m4[a]? = some c' ∧ c'.left = c.left ∧ c'.right = c.right ∧ c'.key = c.key) := by
  cases p with
  | none =>
    exact ⟨m3, by simp, hw3, rfl, fun _ _ => rfl, fun a c h => ⟨c, h, rfl, rfl, rfl⟩⟩
  | some x =>
    obtain ⟨h1, h2⟩ := hp x rfl
    obtain ⟨cx, hcx⟩ : ∃ c, m3[x]? = some c := ⟨m3[x], List.getElem?_eq_getElem h2⟩
    obtain ⟨hl, hr, _⟩ := hw3 x cx hcx
    refine ⟨m3.set x { cx with parent := some sg }, ?_, ?_, by simp, ?_, ?_⟩
    · rw [if_pos (by simp)]; exact store_eq hcx _
    · apply WellLinked_set hw3
      · exact hl
      · exact hr
      · intro y hy; cases hy; exact h1
    · intro a ha
      rw [List.getElem?_set_ne]
      intro e; exact ha (by rw [e])
    · intro a c hc
      by_cases e : x = a
      · subst e
        rw [hcx] at hc; cases hc
        exact ⟨_, List.getElem?_set_self h2, rfl, rfl, rfl⟩
      · exact ⟨c, by rw [List.getElem?_set_ne e]; exact hc, rfl, rfl, rfl⟩

/-- The pointer assignments of `Insert` after a rebuild: the scapegoat cell
takes over the key and the children of the rebuilt root. -/
theorem splice_spec {m : List (node K)} (hw : WellLinked m) (sg nd : Nat) (csg : node K)
    (hsg : m[sg]? = some csg) (vl vr : Shape K) (vk : K)
    (hv : Rep m (Shape.node nd vl vk vr))
    (hfresh : ∀ a ∈ (Shape.node nd vl vk vr).addrs, sg < a) :
    ∃ m5, splice m (some sg) (some nd) = some m5 ∧ WellLinked m5 ∧ m5.length = m.length ∧
      Rep m5 (Shape.node sg vl vk vr) ∧
      (∀ a, a ≠ sg → a ∉ (Shape.node nd vl vk vr).addrs → m5[a]? = m[a]?) := by
  obtain ⟨⟨cnd, hcnd, hk, hl, hr⟩, hrl, hrr⟩ := hv
  have hsglt : sg < m.length := (List.getElem?_eq_some.mp hsg).1
  have hne : sg ≠ nd := by
    have := hfresh nd (by simp [Shape.addrs]); omega
  have hfl : ∀ a ∈ vl.addrs, sg < a := fun a ha => hfresh a (by simp [Shape.addrs, ha])
  have hfr : ∀ a ∈ vr.addrs, sg < a := fun a ha => hfresh a (by simp [Shape.addrs, ha])
  obtain ⟨hsl, hsr, hsp⟩ := hw sg csg hsg
  obtain ⟨m1, hm1⟩ : ∃ m1, m1 = m.set sg (⟨vl.ptr, csg.right, csg.parent, csg.key⟩ : node K) :=
    ⟨_, rfl⟩
  obtain ⟨m2, hm2⟩ : ∃ m2, m2 = m1.set sg (⟨vl.ptr, vr.ptr, csg.parent, csg.key⟩ : node K) :=
    ⟨_, rfl⟩
  obtain ⟨m3, hm3⟩ : ∃ m3, m3 = m2.set sg (⟨vl.ptr, vr.ptr, csg.parent, vk⟩ : node K) :=
    ⟨_, rfl⟩
  have hlen1 : m1.length = m.length := by rw [hm1, List.length_set]
  have hlen2 : m2.length = m.length := by rw [hm2, List.length_set, hlen1]
  have hlen3 : m3.length = m.length := by rw [hm3, List.length_set, hlen2]
  have e0 : load m (some nd) = some cnd := hcnd
  have e1 : store m (some sg) (fun c => { c with left := cnd.left }) = some m1 := by
    rw [hm1, ← hl]; exact store_eq hsg _
  have h1sg : m1[sg]? = some (⟨vl.ptr, csg.right, csg.parent, csg.key⟩ : node K) := by
    rw [hm1, List.getElem?_set_self hsglt]
  have e2 : load m1 (some nd) = some cnd := by
    show m1[nd]? = some cnd
    rw [hm1, List.getElem?_set_ne hne]; exact hcnd
  have e3 : store m1 (some sg) (fun c => { c with right := cnd.right }) = some m2 := by
    rw [hm2, ← hr]; exact store_eq h1sg _
  have h2sg : m2[sg]? = some (⟨vl.ptr, vr.ptr, csg.parent, csg.key⟩ : node K) := by
    rw [hm2, List.getElem?_set_self (by omega)]
  have e4 : load m2 (some nd) = some cnd := by
    show m2[nd]? = some cnd
    rw [hm2, List.getElem?_set_ne hne]; exact e2
  have e5 : store m2 (some sg) (fun c => { c with key := cnd.key }) = some m3 := by
    rw [hm3, ← hk]; exact store_eq h2sg _
  have h3sg : m3[sg]? = some (⟨vl.ptr, vr.ptr, csg.parent, vk⟩ : node K) := by
    rw [hm3, List.getElem?_set_self (by omega)]
  have h3other : ∀ a, a ≠ sg → m3[a]? = m[a]? := by
    intro a ha
    rw [hm3, List.getElem?_set_ne (Ne.symm ha), hm2, List.getElem?_set_ne (Ne.symm ha), hm1,
      List.getElem?_set_ne (Ne.symm ha)]
  have hvlp : ∀ x, vl.ptr = some x → sg < x ∧ x < m3.length := by
    intro x hx
    have hx' := Shape.ptr_mem_addrs hx
    exact ⟨hfl x hx', by rw [hlen3]; exact Rep_addr_lt vl hrl x hx'⟩
  have hvrp : ∀ x, vr.ptr = some x → sg < x ∧ x < m3.length := by
    intro x hx
    have hx' := Shape.ptr_mem_addrs hx
    exact ⟨hfr x hx', by rw [hlen3]; exact Rep_addr_lt vr hrr x hx'⟩
  have hw3 : WellLinked m3 := by
    rw [hm3]
    apply WellLinked_set
    · rw [hm2]
      apply WellLinked_set
      · rw [hm1]
        apply WellLinked_set hw
        · intro x hx; have := hvlp x hx; omega
        · exact hsr
        · exact hsp
      · intro x hx; have := hvlp x hx; simp only [List.length_set, hm1]; omega
      · intro x hx; have := hvrp x hx; simp only [List.length_set, hm1]; omega
      · exact hsp
    · intro x hx; have := hvlp x hx; simp only [List.length_set, hm1, hm2]; omega
    · intro x hx; have := hvrp x hx; simp only [List.length_set, hm1, hm2]; omega
    · exact hsp
  obtain ⟨m4, e6, hw4, hlen4, hsame4, hlinks4⟩ := reparent_spec hw3 vl.ptr sg hvlp
  have h4sg : m4[sg]? = some (⟨vl.ptr, vr.ptr, csg.parent, vk⟩ : node K) := by
    rw [hsame4 sg]
    · exact h3sg
    · intro e; have := (hvlp sg e).1; omega
  obtain ⟨m5, e7, hw5, hlen5, hsame5, hlinks5⟩ :=
    reparent_spec hw4 vr.ptr sg (fun x hx => by rw [hlen4]; exact hvrp x hx)
  have h5sg : m5[sg]? = some (⟨vl.ptr, vr.ptr, csg.parent, vk⟩ : node K) := by
    rw [hsame5 sg]
    · exact h4sg
    · intro e; have := (hvrp sg e).1; omega
  have hrep : ∀ w : Shape K, Rep m w → (∀ a ∈ w.addrs, sg < a) → Rep m5 w := by
    intro w hw1 hw2
    have h3 : Rep m3 w := Rep_ext w hw1 (fun a ha => h3other a (by have := hw2 a ha; omega))
    exact Rep_links w (Rep_links w h3 (fun a _ c hc => hlinks4 a c hc))
      (fun a _ c hc => hlinks5 a c hc)
  refine ⟨m5, ?_, hw5, by rw [hlen5, hlen4, hlen3], ?_, ?_⟩
  · have e3sg : load m3 (some sg) = some (⟨vl.ptr, vr.ptr, csg.parent, vk⟩ : node K) := h3sg
    have e4sg : load m4 (some sg) = some (⟨vl.ptr, vr.ptr, csg.parent, vk⟩ : node K) := h4sg
    simp only [splice, e0, e1, e2, e3, e4, e5, e3sg, e6, e4sg, e7]
  · exact ⟨⟨_, h5sg, rfl, rfl, rfl⟩, hrep vl hrl hfl, hrep vr hrr hfr⟩
  · intro a ha1 ha2
    simp only [Shape.addrs, List.mem_cons, List.mem_append, not_or] at ha2
    rw [hsame5 a, hsame4 a, h3other a ha1]
    · intro e; exact ha2.2.1 (Shape.ptr_mem_addrs e)
    · intro e; exact ha2.2.2 (Shape.ptr_mem_addrs e)

end scapegoat

namespace scapegoat
variable {K : Type} [LinearOrder K]

theorem Shape.ptr_nil : (Shape.nil : Shape K).ptr = none := rfl

theorem searchHelper_eq (s : Scapegoat K) (hw : WellLinked s.mem) (t : Shape K)
    (hr : Rep s.mem t) (hp : t.ptr = s.root) (key : K) (logStat : Bool) :
    searchHelper s key logStat =
      some (if logStat then
          { s with Stats := { s.Stats with TotalSearches := s.Stats.TotalSearches + 1 } }
        else s, (t.sub key).ptr.isSome) := by
  have h := searchLoop_eq hw key t hr s.mem.length (room_le_length _ _)
  rw [hp] at h
  simp only [searchHelper, h]
  cases logStat <;> simp

theorem keys_eq (s : Scapegoat K) (hw : WellLinked s.mem) (t : Shape K)
    (hr : Rep s.mem t) (hp : t.ptr = s.root) : keys s = t.keys := by
  obtain ⟨cells, e1, e2⟩ := flatten_eq hw t hr s.mem.length [] (room_le_length _ _)
  rw [hp] at e1
  simp only [keys, e1, List.nil_append, e2]

theorem Shape.sub_isSome_iff (key : K) (t : Shape K) (hs : t.keys.Sorted (· < ·)) :
    (t.sub key).ptr.isSome = true ↔ key ∈ t.keys := by
  rw [← not_iff_not, ← Shape.sub_eq_nil_iff key t hs, ← Shape.ptr_eq_none]
  cases (t.sub key).ptr <;> simp

/-- Function `Insert` of a key that is in the tree changes nothing. -/
theorem Insert_dup (s : Scapegoat K) (hw : WellLinked s.mem) (t : Shape K)
    (hr : Rep s.mem t) (hp : t.ptr = s.root) (hs : t.keys.Sorted (· < ·)) (key : K)
    (hk : key ∈ t.keys) : Insert s key = some (s, none) := by
  have h := searchHelper_eq
    { s with mem := s.mem ++ [{ left := none, right := none, parent := none, key := key }] }
    (WellLinked_append hw key) t (Rep_append t hr _) hp key false
  rw [(Shape.sub_isSome_iff key t hs).mpr hk] at h
  simp only [Insert, h]

/-- Function `Insert` of a key that is not in the tree. -/
theorem Insert_new (s : Scapegoat K) (hw : WellLinked s.mem) (t : Shape K)
    (hr : Rep s.mem t) (hp : t.ptr = s.root) (hs : t.keys.Sorted (· < ·)) (key : K)
    (hk : key ∉ t.keys) (hq1 : s.q.tdiv 2 ≤ s.n) (hq2 : s.n ≤ s.q) (hn : 0 ≤ s.n) :
    ∃ s1 t1, Insert s key = some (s1, none) ∧ WellLinked s1.mem ∧ Rep s1.mem t1 ∧
      t1.ptr = s1.root ∧
      t1.keys = (t.graft key (Shape.node s.mem.length Shape.nil key Shape.nil)).keys ∧
      s1.n = s.n + 1 ∧ s1.q = s.q + 1 ∧ s1.alpha = s.alpha ∧
      s1.Stats = statsAfterInsert s.Stats (exceedsLog (t.depthOf key) (s.q + 1) s.alpha) := by
  have hsub : t.sub key = Shape.nil := (Shape.sub_eq_nil_iff key t hs).mpr hk
  have h := searchHelper_eq
    { s with mem := s.mem ++ [{ left := none, right := none, parent := none, key := key }] }
    (WellLinked_append hw key) t (Rep_append t hr _) hp key false
  rw [hsub] at h
  simp only [Shape.ptr_nil, Option.isSome_none, Bool.false_eq_true, if_false] at h
  obtain ⟨m, hlink, hwm, hrm, hlen, hnew⟩ := link_spec hw t hr hs key hsub
  rw [hp] at hlink
  have hc1 : ¬ ¬ ((s.q + 1).tdiv 2 ≤ s.n + 1 ∧ s.n + 1 ≤ s.q + 1) := by
    rw [Int.tdiv_eq_ediv (by omega) (by omega)]
    rw [Int.tdiv_eq_ediv (by omega) (by omega)] at hq1
    omega
  by_cases hex : exceedsLog (t.depthOf key) (s.q + 1) s.alpha = true
  · obtain ⟨sg, hfs, hsg⟩ := findScapegoat_spec hwm m.length s.mem.length (by omega) (by omega)
    obtain ⟨u, hu1, hu2⟩ := exists_Rep hwm m.length (some sg) (room_le_length _ _)
      (fun x hx => by cases hx; exact hsg)
    obtain ⟨m', v, hreb, hwm', hrv, hlen', hpre, hfresh, hvk⟩ := rebalance_spec
      { s with
        mem := m,
        root := (t.graft key (Shape.node s.mem.length Shape.nil key Shape.nil)).ptr,
        Stats := { s.Stats with
          TotalInserts := s.Stats.TotalInserts + 1,
          TotalRebalancesAfterInsert := s.Stats.TotalRebalancesAfterInsert + 1 },
        n := s.n + 1, q := s.q + 1 } hwm u hu1
    rw [hu2] at hreb
    simp only at hpre hfresh hlen'
    cases u with
    | nil => cases hu2
    | node sg0 ul uk ur =>
      cases hu2
      cases v with
      | nil => simp [Shape.keys] at hvk
      | node nd vl vk vr =>
        obtain ⟨csg, hcsg⟩ : ∃ c, m'[sg]? = some c :=
          List.getElem?_eq_some.mpr ⟨by omega, rfl⟩ |> fun h => ⟨_, h⟩
        obtain ⟨m5, hspl, hw5, hlen5, hr5, hsame5⟩ := splice_spec hwm' sg nd csg hcsg vl vr vk hrv
          (fun a ha => by have := hfresh a ha; omega)
        obtain ⟨t1, ht1, ht2, ht3⟩ := @Rep_replace K m m5 sg
          (fun u0 hu0 hu0p => by
            have := Rep_unique u0 (Shape.node sg ul uk ur) hu0 hu1 (by rw [hu0p]; rfl)
            subst this
            exact ⟨Shape.node sg vl vk vr, hr5, rfl, by
              simp only [Shape.keys] at hvk ⊢; exact hvk⟩)
          _ hrm (fun a ha hne => by
            have halt := Rep_addr_lt _ hrm a ha
            rw [hsame5 a hne (fun hav => by have := hfresh a hav; omega), hpre a halt])
        refine ⟨⟨m5, (t.graft key (Shape.node s.mem.length Shape.nil key Shape.nil)).ptr,
            s.alpha, s.n + 1, s.q + 1, statsAfterInsert s.Stats true⟩, t1, ?_, ?_, ht1, ?_, ht3, ?_, ?_, ?_, ?_⟩
        · simp only [Insert, h, hlink, hex, if_true, hfs, hreb, Shape.ptr_node, hspl, hc1,
            if_false]
          rfl
        · exact hw5
        · exact ht2
        · rfl
        · rfl
        · rfl
        · simp [statsAfterInsert, hex]
  · refine ⟨⟨m, (t.graft key (Shape.node s.mem.length Shape.nil key Shape.nil)).ptr,
      s.alpha, s.n + 1, s.q + 1, statsAfterInsert s.Stats false⟩, _, ?_, hwm, hrm, ?_, rfl, ?_, ?_, ?_, ?_⟩
    · simp only [Insert, h, hlink, hex]
      rfl
    · rfl
    · rfl
    · rfl
    · rfl
    · simp [statsAfterInsert, hex]

end scapegoat

namespace scapegoat
variable {K : Type} [LinearOrder K]

/-- The last cell passed before the end of a search path is the root of a
subtree one of whose children is the end of the path. -/
theorem parent_node {mem : List (node K)} (key : K) :
    ∀ t : Shape K, Rep mem t → t.keys.Sorted (· < ·) → ∀ pa, t.parentOf key none = some pa →
      ∃ l k r, Rep mem (Shape.node pa l k r) ∧ (Shape.node pa l k r).keys.Sorted (· < ·) ∧
        k ≠ key ∧ (if key < k then l = t.sub key else r = t.sub key) := by
  intro t
  induction t with
  | nil => intro _ _ pa h; simp [Shape.parentOf] at h
  | node a l k r ihl ihr =>
    intro h hs pa hpa
    obtain ⟨hsl, hsr, _, _⟩ := Shape.sorted_node.mp hs
    by_cases e1 : k = key
    · simp [Shape.parentOf, e1] at hpa
    · by_cases e2 : key < k
      · simp only [Shape.parentOf, Shape.sub, e1, e2, if_true, if_false] at hpa ⊢
        rcases Shape.parentOf_cases key l with ⟨hp, hsub, _, _⟩ | ⟨pa', _, hp, _⟩
        · rw [hp] at hpa; cases hpa
          exact ⟨l, k, r, h, hs, e1, by simp [e2, hsub]⟩
        · rw [hp] at hpa
          exact ihl h.2.1 hsl pa (by rw [hp]; exact hpa)
      · simp only [Shape.parentOf, Shape.sub, e1, e2, if_true, if_false] at hpa ⊢
        rcases Shape.parentOf_cases key r with ⟨hp, hsub, _, _⟩ | ⟨pa', _, hp, _⟩
        · rw [hp] at hpa; cases hpa
          exact ⟨l, k, r, h, hs, e1, by simp [e2, hsub]⟩
        · rw [hp] at hpa
          exact ihr h.2.2 hsr pa (by rw [hp]; exact hpa)

theorem Shape.keys_sub_subset (key : K) (t : Shape K) (hs : t.keys.Sorted (· < ·)) :
    ∀ x ∈ (t.sub key).keys, x ∈ t.keys := by
  obtain ⟨pre, post, e1, _, _, _⟩ := Shape.keys_split key t hs
  intro x hx
  rw [e1]; simp [hx]

/-- Below the node holding `key`, search paths of keys of the right subtree
continue from that node. -/
theorem Shape.sub_of_sub (key sk : K) : ∀ t : Shape K, t.keys.Sorted (· < ·) →
    ∀ cur ul ur, t.sub key = Shape.node cur ul key ur → sk ∈ ur.keys →
      t.sub sk = ur.sub sk ∧ ∀ par, t.parentOf sk par = ur.parentOf sk (some cur) := by
  intro t
  induction t with
  | nil => intro _ cur ul ur h _; simp [Shape.sub] at h
  | node a l k r ihl ihr =>
    intro hs cur ul ur hsub hsk
    obtain ⟨hsl, hsr, hl, hr⟩ := Shape.sorted_node.mp hs
    by_cases e1 : k = key
    · simp only [Shape.sub, e1, if_true] at hsub
      cases hsub
      subst e1
      have h1 : k < sk := hr sk hsk
      have h2 : ¬ sk < k := not_lt.mpr (le_of_lt h1)
      have h3 : k ≠ sk := ne_of_lt h1
      simp [Shape.sub, Shape.parentOf, h2, h3]
    · by_cases e2 : key < k
      · simp only [Shape.sub, e1, e2, if_true, if_false] at hsub
        have hin : sk ∈ l.keys := by
          apply Shape.keys_sub_subset key l hsl
          rw [hsub]; simp [Shape.keys, hsk]
        have h1 : sk < k := hl sk hin
        have h3 : k ≠ sk := ne_of_gt h1
        obtain ⟨i1, i2⟩ := ihl hsl cur ul ur hsub hsk
        simp [Shape.sub, Shape.parentOf, h1, h3, i1, i2]
      · simp only [Shape.sub, e1, e2, if_true, if_false] at hsub
        have hin : sk ∈ r.keys := by
          apply Shape.keys_sub_subset key r hsr
          rw [hsub]; simp [Shape.keys, hsk]
        have h1 : k < sk := hr sk hin
        have h2 : ¬ sk < k := not_lt.mpr (le_of_lt h1)
        have h3 : k ≠ sk := ne_of_lt h1
        obtain ⟨i1, i2⟩ := ihr hsr cur ul ur hsub hsk
        simp [Shape.sub, Shape.parentOf, h2, h3, i1, i2]

/-- Function `getMinKey` returns the cell with the least key, which has no left
child. -/
theorem getMinKey_spec {mem : List (node K)} (hw : WellLinked mem) :
    ∀ (t : Shape K), Rep mem t → t.keys.Sorted (· < ·) → ∀ fuel x, t.ptr = some x →
      room mem t.ptr ≤ fuel →
      ∃ ma sk mr rest, getMinKey mem fuel t.ptr = some (some ma) ∧
        t.sub sk = Shape.node ma Shape.nil sk mr ∧ t.keys = sk :: rest := by
  intro t
  induction t with
  | nil => intro _ _ fuel x h _; cases h
  | node a l k r ihl _ =>
    intro h hs fuel x _ hf
    obtain ⟨hsl, _, hl, _⟩ := Shape.sorted_node.mp hs
    obtain ⟨⟨c, hc, hk, hcl, hcr⟩, h1, h2⟩ := h
    obtain ⟨f, rfl, hf1, _⟩ := room_step hw hc hf
    cases l with
    | nil =>
      refine ⟨a, k, r, r.keys, ?_, by simp [Shape.sub], by simp [Shape.keys]⟩
      unfold getMinKey
      simp only [Shape.ptr_node, load, hc, hcl, Shape.ptr_nil, ne_eq, not_true_eq_false,
        if_false]
    | node b l1 k1 r1 =>
      obtain ⟨ma, sk, mr, rest, e1, e2, e3⟩ := ihl h1 hsl f b rfl (hcl ▸ hf1)
      have hin : sk ∈ (Shape.node b l1 k1 r1).keys := by rw [e3]; simp
      have h3 : sk < k := hl sk hin
      refine ⟨ma, sk, mr, rest ++ k :: r.keys, ?_, ?_, ?_⟩
      · unfold getMinKey
        simp only [Shape.ptr_node, load, hc, hcl, ne_eq, reduceCtorEq, not_false_eq_true,
          if_true]
        exact e1
      · rw [Shape.sub, if_neg (ne_of_gt h3), if_pos h3]; exact e2
      · rw [Shape.keys, e3]; simp

end scapegoat

namespace scapegoat
variable {K : Type} [LinearOrder K]

/-- The closure `remove` on a cell with at most one child: the link that
leads to the cell is redirected to its only child, or cleared. -/
theorem remove_eq_simple (fuel : Nat) (s : Scapegoat K) (key : K) (par : Ptr) (cur : Nat)
    (cc : node K) (hloop : removeLoop s.mem key s.mem.length none s.root = some (par, some cur))
    (hcc : s.mem[cur]? = some cc) (hone : cc.left = none ∨ cc.right = none) :
    remove fuel s key =
      if some cur ≠ s.root then
        match load s.mem par with
        | none => none
        | some pc =>
          match (if pc.left = some cur
              then store s.mem par
                (fun c => { c with left := if cc.left ≠ none then cc.left else cc.right })
              else store s.mem par
                (fun c => { c with right := if cc.left ≠ none then cc.left else cc.right })) with
          | none => none
          | some m => some ({ s with mem := m }, true)
      else some ({ s with root := if cc.left ≠ none then cc.left else cc.right }, true) := by
  unfold remove
  simp only [hloop, hcc]
  by_cases h1 : cc.left = none
  · by_cases h2 : cc.right = none
    · simp only [h1, h2, and_self, if_true, ne_eq, not_true_eq_false, if_false] <;> rfl
    · simp only [h1, h2, and_false, and_true, if_false, ne_eq, not_true_eq_false,
        not_false_eq_true, false_and, @eq_comm _ (some cur)] <;> rfl
  · have h2 : cc.right = none := by
      rcases hone with h | h
      · exact absurd h h1
      · exact h
    simp only [h1, h2, and_false, and_true, false_and, if_false, ne_eq, not_false_eq_true,
      not_true_eq_false, if_true, @eq_comm _ (some cur)] <;> rfl

theorem root_ne_cur {mem : List (node K)} (key : K) (t : Shape K) (hr : Rep mem t)
    (hs : t.keys.Sorted (· < ·)) (pa : Nat) (hpa : t.parentOf key none = some pa)
    (cur : Nat) (ul ur : Shape K) (hsub : t.sub key = Shape.node cur ul key ur) :
    t.ptr ≠ some cur := by
  cases t with
  | nil => simp [Shape.parentOf] at hpa
  | node a l k r =>
    obtain ⟨hal, har, _⟩ := Rep_sep hr hs
    have hcur : cur ∈ ((Shape.node a l k r).sub key).addrs := by rw [hsub]; simp [Shape.addrs]
    intro e
    cases e
    by_cases e1 : k = key
    · simp [Shape.parentOf, e1] at hpa
    · by_cases e2 : key < k
      · simp only [Shape.sub, e1, e2, if_true, if_false] at hcur
        exact hal (Shape.sub_addrs key l _ hcur)
      · simp only [Shape.sub, e1, e2, if_true, if_false] at hcur
        exact har (Shape.sub_addrs key r _ hcur)

end scapegoat

namespace scapegoat
variable {K : Type} [LinearOrder K]

/-- Removal of a key whose cell has at most one child: the tree becomes
`t.graft key child`, by redirecting one link. -/
theorem remove_simple (fuel : Nat) (s : Scapegoat K) (hw : WellLinked s.mem) (t : Shape K)
    (hr : Rep s.mem t) (hp : t.ptr = s.root) (hs : t.keys.Sorted (· < ·)) (key : K)
    (cur : Nat) (ul ur : Shape K) (hsub : t.sub key = Shape.node cur ul key ur)
    (hone : ul = Shape.nil ∨ ur = Shape.nil) :
    ∃ m', remove fuel s key =
        some ({ s with
          mem := m',
          root := (t.graft key (if ul.ptr = none then ur else ul)).ptr }, true) ∧
      m'.length = s.mem.length ∧ WellLinked m' ∧
      Rep m' (t.graft key (if ul.ptr = none then ur else ul)) ∧
      (t.parentOf key none = none → m' = s.mem) ∧
      (∀ pa, t.parentOf key none = some pa → ∃ pc, s.mem[pa]? = some pc ∧
        m' = s.mem.set pa
          (if key < pc.key then { pc with left := (if ul.ptr = none then ur else ul).ptr }
            else { pc with right := (if ul.ptr = none then ur else ul).ptr })) := by
  obtain ⟨child, hchild⟩ : ∃ child, child = (if ul.ptr = none then ur else ul) := ⟨_, rfl⟩
  rw [← hchild]
  have hloop := removeLoop_eq hw key t hr s.mem.length none (room_le_length _ _)
  rw [hp, hsub, Shape.ptr_node] at hloop
  have hrsub : Rep s.mem (Shape.node cur ul key ur) := hsub ▸ Rep_sub key t hr
  obtain ⟨⟨cc, hcc, hcck, hccl, hccr⟩, hrul, hrur⟩ := hrsub
  have hcone : cc.left = none ∨ cc.right = none := by
    rcases hone with h | h
    · left; rw [hccl, h]; rfl
    · right; rw [hccr, h]; rfl
  have hchildp : (if cc.left ≠ none then cc.left else cc.right) = child.ptr := by
    rw [hchild, hccl, hccr]
    by_cases h : ul.ptr = none <;> simp [h]
  have hrchild : Rep s.mem child := by
    rw [hchild]; split_ifs
    · exact hrur
    · exact hrul
  have hchildsub : ∀ x ∈ child.addrs, x ∈ (t.sub key).addrs := by
    intro x hx
    rw [hsub, Shape.addrs]
    rw [hchild] at hx
    split_ifs at hx
    · simp [hx]
    · simp [hx]
  have hchildlt : ∀ x, child.ptr = some x → cur < x ∧ x < s.mem.length := by
    intro x hx
    obtain ⟨h1, h2, _⟩ := hw cur cc hcc
    rw [hchild] at hx
    split_ifs at hx
    · exact h2 x (hccr.trans hx)
    · exact h1 x (hccl.trans hx)
  have heq := remove_eq_simple fuel s key _ cur cc hloop hcc hcone
  rw [hchildp] at heq
  rcases Shape.parentOf_cases key t with ⟨hpn, hst, hg, _⟩ | ⟨pa, hpa, hpn, _⟩
  · rw [hsub] at hst
    have hroot : s.root = some cur := by rw [← hp, ← hst]; rfl
    refine ⟨s.mem, ?_, rfl, hw, ?_, fun _ => rfl, ?_⟩
    · rw [heq, hg, if_neg (by simp [hroot])]
    · rw [hg]; exact hrchild
    · intro pa h; rw [hpn] at h; cases h
  · obtain ⟨l, k, r, hrn, hsn, hkne, hside⟩ := parent_node key t hr hs pa (hpn none)
    obtain ⟨hal, har, hlr⟩ := Rep_sep hrn hsn
    obtain ⟨⟨pc, hpc, hpck, hpcl, hpcr⟩, hrl, hrr⟩ := hrn
    have hrootne : some cur ≠ s.root := by
      rw [← hp]; exact (root_ne_cur key t hr hs pa (hpn none) cur ul ur hsub).symm
    have hgp : (t.graft key child).ptr = s.root := by
      rw [Shape.graft_ptr, hpn, if_neg (by simp), hp]
    have hpasub : pa ∉ (t.sub key).addrs := by
      split_ifs at hside with e
      · rw [← hside]; exact hal
      · rw [← hside]; exact har
    have hpalt : pa < s.mem.length := (List.getElem?_eq_some.mp hpc).1
    obtain ⟨hwl, hwr, hwp⟩ := hw pa pc hpc
    have htest : (pc.left = some cur) ↔ key < pc.key := by
      rw [hpck]
      constructor
      · intro h
        by_contra e
        rw [if_neg e, hsub] at hside
        have h1 : cur ∈ l.addrs := Shape.ptr_mem_addrs (hpcl.symm.trans h)
        have h2 : cur ∈ r.addrs := by rw [hside]; simp [Shape.addrs]
        exact hlr cur h1 h2
      · intro e
        rw [if_pos e, hsub] at hside
        rw [hpcl, hside]; rfl
    have hpacur : pa < cur := by
      by_cases e : key < k
      · rw [if_pos e, hsub] at hside
        exact (hwl cur (by rw [hpcl, hside]; rfl)).1
      · rw [if_neg e, hsub] at hside
        exact (hwr cur (by rw [hpcr, hside]; rfl)).1
    obtain ⟨m', hm'⟩ : ∃ m', m' = s.mem.set pa
        (if key < pc.key then { pc with left := child.ptr }
          else { pc with right := child.ptr }) := ⟨_, rfl⟩
    have hm'pa : m'[pa]? = some (if key < pc.key then { pc with left := child.ptr }
          else { pc with right := child.ptr }) := by
      rw [hm', List.getElem?_set_self hpalt]
    refine ⟨m', ?_, by rw [hm', List.length_set], ?_, ?_, ?_, ?_⟩
    · rw [heq, if_pos hrootne, hgp]
      have hl : load s.mem (some pa) = some pc := hpc
      simp only [hpn, hl]
      by_cases e : key < pc.key
      · rw [if_pos (htest.mpr e), store_eq hpc, hm', if_pos e]
      · rw [if_neg (fun h => e (htest.mp h)), store_eq hpc, hm', if_neg e]
    · rw [hm']
      apply WellLinked_set hw
      · intro x hx
        split_ifs at hx
        · have := hchildlt x hx; omega
        · exact hwl x hx
      · intro x hx
        split_ifs at hx
        · exact hwr x hx
        · have := hchildlt x hx; omega
      · intro x hx
        split_ifs at hx
        · exact hwp x hx
        · exact hwp x hx
    · apply Rep_graft key child _ t hr hs
      · intro a _ _ hne
        rw [hpn] at hne
        rw [hm', List.getElem?_set_ne]
        intro e; exact hne (by rw [e])
      · intro pa2 hpa2
        rw [hpn] at hpa2; cases hpa2
        refine ⟨pc, _, hpc, hm'pa, ?_, ?_⟩
        · split_ifs <;> rfl
        · split_ifs <;> exact ⟨rfl, rfl⟩
      · apply Rep_ext child hrchild
        intro a ha
        rw [hm', List.getElem?_set_ne]
        intro e; exact hpasub (e ▸ hchildsub a ha)
    · intro h; rw [hpn] at h; cases h
    · intro pa2 hpa2
      rw [hpn] at hpa2; cases hpa2
      exact ⟨pc, hpc, hm'⟩

end scapegoat

namespace scapegoat
variable {K : Type} [LinearOrder K]

theorem parent_not_mem_sub {mem : List (node K)} (key : K) (t : Shape K) (hr : Rep mem t)
    (hs : t.keys.Sorted (· < ·)) (pa : Nat) (hpa : t.parentOf key none = some pa) :
    pa ∉ (t.sub key).addrs := by
  obtain ⟨l, k, r, hrn, hsn, _, hside⟩ := parent_node key t hr hs pa hpa
  obtain ⟨hal, har, _⟩ := Rep_sep hrn hsn
  split_ifs at hside with e
  · rw [← hside]; exact hal
  · rw [← hside]; exact har

/-- Removal of a key whose cell has two children: the least key of the right
subtree is unlinked and written over the removed key. -/
theorem remove_two (fuel : Nat) (s : Scapegoat K) (hw : WellLinked s.mem) (t : Shape K)
    (hr : Rep s.mem t) (hp : t.ptr = s.root) (hs : t.keys.Sorted (· < ·)) (key : K)
    (cur : Nat) (ul ur : Shape K) (hsub : t.sub key = Shape.node cur ul key ur)
    (hul : ul.ptr ≠ none) (hur : ur.ptr ≠ none) :
    ∃ m' u', remove (fuel + 1) s key = some ({ s with mem := m' }, true) ∧
      m'.length = s.mem.length ∧ WellLinked m' ∧ Rep m' (t.graft key u') ∧
      (t.graft key u').ptr = s.root ∧ u'.keys = ul.keys ++ ur.keys := by
  have hloop := removeLoop_eq hw key t hr s.mem.length none (room_le_length _ _)
  rw [hp, hsub, Shape.ptr_node] at hloop
  have hrsub : Rep s.mem (Shape.node cur ul key ur) := hsub ▸ Rep_sub key t hr
  have hssub : (Shape.node cur ul key ur).keys.Sorted (· < ·) := hsub ▸ Shape.sub_sorted key t hs
  obtain ⟨hcul, hcur, hculur⟩ := Rep_sep hrsub hssub
  obtain ⟨_, hsur, _, hurgt⟩ := Shape.sorted_node.mp hssub
  obtain ⟨⟨cc, hcc, hcck, hccl, hccr⟩, hrul, hrur⟩ := hrsub
  have hcurlt : cur < s.mem.length := (List.getElem?_eq_some.mp hcc).1
  obtain ⟨x, hx⟩ : ∃ x, ur.ptr = some x := Option.ne_none_iff_exists'.mp hur
  obtain ⟨ma, sk, mr, rest, hmin, hsubsk, hkeys⟩ :=
    getMinKey_spec hw ur hrur hsur s.mem.length x hx (room_le_length _ _)
  have hskin : sk ∈ ur.keys := by rw [hkeys]; simp
  have hksk : key < sk := hurgt sk hskin
  obtain ⟨hsub2, hpar2⟩ := Shape.sub_of_sub key sk t hs cur ul ur hsub hskin
  rw [hsubsk] at hsub2
  have hrmin : Rep s.mem (Shape.node ma Shape.nil sk mr) := hsubsk ▸ Rep_sub sk ur hrur
  obtain ⟨⟨sc, hsc, hsck, _, _⟩, _, hrmr⟩ := hrmin
  have hmasub : ma ∈ ur.addrs :=
    Shape.sub_addrs sk ur ma (by rw [hsubsk]; simp [Shape.addrs])
  have hmrsub : ∀ a ∈ mr.addrs, a ∈ (ur.sub sk).addrs := by
    intro a ha; rw [hsubsk]; simp [Shape.addrs, ha]
  -- the recursive call
  obtain ⟨m1, hrec, hlen1, hw1, _, _, hdesc⟩ :=
    remove_simple fuel s hw t hr hp hs sk ma Shape.nil mr hsub2 (Or.inl rfl)
  simp only [Shape.ptr_nil, if_true] at hrec hdesc
  -- the parent of the least cell
  obtain ⟨ps, hps, hpsin⟩ : ∃ ps, t.parentOf sk none = some ps ∧
      ((ps = cur ∧ ur.parentOf sk none = none) ∨
        (ps ∈ ur.addrs ∧ ur.parentOf sk none = some ps)) := by
    rcases Shape.parentOf_cases sk ur with ⟨h1, _⟩ | ⟨pa, hpa, h1, _⟩
    · exact ⟨cur, by rw [hpar2, h1], Or.inl ⟨rfl, h1 none⟩⟩
    · exact ⟨pa, by rw [hpar2, h1], Or.inr ⟨hpa, h1 none⟩⟩
  obtain ⟨pc, hpc, hm1⟩ := hdesc ps hps
  have hroot1 : (t.graft sk mr).ptr = s.root := by
    rw [Shape.graft_ptr, hps, if_neg (by simp), hp]
  rw [hroot1] at hrec
  have hpslt : ps < s.mem.length := (List.getElem?_eq_some.mp hpc).1
  obtain ⟨ur', hur'⟩ : ∃ ur', ur' = ur.graft sk mr := ⟨_, rfl⟩
  -- the cell of the removed key after the recursive call
  obtain ⟨c1, hc1, hc1l, hc1r⟩ : ∃ c1, m1[cur]? = some c1 ∧ c1.left = ul.ptr ∧
      c1.right = ur'.ptr := by
    rcases hpsin with ⟨e, hroot⟩ | ⟨hin, hnr⟩
    · subst e
      rw [hcc] at hpc; cases hpc
      have hnlt : ¬ sk < cc.key := by rw [hcck]; exact not_lt.mpr (le_of_lt hksk)
      rw [if_neg hnlt] at hm1
      refine ⟨{ cc with right := mr.ptr }, by rw [hm1, List.getElem?_set_self hcurlt],
        hccl, ?_⟩
      rw [hur', Shape.graft_ptr, hroot, if_pos rfl]
    · have hne : ps ≠ cur := fun e => hcur (e ▸ hin)
      refine ⟨cc, by rw [hm1, List.getElem?_set_ne hne]; exact hcc, hccl, ?_⟩
      rw [hur', Shape.graft_ptr, hnr, if_neg (by simp)]; exact hccr
  obtain ⟨m2, hm2⟩ : ∃ m2, m2 = m1.set cur { c1 with key := sk } := ⟨_, rfl⟩
  have hm2cur : m2[cur]? = some { c1 with key := sk } := by
    rw [hm2, List.getElem?_set_self (by omega)]
  have hother : ∀ a, a ≠ cur → a ≠ ps → m2[a]? = s.mem[a]? := by
    intro a h1 h2
    rw [hm2, List.getElem?_set_ne (Ne.symm h1), hm1, List.getElem?_set_ne (Ne.symm h2)]
  have hpsul : ps ∉ ul.addrs := by
    rcases hpsin with ⟨e, _⟩ | ⟨hin, _⟩
    · rw [e]; exact hcul
    · exact fun h => hculur ps h hin
  have hpssub : ps ∉ (ur.sub sk).addrs := by
    rcases hpsin with ⟨e, _⟩ | ⟨_, hnr⟩
    · rw [e]; exact fun h => hcur (Shape.sub_addrs sk ur cur h)
    · exact parent_not_mem_sub sk ur hrur hsur ps hnr
  have hrur' : Rep m2 ur' := by
    rw [hur']
    apply Rep_graft sk mr _ ur hrur hsur
    · intro a ha _ hne
      apply hother a (fun e => hcur (e ▸ ha))
      rcases hpsin with ⟨e, _⟩ | ⟨_, hnr⟩
      · rw [e]; exact fun e => hcur (e ▸ ha)
      · rw [hnr] at hne; exact fun e => hne (by rw [e])
    · intro pa2 hpa2
      rcases hpsin with ⟨_, hroot⟩ | ⟨hin, hnr⟩
      · rw [hroot] at hpa2; cases hpa2
      · rw [hnr] at hpa2; cases hpa2
        have hne : ps ≠ cur := fun e => hcur (e ▸ hin)
        refine ⟨pc, (if sk < pc.key then { pc with left := mr.ptr }
          else { pc with right := mr.ptr }), hpc, ?_, ?_, ?_⟩
        · rw [hm2, List.getElem?_set_ne (Ne.symm hne), hm1, List.getElem?_set_self hpslt]
        · split_ifs <;> rfl
        · split_ifs <;> exact ⟨rfl, rfl⟩
    · apply Rep_ext mr hrmr
      intro a ha
      have ha' := hmrsub a ha
      apply hother a
      · exact fun e => hcur (Shape.sub_addrs sk ur cur (e ▸ ha'))
      · exact fun e => hpssub (e ▸ ha')
  have hrul' : Rep m2 ul := by
    apply Rep_ext ul hrul
    intro a ha
    exact hother a (fun e => hcul (e ▸ ha)) (fun e => hpsul (e ▸ ha))
  have hru' : Rep m2 (Shape.node cur ul sk ur') :=
    ⟨⟨_, hm2cur, rfl, hc1l, hc1r⟩, hrul', hrur'⟩
  have hpsinsub : ps ∈ (t.sub key).addrs := by
    rw [hsub, Shape.addrs]
    rcases hpsin with ⟨e, _⟩ | ⟨hin, _⟩
    · simp [e]
    · simp [hin]
  have hcurinsub : cur ∈ (t.sub key).addrs := by rw [hsub]; simp [Shape.addrs]
  refine ⟨m2, Shape.node cur ul sk ur', ?_, ?_, ?_, ?_, ?_, ?_⟩
  · have hnot1 : ¬ (cc.left = none ∧ cc.right = none) := by
      rw [hccl]; exact fun h => hul h.1
    have hyes : cc.left ≠ none ∧ cc.right ≠ none := by
      rw [hccl, hccr]; exact ⟨hul, hur⟩
    have hmin' : getMinKey s.mem s.mem.length cc.right = some (some ma) := by
      rw [hccr]; exact hmin
    have hload : load s.mem (some ma) = some sc := hsc
    unfold remove
    simp only [hloop, hcc, if_neg hnot1, if_pos hyes, hmin', hload, hsck, hrec,
      store_eq hc1, hm2]
  · rw [hm2, List.length_set, hlen1]
  · rw [hm2]
    obtain ⟨h1, h2, h3⟩ := hw1 cur c1 hc1
    exact WellLinked_set hw1 cur _ h1 h2 h3
  · apply Rep_graft key _ hru' t hr hs
    · intro a _ hnsub _
      exact hother a (fun e => hnsub (e ▸ hcurinsub)) (fun e => hnsub (e ▸ hpsinsub))
    · intro pa hpa
      obtain ⟨l, k, r, hrn, _, _, hside⟩ := parent_node key t hr hs pa hpa
      have hpans := parent_not_mem_sub key t hr hs pa hpa
      obtain ⟨⟨c, hc, hck, hcl, hcr⟩, _, _⟩ := hrn
      refine ⟨c, c, hc, ?_, rfl, ?_⟩
      · rw [hother pa (fun e => hpans (e ▸ hcurinsub)) (fun e => hpans (e ▸ hpsinsub))]
        exact hc
      · rw [hck]
        split_ifs at hside ⊢ with e
        · exact ⟨by rw [hcl, hside, hsub]; rfl, rfl⟩
        · exact ⟨by rw [hcr, hside, hsub]; rfl, rfl⟩
  · rw [Shape.graft_ptr]
    split_ifs with e
    · rcases Shape.parentOf_cases key t with ⟨_, hst, _, _⟩ | ⟨pa, _, hpn, _⟩
      · rw [← hp, ← hst, hsub]; rfl
      · rw [hpn] at e; cases e
    · exact hp
  · obtain ⟨pre, post, e1, e2, e3, _⟩ := Shape.keys_split sk ur hsur
    rw [hsubsk] at e1
    have hpre : pre = [] := by
      cases pre with
      | nil => rfl
      | cons p ps' =>
        exfalso
        rw [hkeys] at e1
        simp only [List.cons_append, List.cons.injEq] at e1
        exact lt_irrefl _ (by have := e3 p (by simp); rwa [← e1.1] at this)
    subst hpre
    simp only [Shape.keys, hur', e2 mr, e1, List.nil_append, List.append_assoc,
      List.cons_append]

end scapegoat

namespace scapegoat
variable {K : Type} [LinearOrder K]

/-- The closure `remove` on a key that is not in the tree. -/
theorem remove_absent (fuel : Nat) (s : Scapegoat K) (hw : WellLinked s.mem) (t : Shape K)
    (hr : Rep s.mem t) (hp : t.ptr = s.root) (hs : t.keys.Sorted (· < ·)) (key : K)
    (hk : key ∉ t.keys) : remove fuel s key = some (s, false) := by
  have hloop := removeLoop_eq hw key t hr s.mem.length none (room_le_length _ _)
  rw [hp, (Shape.sub_eq_nil_iff key t hs).mpr hk, Shape.ptr_nil] at hloop
  unfold remove
  simp only [hloop]

/-- The closure `remove` on a key of the tree: one recursion level is
enough, and the key sequence loses exactly that key. -/
theorem remove_present (fuel : Nat) (s : Scapegoat K) (hw : WellLinked s.mem) (t : Shape K)
    (hr : Rep s.mem t) (hp : t.ptr = s.root) (hs : t.keys.Sorted (· < ·)) (key : K)
    (hk : key ∈ t.keys) :
    ∃ m1 t1, remove (fuel + 1) s key = some ({ s with mem := m1, root := t1.ptr }, true) ∧
      m1.length = s.mem.length ∧ WellLinked m1 ∧ Rep m1 t1 ∧
      ∃ A B, t.keys = A ++ key :: B ∧ t1.keys = A ++ B := by
  obtain ⟨cur, ul, ur, hsub⟩ : ∃ cur ul ur, t.sub key = Shape.node cur ul key ur := by
    rcases Shape.sub_root key t with h | h
    · exact absurd hk ((Shape.sub_eq_nil_iff key t hs).mp h)
    · exact h
  obtain ⟨pre, post, e1, e2, _, _⟩ := Shape.keys_split key t hs
  rw [hsub] at e1
  by_cases hone : ul.ptr = none ∨ ur.ptr = none
  · have hone' : ul = Shape.nil ∨ ur = Shape.nil := by
      rcases hone with h | h
      · exact Or.inl (Shape.ptr_eq_none.mp h)
      · exact Or.inr (Shape.ptr_eq_none.mp h)
    obtain ⟨m1, h1, h2, h3, h4, _, _⟩ :=
      remove_simple (fuel + 1) s hw t hr hp hs key cur ul ur hsub hone'
    refine ⟨m1, _, h1, h2, h3, h4, pre ++ ul.keys, ur.keys ++ post, ?_, ?_⟩
    · rw [e1]; simp [Shape.keys]
    · rw [e2]
      rcases hone' with h | h
      · subst h; simp [Shape.ptr, Shape.keys]
      · subst h
        by_cases h' : ul.ptr = none
        · rw [Shape.ptr_eq_none.mp h']; simp [Shape.ptr, Shape.keys]
        · simp [h', Shape.keys]
  · have hul : ul.ptr ≠ none := fun h => hone (Or.inl h)
    have hur : ur.ptr ≠ none := fun h => hone (Or.inr h)
    obtain ⟨m1, u1, h1, h2, h3, h4, h5, h6⟩ :=
      remove_two fuel s hw t hr hp hs key cur ul ur hsub hul hur
    refine ⟨m1, _, ?_, h2, h3, h4, pre ++ ul.keys, ur.keys ++ post, ?_, ?_⟩
    · rw [h1, h5]
    · rw [e1]; simp [Shape.keys]
    · rw [e2, h6]; simp

theorem sorted_remove_middle {A B : List K} {key : K}
    (h : (A ++ key :: B).Sorted (· < ·)) :
    (A ++ B).Sorted (· < ·) ∧ ∀ x, x ∈ A ++ B ↔ (x ∈ A ++ key :: B ∧ x ≠ key) := by
  have hsub : List.Sublist (A ++ B) (A ++ key :: B) :=
    List.Sublist.append_left (List.sublist_cons_self key B) A
  refine ⟨List.Pairwise.sublist hsub h, ?_⟩
  have hp := List.pairwise_append.mp h
  have hB := (List.pairwise_cons.mp hp.2.1).1
  intro x
  simp only [List.mem_append, List.mem_cons]
  constructor
  · rintro (hx | hx)
    · exact ⟨Or.inl hx, ne_of_lt (hp.2.2 x hx key (by simp))⟩
    · exact ⟨Or.inr (Or.inr hx), ne_of_gt (hB x hx)⟩
  · rintro ⟨hx | hx | hx, hne⟩
    · exact Or.inl hx
    · exact absurd hx hne
    · exact Or.inr hx

/-- Function `Remove` of a key that is not in the tree changes nothing. -/
theorem Remove_absent (s : Scapegoat K) (hw : WellLinked s.mem) (t : Shape K)
    (hr : Rep s.mem t) (hp : t.ptr = s.root) (hs : t.keys.Sorted (· < ·)) (key : K)
    (hk : key ∉ t.keys) : Remove s key = some (s, false) := by
  simp only [Remove, remove_absent s.mem.length s hw t hr hp hs key hk]

/-- Function `Remove` of a key of the tree. -/
theorem Remove_present (s : Scapegoat K) (hw : WellLinked s.mem) (t : Shape K)
    (hr : Rep s.mem t) (hp : t.ptr = s.root) (hs : t.keys.Sorted (· < ·)) (key : K)
    (hk : key ∈ t.keys) :
    ∃ s1 t1, Remove s key = some (s1, true) ∧ WellLinked s1.mem ∧ Rep s1.mem t1 ∧
      t1.ptr = s1.root ∧ (∃ A B, t.keys = A ++ key :: B ∧ t1.keys = A ++ B) ∧
      s1.n = s.n - 1 ∧ s1.alpha = s.alpha ∧
      s1.q = (if s.n - 1 ≤ s.q.tdiv 2 then s.n - 1 else s.q) ∧
      s1.Stats = statsAfterRemove s.Stats (decide (s.n - 1 ≤ s.q.tdiv 2)) := by
  have hpos : 0 < s.mem.length := by
    cases t with
    | nil => simp [Shape.keys] at hk
    | node a l k r =>
      have := Rep_addr_lt _ hr a (by simp [Shape.addrs]); omega
  obtain ⟨fuel, hfuel⟩ : ∃ f, s.mem.length = f + 1 := ⟨s.mem.length - 1, by omega⟩
  obtain ⟨m1, t1, h1, h2, h3, h4, hAB⟩ := remove_present fuel s hw t hr hp hs key hk
  rw [← hfuel] at h1
  by_cases hcond : s.n - 1 ≤ s.q.tdiv 2
  · obtain ⟨m2, v, e1, e2, e3, _, _, _, e7⟩ := rebalance_spec
      { s with
        mem := m1, root := t1.ptr,
        Stats := { s.Stats with
          TotalRemovals := s.Stats.TotalRemovals + 1,
          TotalRebalancesAfterRemove := s.Stats.TotalRebalancesAfterRemove + 1 },
        n := s.n - 1 } h3 t1 h4
    refine ⟨⟨m2, v.ptr, s.alpha, s.n - 1, s.n - 1, statsAfterRemove s.Stats true⟩, v, ?_, e2,
      e3, rfl, ?_, rfl, rfl, ?_, ?_⟩
    · simp only [Remove, h1, hcond, if_true, e1]
      rfl
    · obtain ⟨A, B, hA, hB⟩ := hAB
      exact ⟨A, B, hA, e7.trans hB⟩
    · simp [hcond]
    · simp [hcond]
  · refine ⟨⟨m1, t1.ptr, s.alpha, s.n - 1, s.q, statsAfterRemove s.Stats false⟩, t1, ?_, h3,
      h4, rfl, hAB, rfl, rfl, ?_, ?_⟩
    · simp only [Remove, h1, hcond, if_false]
      rfl
    · simp [hcond]
    · simp [hcond]

/-- Function `Search` reports whether the key is in the tree and counts the call. -/
theorem Search_spec (s : Scapegoat K) (hw : WellLinked s.mem) (t : Shape K)
    (hr : Rep s.mem t) (hp : t.ptr = s.root) (hs : t.keys.Sorted (· < ·)) (key : K) :
    Search s key =
      some ({ s with Stats := { s.Stats with TotalSearches := s.Stats.TotalSearches + 1 } },
        decide (key ∈ t.keys)) := by
  rw [Search, searchHelper_eq s hw t hr hp key true]
  simp only [if_true]
  congr 2
  by_cases h : key ∈ t.keys
  · simp [h, (Shape.sub_isSome_iff key t hs).mpr h]
  · have := (Shape.sub_eq_nil_iff key t hs).mpr h
    simp [h, this, Shape.ptr]

end scapegoat

namespace scapegoat
variable {K : Type} [LinearOrder K]

theorem sorted_insert_middle {A B : List K} {key : K} (h : (A ++ B).Sorted (· < ·))
    (hA : ∀ x ∈ A, x < key) (hB : ∀ x ∈ B, key < x) : (A ++ key :: B).Sorted (· < ·) := by
  have hp := List.pairwise_append.mp h
  refine List.pairwise_append.mpr ⟨hp.1, List.pairwise_cons.mpr ⟨hB, hp.2.1⟩, ?_⟩
  intro x hx y hy
  rcases List.mem_cons.mp hy with rfl | hy
  · exact hA x hx
  · exact hp.2.2 x hx y hy

theorem Inv_New (alpha : F64) (s : Scapegoat K) (h : New K alpha = Except.ok s) : Inv s := by
  unfold New at h
  split_ifs at h
  cases h
  refine ⟨?_, Shape.nil, trivial, rfl, ?_, rfl, ?_, le_refl _⟩
  · intro a c hc; simp at hc
  · simp [Shape.keys]
  · show (0 : Int).tdiv 2 ≤ 0
    decide

/-- Function `Insert` on a state that satisfies the invariant. -/
theorem Insert_ok (s : Scapegoat K) (h : Inv s) (k : K) :
    (k ∈ keys s → Insert s k = some (s, none)) ∧
    (k ∉ keys s → ∃ s1, Insert s k = some (s1, none) ∧ Inv s1 ∧
      (∀ x, x ∈ keys s1 ↔ x = k ∨ x ∈ keys s) ∧ s1.n = s.n + 1 ∧ s1.q = s.q + 1 ∧
      s1.alpha = s.alpha ∧
      ∀ t : Shape K, Rep s.mem t → t.ptr = s.root →
        s1.Stats = statsAfterInsert s.Stats (exceedsLog (t.depthOf k) (s.q + 1) s.alpha)) := by
  obtain ⟨hw, t, hr, hp, hs, hn, hq1, hq2⟩ := h
  have hkeys := keys_eq s hw t hr hp
  constructor
  · intro hk
    exact Insert_dup s hw t hr hp hs k (hkeys ▸ hk)
  · intro hk
    rw [hkeys] at hk
    obtain ⟨s1, t1, e1, e2, e3, e4, e5, e6, e7, e8, e9⟩ :=
      Insert_new s hw t hr hp hs k hk hq1 hq2 (by rw [hn]; omega)
    obtain ⟨pre, post, f1, f2, f3, f4⟩ := Shape.keys_split k t hs
    rw [(Shape.sub_eq_nil_iff k t hs).mpr hk] at f1
    simp only [Shape.keys, List.append_nil] at f1
    rw [f2] at e5
    simp only [Shape.keys, List.nil_append, List.append_assoc, List.cons_append] at e5
    have hkeys1 := keys_eq s1 e2 t1 e3 e4
    refine ⟨s1, e1, ⟨e2, t1, e3, e4, ?_, ?_, ?_, ?_⟩, ?_, e6, e7, e8, ?_⟩
    · rw [e5]; exact sorted_insert_middle (f1 ▸ hs) f3 f4
    · rw [e6, hn, Shape.size_eq_length, Shape.size_eq_length, e5, f1]; simp; omega
    · rw [e6, e7, Int.tdiv_eq_ediv (by omega) (by omega)]
      rw [Int.tdiv_eq_ediv (by omega) (by omega)] at hq1
      omega
    · omega
    · intro x
      rw [hkeys1, hkeys, e5, f1]
      simp only [List.mem_append, List.mem_cons]
      tauto
    · intro t' hr' hp'
      have := Rep_unique t' t hr' hr (hp'.trans hp.symm)
      rw [this]; exact e9

/-- Function `Remove` on a state that satisfies the invariant. -/
theorem Remove_ok (s : Scapegoat K) (h : Inv s) (k : K) :
    (k ∉ keys s → Remove s k = some (s, false)) ∧
    (k ∈ keys s → ∃ s1, Remove s k = some (s1, true) ∧ Inv s1 ∧
      (∀ x, x ∈ keys s1 ↔ x ∈ keys s ∧ x ≠ k) ∧ s1.n = s.n - 1 ∧ s1.alpha = s.alpha ∧
      s1.q = (if s.n - 1 ≤ s.q.tdiv 2 then s.n - 1 else s.q) ∧
      s1.Stats = statsAfterRemove s.Stats (decide (s.n - 1 ≤ s.q.tdiv 2))) := by
  obtain ⟨hw, t, hr, hp, hs, hn, hq1, hq2⟩ := h
  have hkeys := keys_eq s hw t hr hp
  constructor
  · intro hk
    exact Remove_absent s hw t hr hp hs k (hkeys ▸ hk)
  · intro hk
    rw [hkeys] at hk
    obtain ⟨s1, t1, e1, e2, e3, e4, ⟨A, B, hA, hB⟩, e6, e7, e8, e9⟩ :=
      Remove_present s hw t hr hp hs k hk
    have hkeys1 := keys_eq s1 e2 t1 e3 e4
    obtain ⟨g1, g2⟩ := sorted_remove_middle (hA ▸ hs)
    have hsz : (t.size : Int) = t1.size + 1 := by
      rw [Shape.size_eq_length, Shape.size_eq_length, hA, hB]; simp; omega
    refine ⟨s1, e1, ⟨e2, t1, e3, e4, hB ▸ g1, ?_, ?_, ?_⟩, ?_, e6, e7, e8, e9⟩
    · rw [e6, hn]; omega
    · rw [e6, e8]
      split_ifs with hc
      · rw [Int.tdiv_eq_ediv (by omega) (by omega)]; omega
      · omega
    · rw [e6, e8]
      split_ifs with hc
      · exact le_refl _
      · omega
    · intro x
      rw [hkeys1, hkeys, hB, hA]
      exact g2 x

/-- Function `Search` on a state that satisfies the invariant. -/
theorem Search_ok (s : Scapegoat K) (h : Inv s) (k : K) :
    Search s k =
      some ({ s with Stats := { s.Stats with TotalSearches := s.Stats.TotalSearches + 1 } },
        decide (k ∈ keys s)) := by
  obtain ⟨hw, t, hr, hp, hs, _⟩ := h
  rw [keys_eq s hw t hr hp]
  exact Search_spec s hw t hr hp hs k

/-- Every reachable state satisfies the invariant. -/
theorem Reachable.inv {s : Scapegoat K} (h : Reachable s) : Inv s := by
  induction h with
  | init alpha s h => exact Inv_New alpha s h
  | insert s s1 k e _ hi ih =>
    by_cases hk : k ∈ keys s
    · rw [(Insert_ok s ih k).1 hk] at hi
      cases hi; exact ih
    · obtain ⟨s2, h1, h2, _⟩ := (Insert_ok s ih k).2 hk
      rw [h1] at hi
      cases hi; exact h2
  | remove s s1 k b _ hi ih =>
    by_cases hk : k ∈ keys s
    · obtain ⟨s2, h1, h2, _⟩ := (Remove_ok s ih k).2 hk
      rw [h1] at hi
      cases hi; exact h2
    · rw [(Remove_ok s ih k).1 hk] at hi
      cases hi; exact ih
  | search s s1 k b _ hi ih =>
    rw [Search_ok s ih k] at hi
    cases hi
    obtain ⟨hw, t, hr, hp, hs, hn, hq1, hq2⟩ := ih
    exact ⟨hw, t, hr, hp, hs, hn, hq1, hq2⟩

end scapegoat

namespace scapegoat

/-! ## The test scenarios, one call at a time -/

set_option maxRecDepth 100000 in
theorem stepI1 : Insert stI0 42 = some (stI1, none) := by decide

set_option maxRecDepth 100000 in
theorem stepI2 : Insert stI1 27 = some (stI2, none) := by decide

set_option maxRecDepth 100000 in
theorem stepI3 : Insert stI2 3 = some (stI3, none) := by decide

set_option maxRecDepth 100000 in
theorem stepI4 : Insert stI3 1 = some (stI4, none) := by decide

set_option maxRecDepth 100000 in
theorem stepI5 : Insert stI4 2 = some (stI5, none) := by decide

set_option maxRecDepth 100000 in
theorem stepI6 : Insert stI5 99 = some (stI6, none) := by decide

set_option maxRecDepth 100000 in
theorem stepI7 : Insert stI6 55 = some (stI7, none) := by decide

set_option maxRecDepth 100000 in
theorem stepI8 : Insert stI7 48 = some (stI8, none) := by decide

set_option maxRecDepth 100000 in
theorem stepI9 : Insert stI8 39 = some (stI9, none) := by decide

set_option maxRecDepth 100000 in
theorem stepI10 : Insert stI9 47 = some (stI10, none) := by decide

set_option maxRecDepth 100000 in
theorem stepI11 : Insert stI10 46 = some (stI11, none) := by decide

set_option maxRecDepth 100000 in
theorem stepI12 : Insert stI11 45 = some (stI12, none) := by decide

set_option maxRecDepth 100000 in
theorem stepR1 : Remove stI12 3 = some (stR1, true) := by decide

set_option maxRecDepth 100000 in
theorem stepR2 : Remove stR1 1 = some (stR2, true) := by decide

set_option maxRecDepth 100000 in
theorem stepR3 : Remove stR2 2 = some (stR3, true) := by decide

set_option maxRecDepth 100000 in
theorem stepR4 : Remove stR3 99 = some (stR4, true) := by decide

set_option maxRecDepth 100000 in
theorem stepR5 : Remove stR4 55 = some (stR5, true) := by decide

set_option maxRecDepth 100000 in
theorem stepR6 : Remove stR5 48 = some (stR6, true) := by decide

set_option maxRecDepth 100000 in
theorem stepR7 : Remove stR6 39 = some (stR7, true) := by decide

set_option maxRecDepth 100000 in
theorem stepR8 : Remove stR7 47 = some (stR8, true) := by decide

theorem reachI0 : Reachable stI0 := Reachable.init DefaultAlpha stI0 rfl

theorem reachI1 : Reachable stI1 :=
  Reachable.insert stI0 stI1 42 none reachI0 stepI1

theorem reachI2 : Reachable stI2 :=
  Reachable.insert stI1 stI2 27 none reachI1 stepI2

theorem reachI3 : Reachable stI3 :=
  Reachable.insert stI2 stI3 3 none reachI2 stepI3

theorem reachI4 : Reachable stI4 :=
  Reachable.insert stI3 stI4 1 none reachI3 stepI4

theorem reachI5 : Reachable stI5 :=
  Reachable.insert stI4 stI5 2 none reachI4 stepI5

theorem reachI6 : Reachable stI6 :=
  Reachable.insert stI5 stI6 99 none reachI5 stepI6

theorem reachI7 : Reachable stI7 :=
  Reachable.insert stI6 stI7 55 none reachI6 stepI7

theorem reachI8 : Reachable stI8 :=
  Reachable.insert stI7 stI8 48 none reachI7 stepI8

theorem reachI9 : Reachable stI9 :=
  Reachable.insert stI8 stI9 39 none reachI8 stepI9

theorem reachI10 : Reachable stI10 :=
  Reachable.insert stI9 stI10 47 none reachI9 stepI10

theorem reachI11 : Reachable stI11 :=
  Reachable.insert stI10 stI11 46 none reachI10 stepI11

theorem reachI12 : Reachable stI12 :=
  Reachable.insert stI11 stI12 45 none reachI11 stepI12

theorem reachR1 : Reachable stR1 :=
  Reachable.remove stI12 stR1 3 true reachI12 stepR1

theorem reachR2 : Reachable stR2 :=
  Reachable.remove stR1 stR2 1 true reachR1 stepR2

theorem reachR3 : Reachable stR3 :=
  Reachable.remove stR2 stR3 2 true reachR2 stepR3

theorem reachR4 : Reachable stR4 :=
  Reachable.remove stR3 stR4 99 true reachR3 stepR4

theorem reachR5 : Reachable stR5 :=
  Reachable.remove stR4 stR5 55 true reachR4 stepR5

theorem reachR6 : Reachable stR6 :=
  Reachable.remove stR5 stR6 48 true reachR5 stepR6

theorem reachR7 : Reachable stR7 :=
  Reachable.remove stR6 stR7 39 true reachR6 stepR7

theorem reachR8 : Reachable stR8 :=
  Reachable.remove stR7 stR8 47 true reachR7 stepR8

end scapegoat

namespace scapegoat
variable {K : Type} [LinearOrder K]

theorem Live_nil (k : K) : ¬ Live k ([] : List (Call K)) := by
  rintro ⟨i, hi, _⟩
  simp at hi

theorem Live_cons (k : K) (c : Call K) (cs : List (Call K)) :
    Live k (c :: cs) ↔
      (c = Call.insert k ∧ ∀ j : Nat, cs[j]? ≠ some (Call.remove k)) ∨ Live k cs := by
  constructor
  · rintro ⟨i, hi, hj⟩
    cases i with
    | zero =>
      left
      simp only [List.getElem?_cons_zero, Option.some.injEq] at hi
      refine ⟨hi, fun j => ?_⟩
      have := hj (j + 1) (Nat.succ_pos j)
      simpa using this
    | succ i =>
      right
      simp only [List.getElem?_cons_succ] at hi
      refine ⟨i, hi, fun j hlt => ?_⟩
      have := hj (j + 1) (Nat.succ_lt_succ hlt)
      simpa using this
  · rintro (⟨hc, hj⟩ | ⟨i, hi, hj⟩)
    · refine ⟨0, by simp [hc], fun j hlt => ?_⟩
      obtain ⟨j, rfl⟩ : ∃ j1, j = j1 + 1 := ⟨j - 1, by omega⟩
      simpa using hj j
    · refine ⟨i + 1, by simpa using hi, fun j hlt => ?_⟩
      obtain ⟨j, rfl⟩ : ∃ j1, j = j1 + 1 := ⟨j - 1, by omega⟩
      simpa using hj j (by omega)

theorem never_removed_cons (k : K) (c : Call K) (cs : List (Call K)) :
    (∀ j : Nat, (c :: cs)[j]? ≠ some (Call.remove k)) ↔
      (c ≠ Call.remove k ∧ ∀ j : Nat, cs[j]? ≠ some (Call.remove k)) := by
  constructor
  · intro h
    refine ⟨by simpa using h 0, fun j => by simpa using h (j + 1)⟩
  · rintro ⟨h0, h⟩ j
    cases j with
    | zero => simpa using h0
    | succ j => simpa using h j

/-- One call on a state that satisfies the invariant. -/
theorem applyCall_ok (s : Scapegoat K) (h : Inv s) (c : Call K) :
    ∃ s1, applyCall s c = some s1 ∧ Inv s1 ∧
      ∀ k, k ∈ keys s1 ↔ (c = Call.insert k ∨ (k ∈ keys s ∧ c ≠ Call.remove k)) := by
  cases c with
  | insert x =>
    by_cases hx : x ∈ keys s
    · refine ⟨s, by simp [applyCall, (Insert_ok s h x).1 hx], h, fun k => ?_⟩
      constructor
      · intro hk; exact Or.inr ⟨hk, by simp⟩
      · rintro (e | ⟨hk, _⟩)
        · cases e; exact hx
        · exact hk
    · obtain ⟨s1, e1, e2, e3, _⟩ := (Insert_ok s h x).2 hx
      refine ⟨s1, by simp [applyCall, e1], e2, fun k => ?_⟩
      rw [e3 k]
      constructor
      · rintro (e | hk)
        · exact Or.inl (by rw [e])
        · exact Or.inr ⟨hk, by simp⟩
      · rintro (e | ⟨hk, _⟩)
        · cases e; exact Or.inl rfl
        · exact Or.inr hk
  | remove x =>
    by_cases hx : x ∈ keys s
    · obtain ⟨s1, e1, e2, e3, _⟩ := (Remove_ok s h x).2 hx
      refine ⟨s1, by simp [applyCall, e1], e2, fun k => ?_⟩
      rw [e3 k]
      constructor
      · rintro ⟨hk, hne⟩
        exact Or.inr ⟨hk, fun e => hne (by cases e; rfl)⟩
      · rintro (e | ⟨hk, hne⟩)
        · cases e
        · exact ⟨hk, fun e => hne (by rw [e])⟩
    · refine ⟨s, by simp [applyCall, (Remove_ok s h x).1 hx], h, fun k => ?_⟩
      constructor
      · intro hk
        exact Or.inr ⟨hk, fun e => hx (by cases e; exact hk)⟩
      · rintro (e | ⟨hk, _⟩)
        · cases e
        · exact hk

/-- A call sequence on a state that satisfies the invariant. -/
theorem runCalls_ok : ∀ (calls : List (Call K)) (s0 : Scapegoat K), Inv s0 →
    ∃ s, runCalls s0 calls = some s ∧ Inv s ∧
      ∀ k, k ∈ keys s ↔
        (Live k calls ∨ (k ∈ keys s0 ∧ ∀ j : Nat, calls[j]? ≠ some (Call.remove k))) := by
  intro calls
  induction calls with
  | nil =>
    intro s0 h
    refine ⟨s0, rfl, h, fun k => ?_⟩
    constructor
    · intro hk; exact Or.inr ⟨hk, by simp⟩
    · rintro (hl | ⟨hk, _⟩)
      · exact absurd hl (Live_nil k)
      · exact hk
  | cons c cs ih =>
    intro s0 h
    obtain ⟨s1, e1, h1, hk1⟩ := applyCall_ok s0 h c
    obtain ⟨s, e2, h2, hk2⟩ := ih s1 h1
    refine ⟨s, by simp [runCalls, e1, e2], h2, fun k => ?_⟩
    rw [hk2 k, hk1 k, Live_cons, never_removed_cons]
    tauto

theorem flatten_isSome (s : Scapegoat K) (h : Inv s) :
    (flatten s.mem s.mem.length s.root []).isSome = true := by
  obtain ⟨hw, t, hr, hp, _⟩ := h
  obtain ⟨cells, e1, _⟩ := flatten_eq hw t hr s.mem.length [] (room_le_length _ _)
  rw [hp] at e1
  rw [e1]; rfl

theorem keys_sorted (s : Scapegoat K) (h : Inv s) : (keys s).Sorted (· < ·) := by
  obtain ⟨hw, t, hr, hp, hs, _⟩ := h
  rw [keys_eq s hw t hr hp]; exact hs

theorem keys_New (alpha : F64) (s : Scapegoat K) (h : New K alpha = Except.ok s) :
    keys s = [] := by
  unfold New at h
  split_ifs at h
  cases h
  rfl

theorem New_pos (K : Type) (alpha : F64) (h : alpha.pos = true) :
    New K alpha = Except.ok ⟨[], none, alpha, 0, 0, ⟨0, 0, 0, 0, 0, 0⟩⟩ := by
  have : alpha.le0 = false := by
    cases alpha with
    | fin m e =>
      simp only [F64.pos, decide_eq_true_eq] at h
      simp only [F64.le0, decide_eq_false_iff_not]; omega
    | pinf => rfl
    | ninf => cases h
    | nan => cases h
  simp [New, this]

end scapegoat

namespace scapegoat
variable {K : Type} [LinearOrder K]

/-! ## The claims -/

/-- Claim C1. For every alpha > 0 and every finite sequence of Insert and
Remove calls applied to the tree returned by New(alpha), every call returns,
the in-order traversal of the resulting tree (from the root along left and
right links) does not fault and is strictly ascending, and its elements are
exactly the keys that were inserted and not removed by a later call. -/
theorem C1_inorder_ascending_live_keys (alpha : F64) (halpha : alpha.pos = true)
    (calls : List (Call K)) :
    ∃ s0 s, New K alpha = Except.ok s0 ∧ runCalls s0 calls = some s ∧
      (flatten s.mem s.mem.length s.root []).isSome = true ∧
      (keys s).Sorted (· < ·) ∧ ∀ k, k ∈ keys s ↔ Live k calls := by
  have hnew := New_pos K alpha halpha
  have hinv := Inv_New alpha _ hnew
  obtain ⟨s, e1, e2, e3⟩ := runCalls_ok calls _ hinv
  refine ⟨_, s, hnew, e1, flatten_isSome s e2, keys_sorted s e2, fun k => ?_⟩
  rw [e3 k, keys_New alpha _ hnew]
  simp

theorem C1_witness :
    DefaultAlpha.pos = true ∧
      ∃ s0 s, New Int DefaultAlpha = Except.ok s0 ∧
        runCalls s0 [Call.insert 2, Call.insert 1, Call.remove 2, Call.insert 3] = some s ∧
        (flatten s.mem s.mem.length s.root []).isSome = true ∧
        (keys s).Sorted (· < ·) ∧
        ∀ k, k ∈ keys s ↔
          Live k [Call.insert 2, Call.insert 1, Call.remove 2, Call.insert 3] :=
  ⟨by decide, C1_inorder_ascending_live_keys DefaultAlpha (by decide) _⟩

/-- Claim C2. In every reachable state, Insert of a key that is not in the
tree returns nil; afterwards the keys are the previous keys plus the new one,
n and q are larger by one, TotalInserts is larger by one, and TotalRemovals
and TotalSearches are unchanged, whether or not a rebuild happened. -/
theorem C2_insert_absent_key (s : Scapegoat K) (hs : Reachable s) (k : K)
    (hk : k ∉ keys s) :
    ∃ s1, Insert s k = some (s1, none) ∧ (∀ x, x ∈ keys s1 ↔ x = k ∨ x ∈ keys s) ∧
      s1.n = s.n + 1 ∧ s1.q = s.q + 1 ∧
      s1.Stats.TotalInserts = s.Stats.TotalInserts + 1 ∧
      s1.Stats.TotalRemovals = s.Stats.TotalRemovals ∧
      s1.Stats.TotalSearches = s.Stats.TotalSearches := by
  have hinv := hs.inv
  obtain ⟨s1, e1, _, e3, e4, e5, _, e7⟩ := (Insert_ok s hinv k).2 hk
  obtain ⟨_, t, hr, hp, _⟩ := hinv
  have hst := e7 t hr hp
  refine ⟨s1, e1, e3, e4, e5, ?_, ?_, ?_⟩ <;>
    (rw [hst]; unfold statsAfterInsert; split_ifs <;> rfl)

set_option maxRecDepth 100000 in
theorem C2_witness :
    (2 : Int) ∉ keys stI4 ∧
      ∃ s1, Insert stI4 2 = some (s1, none) ∧ (∀ x, x ∈ keys s1 ↔ x = 2 ∨ x ∈ keys stI4) ∧
        s1.n = stI4.n + 1 ∧ s1.q = stI4.q + 1 ∧
        s1.Stats.TotalInserts = stI4.Stats.TotalInserts + 1 ∧
        s1.Stats.TotalRemovals = stI4.Stats.TotalRemovals ∧
        s1.Stats.TotalSearches = stI4.Stats.TotalSearches :=
  ⟨by decide, C2_insert_absent_key stI4 reachI4 2 (by decide)⟩

/-- Claim C3. In every reachable state and for every key, Remove returns
true exactly when the key was in the tree; when it returns true the keys
afterwards are the previous keys without the removed one, n is smaller by
one, TotalRemovals is larger by one, and TotalInserts and TotalSearches are
unchanged. -/
theorem C3_remove_result (s : Scapegoat K) (hs : Reachable s) (k : K) :
    ∃ s1 b, Remove s k = some (s1, b) ∧ (b = true ↔ k ∈ keys s) ∧
      (b = true →
        (∀ x, x ∈ keys s1 ↔ x ∈ keys s ∧ x ≠ k) ∧ s1.n = s.n - 1 ∧
        s1.Stats.TotalRemovals = s.Stats.TotalRemovals + 1 ∧
        s1.Stats.TotalInserts = s.Stats.TotalInserts ∧
        s1.Stats.TotalSearches = s.Stats.TotalSearches) := by
  have hinv := hs.inv
  by_cases hk : k ∈ keys s
  · obtain ⟨s1, e1, _, e3, e4, _, _, e7⟩ := (Remove_ok s hinv k).2 hk
    refine ⟨s1, true, e1, by simp [hk], fun _ => ⟨e3, e4, ?_, ?_, ?_⟩⟩ <;>
      (rw [e7]; unfold statsAfterRemove; split_ifs <;> rfl)
  · exact ⟨s, false, (Remove_ok s hinv k).1 hk, by simp [hk], fun h => by cases h⟩

theorem C3_witness :
    ∃ s1 b, Remove stI12 3 = some (s1, b) ∧ (b = true ↔ (3 : Int) ∈ keys stI12) ∧
      (b = true →
        (∀ x, x ∈ keys s1 ↔ x ∈ keys stI12 ∧ x ≠ 3) ∧ s1.n = stI12.n - 1 ∧
        s1.Stats.TotalRemovals = stI12.Stats.TotalRemovals + 1 ∧
        s1.Stats.TotalInserts = stI12.Stats.TotalInserts ∧
        s1.Stats.TotalSearches = stI12.Stats.TotalSearches) :=
  C3_remove_result stI12 reachI12 3

/-- Claim C4. In every reachable state and for every key, Search returns
true exactly when the key is stored in the tree, and the state afterwards is
the state before with TotalSearches larger by one and nothing else changed;
the duplicate check inside Insert leaves TotalSearches unchanged. -/
theorem C4_search_result (s : Scapegoat K) (hs : Reachable s) (k : K) :
    Search s k =
        some ({ s with Stats := { s.Stats with TotalSearches := s.Stats.TotalSearches + 1 } },
          decide (k ∈ keys s)) ∧
      ∃ s1, Insert s k = some (s1, none) ∧
        s1.Stats.TotalSearches = s.Stats.TotalSearches := by
  have hinv := hs.inv
  refine ⟨Search_ok s hinv k, ?_⟩
  by_cases hk : k ∈ keys s
  · exact ⟨s, (Insert_ok s hinv k).1 hk, rfl⟩
  · obtain ⟨s1, e1, _, _, _, _, _, e7⟩ := (Insert_ok s hinv k).2 hk
    obtain ⟨_, t, hr, hp, _⟩ := hinv
    refine ⟨s1, e1, ?_⟩
    rw [e7 t hr hp]; unfold statsAfterInsert; split_ifs <;> rfl

theorem C4_witness :
    Search stI12 256 =
        some ({ stI12 with
          Stats := { stI12.Stats with TotalSearches := stI12.Stats.TotalSearches + 1 } },
          decide ((256 : Int) ∈ keys stI12)) ∧
      ∃ s1, Insert stI12 256 = some (s1, none) ∧
        s1.Stats.TotalSearches = stI12.Stats.TotalSearches :=
  C4_search_result stI12 reachI12 256

/-- Claim C5. In every reachable state, Insert of a key that is already in
the tree returns nil and leaves the whole state (memory, root, alpha, n, q
and all six counters) unchanged; consequently a second Insert of the same key
right after a first one changes nothing. -/
theorem C5_insert_present_key (s : Scapegoat K) (hs : Reachable s) (k : K) :
    (k ∈ keys s → Insert s k = some (s, none)) ∧
      ∃ s1, Insert s k = some (s1, none) ∧ Insert s1 k = some (s1, none) := by
  have hinv := hs.inv
  refine ⟨(Insert_ok s hinv k).1, ?_⟩
  by_cases hk : k ∈ keys s
  · exact ⟨s, (Insert_ok s hinv k).1 hk, (Insert_ok s hinv k).1 hk⟩
  · obtain ⟨s1, e1, e2, e3, _⟩ := (Insert_ok s hinv k).2 hk
    exact ⟨s1, e1, (Insert_ok s1 e2 k).1 ((e3 k).mpr (Or.inl rfl))⟩

theorem C5_witness :
    ((99 : Int) ∈ keys stI12 → Insert stI12 99 = some (stI12, none)) ∧
      ∃ s1, Insert stI12 99 = some (s1, none) ∧ Insert s1 99 = some (s1, none) :=
  C5_insert_present_key stI12 reachI12 99

/-- Claim C6. In every reachable state, Remove of a key that is not in the
tree returns false and leaves the whole state unchanged, so no rebuild is
performed or counted. -/
theorem C6_remove_absent_key (s : Scapegoat K) (hs : Reachable s) (k : K)
    (hk : k ∉ keys s) : Remove s k = some (s, false) :=
  (Remove_ok s hs.inv k).1 hk

set_option maxRecDepth 100000 in
theorem C6_witness :
    (1337 : Int) ∉ keys stI12 ∧ Remove stI12 1337 = some (stI12, false) :=
  ⟨by decide, C6_remove_absent_key stI12 reachI12 1337 (by decide)⟩

/-- Claim C7. In every state reachable from New by Insert, Remove and Search
calls, Insert returns nil for every key: it neither faults nor returns
ConstraintErr. -/
theorem C7_insert_never_fails (s : Scapegoat K) (hs : Reachable s) (k : K) :
    ∃ s1, Insert s k = some (s1, none) := by
  have hinv := hs.inv
  by_cases hk : k ∈ keys s
  · exact ⟨s, (Insert_ok s hinv k).1 hk⟩
  · obtain ⟨s1, e1, _⟩ := (Insert_ok s hinv k).2 hk
    exact ⟨s1, e1⟩

theorem C7_witness : ∃ s1, Insert stR8 48 = some (s1, none) :=
  C7_insert_never_fails stR8 reachR8 48

/-- Claim C8. New(alpha) fails with AlphaValueErr exactly when alpha <= 0,
and for every alpha > 0 it returns, without error, the empty tree: no cells,
absent root, n = 0, q = 0, the given alpha, and all counters zero. -/
theorem C8_New_alpha_validation (K : Type) (alpha : F64) :
    (New K alpha = Except.error Err.AlphaValueErr ↔ alpha.le0 = true) ∧
      (alpha.pos = true →
        New K alpha = Except.ok ⟨[], none, alpha, 0, 0, ⟨0, 0, 0, 0, 0, 0⟩⟩) := by
  refine ⟨?_, New_pos K alpha⟩
  unfold New
  split_ifs with h
  · simp [h]
  · simp [h]

theorem C8_witness :
    (New Int DefaultAlpha = Except.error Err.AlphaValueErr ↔ DefaultAlpha.le0 = true) ∧
      DefaultAlpha.pos = true ∧
      New Int DefaultAlpha = Except.ok ⟨[], none, DefaultAlpha, 0, 0, ⟨0, 0, 0, 0, 0, 0⟩⟩ :=
  ⟨(C8_New_alpha_validation Int DefaultAlpha).1, by decide,
    (C8_New_alpha_validation Int DefaultAlpha).2 (by decide)⟩

end scapegoat

namespace scapegoat
variable {K : Type} [LinearOrder K]

theorem rep_shI4 : Rep stI4.mem shI4 :=
  ⟨⟨_, rfl, rfl, rfl, rfl⟩, ⟨⟨_, rfl, rfl, rfl, rfl⟩, ⟨⟨_, rfl, rfl, rfl, rfl⟩,
    ⟨⟨_, rfl, rfl, rfl, rfl⟩, trivial, trivial⟩, trivial⟩, trivial⟩, trivial⟩

end scapegoat

namespace scapegoat

/-! ## Further scenarios, one call at a time -/

set_option maxRecDepth 100000 in
theorem stepA1 : Insert stA0 42 = some (stA1, none) := by decide

set_option maxRecDepth 100000 in
theorem stepA2 : Insert stA1 27 = some (stA2, none) := by decide

set_option maxRecDepth 100000 in
theorem stepA3 : Insert stA2 3 = some (stA3, none) := by decide

set_option maxRecDepth 100000 in
theorem stepA4 : Insert stA3 1 = some (stA4, none) := by decide

set_option maxRecDepth 100000 in
theorem stepA5 : Insert stA4 2 = some (stA5, none) := by decide

set_option maxRecDepth 100000 in
theorem stepH1 : Insert stH0 1 = some (stH1, none) := by decide

set_option maxRecDepth 100000 in
theorem stepH2 : Insert stH1 2 = some (stH2, none) := by decide

set_option maxRecDepth 100000 in
theorem stepH3 : Insert stH2 3 = some (stH3, none) := by decide

set_option maxRecDepth 100000 in
theorem stepH4 : Insert stH3 4 = some (stH4, none) := by decide

set_option maxRecDepth 100000 in
theorem stepQ1 : Insert stQ0 5 = some (stQ1, none) := by decide

set_option maxRecDepth 100000 in
theorem stepQ2 : Insert stQ1 4 = some (stQ2, none) := by decide

set_option maxRecDepth 100000 in
theorem stepQ3 : Insert stQ2 6 = some (stQ3, none) := by decide

set_option maxRecDepth 100000 in
theorem stepQ4 : Remove stQ3 6 = some (stQ4, true) := by decide

set_option maxRecDepth 100000 in
theorem stepQ5 : Insert stQ4 3 = some (stQ5, none) := by decide

set_option maxRecDepth 100000 in
theorem stepQ6 : Insert stQ5 2 = some (stQ6, none) := by decide

set_option maxRecDepth 100000 in
theorem stepB1 : Remove stI3 27 = some (stB1, true) := by decide

set_option maxRecDepth 100000 in
theorem stepT1 : Insert stI0 2 = some (stT1, none) := by decide

set_option maxRecDepth 100000 in
theorem stepT2 : Insert stT1 1 = some (stT2, none) := by decide

set_option maxRecDepth 100000 in
theorem stepT3 : Insert stT2 3 = some (stT3, none) := by decide

set_option maxRecDepth 100000 in
theorem stepT4 : Remove stT3 2 = some (stT4, true) := by decide

theorem reachA0 : Reachable stA0 := Reachable.init (F64.fin 5 (-2)) stA0 rfl

theorem reachH0 : Reachable stH0 := Reachable.init (F64.fin 1 3) stH0 rfl

theorem reachQ0 : Reachable stQ0 := Reachable.init (F64.fin 1 1) stQ0 rfl

theorem reachA1 : Reachable stA1 :=
  Reachable.insert stA0 stA1 42 none reachA0 stepA1

theorem reachA2 : Reachable stA2 :=
  Reachable.insert stA1 stA2 27 none reachA1 stepA2

theorem reachA3 : Reachable stA3 :=
  Reachable.insert stA2 stA3 3 none reachA2 stepA3

theorem reachA4 : Reachable stA4 :=
  Reachable.insert stA3 stA4 1 none reachA3 stepA4

theorem reachA5 : Reachable stA5 :=
  Reachable.insert stA4 stA5 2 none reachA4 stepA5

theorem reachH1 : Reachable stH1 :=
  Reachable.insert stH0 stH1 1 none reachH0 stepH1

theorem reachH2 : Reachable stH2 :=
  Reachable.insert stH1 stH2 2 none reachH1 stepH2

theorem reachH3 : Reachable stH3 :=
  Reachable.insert stH2 stH3 3 none reachH2 stepH3

theorem reachH4 : Reachable stH4 :=
  Reachable.insert stH3 stH4 4 none reachH3 stepH4

theorem reachQ1 : Reachable stQ1 :=
  Reachable.insert stQ0 stQ1 5 none reachQ0 stepQ1

theorem reachQ2 : Reachable stQ2 :=
  Reachable.insert stQ1 stQ2 4 none reachQ1 stepQ2

theorem reachQ3 : Reachable stQ3 :=
  Reachable.insert stQ2 stQ3 6 none reachQ2 stepQ3

theorem reachQ4 : Reachable stQ4 :=
  Reachable.remove stQ3 stQ4 6 true reachQ3 stepQ4

theorem reachQ5 : Reachable stQ5 :=
  Reachable.insert stQ4 stQ5 3 none reachQ4 stepQ5

theorem reachQ6 : Reachable stQ6 :=
  Reachable.insert stQ5 stQ6 2 none reachQ5 stepQ6

theorem reachB1 : Reachable stB1 :=
  Reachable.remove stI3 stB1 27 true reachI3 stepB1

theorem reachT1 : Reachable stT1 :=
  Reachable.insert stI0 stT1 2 none reachI0 stepT1

theorem reachT2 : Reachable stT2 :=
  Reachable.insert stT1 stT2 1 none reachT1 stepT2

theorem reachT3 : Reachable stT3 :=
  Reachable.insert stT2 stT3 3 none reachT2 stepT3

theorem reachT4 : Reachable stT4 :=
  Reachable.remove stT3 stT4 2 true reachT3 stepT4

end scapegoat

namespace scapegoat
variable {K : Type}

theorem levels_formula (len : Nat) (hpos : 0 < len) :
    1 + max (if (len - 1) / 2 = 0 then 0 else Nat.log 2 ((len - 1) / 2) + 1)
        (if len - 1 - (len - 1) / 2 = 0 then 0 else Nat.log 2 (len - 1 - (len - 1) / 2) + 1) =
      Nat.log 2 len + 1 := by
  have hr : len - 1 - (len - 1) / 2 = len / 2 := by omega
  have hle : (len - 1) / 2 ≤ len / 2 := by omega
  rw [hr]
  have hmax : max (if (len - 1) / 2 = 0 then 0 else Nat.log 2 ((len - 1) / 2) + 1)
      (if len / 2 = 0 then 0 else Nat.log 2 (len / 2) + 1) =
      (if len / 2 = 0 then 0 else Nat.log 2 (len / 2) + 1) := by
    apply max_eq_right
    split_ifs with h1 h2 h2
    · exact le_refl _
    · exact Nat.zero_le _
    · omega
    · exact Nat.succ_le_succ (Nat.log_mono_right hle)
  rw [hmax]
  by_cases h1 : len = 1
  · subst h1; simp
  · have h2 : 2 ≤ len := by omega
    rw [if_neg (by omega), Nat.log_of_one_lt_of_le (by decide) h2]
    omega

theorem levels_eq {mem : List (node K)} (hw : WellLinked mem) :
    ∀ (t : Shape K), Rep mem t → ∀ fuel, room mem t.ptr ≤ fuel →
      levels mem fuel t.ptr = t.levels := by
  intro t
  induction t with
  | nil => intro _ fuel _; cases fuel <;> rfl
  | node a l k r ihl ihr =>
    intro h fuel hf
    obtain ⟨⟨c, hc, hk, hcl, hcr⟩, h1, h2⟩ := h
    obtain ⟨f, rfl, hf1, hf2⟩ := room_step hw hc hf
    simp only [Shape.ptr_node, levels, hc, hcl, hcr, ihl h1 f (hcl ▸ hf1),
      ihr h2 f (hcr ▸ hf2), Shape.levels]

/-- Shape of the tree built from the slice `nodes[lo .. lo+len-1]`: besides
what `build_spec` says, it has `len` cells, is size balanced, has
`log2 len + 1` levels, and its root holds the lower middle element. -/
theorem build_shape (nodes : List (node K)) :
    ∀ (fuel : Nat) (mem : List (node K)) (lo len : Nat), len ≤ fuel →
      lo + len ≤ nodes.length → WellLinked mem →
      ∃ m u, buildTreeFromSortedList nodes fuel mem (lo : Int) ((lo : Int) + len - 1) =
          some (m, u.ptr) ∧
        WellLinked m ∧ Rep m u ∧ m.length = mem.length + len ∧
        (∀ a, a < mem.length → m[a]? = mem[a]?) ∧ (∀ a ∈ u.addrs, mem.length ≤ a) ∧
        u.keys = ((nodes.drop lo).take len).map node.key ∧
        u.size = len ∧ u.SizeBalanced ∧
        u.levels = (if len = 0 then 0 else Nat.log 2 len + 1) ∧
        (∀ a l k r, u = Shape.node a l k r →
          ∃ c, nodes[lo + (len - 1) / 2]? = some c ∧ c.key = k) := by
  intro fuel
  induction fuel with
  | zero =>
    intro mem lo len h1 _ hw
    have : len = 0 := by omega
    subst this
    refine ⟨mem, Shape.nil, ?_, hw, trivial, rfl, fun _ _ => rfl, ?_, by simp [Shape.keys],
      rfl, trivial, rfl, ?_⟩
    · simp [buildTreeFromSortedList, Shape.ptr]
    · intro a ha; simp [Shape.addrs] at ha
    · intro a l k r h; cases h
  | succ fuel ih =>
    intro mem lo len h1 h2 hw
    by_cases h0 : len = 0
    · subst h0
      refine ⟨mem, Shape.nil, ?_, hw, trivial, rfl, fun _ _ => rfl, ?_, by simp [Shape.keys],
        rfl, trivial, rfl, ?_⟩
      · simp [buildTreeFromSortedList, Shape.ptr]
      · intro a ha; simp [Shape.addrs] at ha
      · intro a l k r h; cases h
    · obtain ⟨h, hh⟩ : ∃ h : Nat, h = (len - 1) / 2 := ⟨_, rfl⟩
      have hmid : (lo : Int) + ((lo : Int) + len - 1 - lo).tdiv 2 = ((lo + h : Nat) : Int) := by
        rw [Int.tdiv_eq_ediv (by omega) (by omega)]
        omega
      have hlt : lo + h < nodes.length := by omega
      obtain ⟨src, hsrc⟩ : ∃ c, nodes[lo + h]? = some c :=
        ⟨nodes[lo + h], List.getElem?_eq_getElem hlt⟩
      obtain ⟨mem1, hmem1⟩ : ∃ mem1, mem1 = mem ++ [(⟨none, none, none, src.key⟩ : node K)] :=
        ⟨_, rfl⟩
      have hw1 : WellLinked mem1 := hmem1 ▸ WellLinked_append hw src.key
      have hlen1 : mem1.length = mem.length + 1 := by rw [hmem1]; simp
      have h1nd : mem1[mem.length]? = some (⟨none, none, none, src.key⟩ : node K) := by
        rw [hmem1]; exact List.getElem?_concat_length _ _
      obtain ⟨m2, ul, e2, hw2, hr2, hlen2, hpre2, hfresh2, hk2, hsz2, hbal2, hlev2, _⟩ :=
        ih mem1 lo h (by omega) (by omega) hw1
      have h2nd : m2[mem.length]? = some (⟨none, none, none, src.key⟩ : node K) := by
        rw [hpre2 _ (by omega)]; exact h1nd
      obtain ⟨m3, hm3⟩ : ∃ m3, m3 = m2.set mem.length
          (⟨ul.ptr, none, none, src.key⟩ : node K) := ⟨_, rfl⟩
      have e3 : store m2 (some mem.length) (fun c => { c with left := ul.ptr }) = some m3 := by
        rw [hm3]; exact store_eq h2nd _
      have hlen3 : m3.length = m2.length := by rw [hm3, List.length_set]
      have hulp : ∀ x, ul.ptr = some x → mem.length < x ∧ x < m2.length := by
        intro x hx
        have hx' := Shape.ptr_mem_addrs hx
        exact ⟨by have := hfresh2 x hx'; omega, Rep_addr_lt ul hr2 x hx'⟩
      have hw3 : WellLinked m3 := by
        rw [hm3]
        apply WellLinked_set hw2
        · exact hulp
        · intro x hx; cases hx
        · intro x hx; cases hx
      have h3nd : m3[mem.length]? = some (⟨ul.ptr, none, none, src.key⟩ : node K) := by
        rw [hm3, List.getElem?_set_self]; omega
      obtain ⟨m4, ur, e4, hw4, hr4, hlen4, hpre4, hfresh4, hk4, hsz4, hbal4, hlev4, _⟩ :=
        ih m3 (lo + h + 1) (len - 1 - h) (by omega) (by omega) hw3
      have h4nd : m4[mem.length]? = some (⟨ul.ptr, none, none, src.key⟩ : node K) := by
        rw [hpre4 _ (by omega)]; exact h3nd
      obtain ⟨m5, hm5⟩ : ∃ m5, m5 = m4.set mem.length
          (⟨ul.ptr, ur.ptr, none, src.key⟩ : node K) := ⟨_, rfl⟩
      have e5 : store m4 (some mem.length) (fun c => { c with right := ur.ptr }) = some m5 := by
        rw [hm5]; exact store_eq h4nd _
      have hurp : ∀ x, ur.ptr = some x → mem.length < x ∧ x < m4.length := by
        intro x hx
        have hx' := Shape.ptr_mem_addrs hx
        exact ⟨by have := hfresh4 x hx'; omega, Rep_addr_lt ur hr4 x hx'⟩
      have h5nd : m5[mem.length]? = some (⟨ul.ptr, ur.ptr, none, src.key⟩ : node K) := by
        rw [hm5, List.getElem?_set_self]; omega
      have hrl : Rep m5 ul := by
        apply Rep_ext ul hr2
        intro a ha
        have ha1 := hfresh2 a ha
        have ha2 := Rep_addr_lt ul hr2 a ha
        rw [hm5, List.getElem?_set_ne (by omega), hpre4 a (by omega), hm3,
          List.getElem?_set_ne (by omega)]
      have hrr : Rep m5 ur := by
        apply Rep_ext ur hr4
        intro a ha
        have ha1 := hfresh4 a ha
        rw [hm5, List.getElem?_set_ne (by omega)]
      refine ⟨m5, Shape.node mem.length ul src.key ur, ?_, ?_, ?_, ?_, ?_, ?_, ?_, ?_, ?_, ?_,
        ?_⟩
      · have e1 : ¬ ((lo : Int) > (lo : Int) + len - 1) := by omega
        have e6 : ¬ (((lo + h : Nat) : Int) < 0) := by omega
        have e7 : (((lo + h : Nat) : Int)).toNat = lo + h := by omega
        have e8 : ((lo + h : Nat) : Int) - 1 = (lo : Int) + (h : Nat) - 1 := by omega
        have e9 : ((lo + h : Nat) : Int) + 1 = ((lo + h + 1 : Nat) : Int) := by omega
        have e10 : (lo : Int) + len - 1 = ((lo + h + 1 : Nat) : Int) + ((len - 1 - h : Nat) : Int)
            - 1 := by omega
        simp only [buildTreeFromSortedList, if_neg e1, hmid, if_neg e6, e7, hsrc, e8]
        rw [← hmem1, e2]
        simp only [e3, e9]
        rw [e10, e4]
        simp only [e5, Shape.ptr_node]
      · rw [hm5]
        apply WellLinked_set hw4
        · intro x hx
          have := hulp x hx
          omega
        · exact hurp
        · intro x hx; cases hx
      · exact ⟨⟨_, h5nd, rfl, rfl, rfl⟩, hrl, hrr⟩
      · rw [hm5, List.length_set]; omega
      · intro a ha
        rw [hm5, List.getElem?_set_ne (by omega), hpre4 a (by omega), hm3,
          List.getElem?_set_ne (by omega), hpre2 a (by omega), hmem1,
          List.getElem?_append_left ha]
      · intro a ha
        simp only [Shape.addrs, List.mem_cons, List.mem_append] at ha
        rcases ha with rfl | ha | ha
        · exact le_refl _
        · have := hfresh2 a ha; omega
        · have := hfresh4 a ha; omega
      · rw [slice_split nodes lo len h (by omega) src hsrc]
        simp [Shape.keys, hk2, hk4]
      · simp only [Shape.size, hsz2, hsz4]; omega
      · exact ⟨by rw [hsz2, hsz4]; omega, by rw [hsz2, hsz4]; omega, hbal2, hbal4⟩
      · rw [if_neg h0]
        simp only [Shape.levels, hlev2, hlev4]
        rw [hh]
        exact levels_formula len (by omega)
      · intro a l k r h
        cases h
        exact ⟨src, by rw [← hh]; exact hsrc, rfl⟩


/-- Function `rebalance`, with the shape of the tree it returns. -/
theorem rebalance_shape [LinearOrder K] (s : Scapegoat K) (hw : WellLinked s.mem) (u : Shape K)
    (hu : Rep s.mem u) :
    ∃ cells m v, flatten s.mem s.mem.length u.ptr [] = some cells ∧
      cells.map node.key = u.keys ∧
      buildTreeFromSortedList cells cells.length s.mem 0 ((cells.length : Int) - 1) =
        some (m, v.ptr) ∧
      rebalance s u.ptr =
        some ({ s with
          mem := m,
          Stats := { s.Stats with TotalRebalances := s.Stats.TotalRebalances + 1 } }, v.ptr) ∧
      WellLinked m ∧ Rep m v ∧ m.length = s.mem.length + u.size ∧
      (∀ a, a < s.mem.length → m[a]? = s.mem[a]?) ∧ (∀ a ∈ v.addrs, s.mem.length ≤ a) ∧
      v.keys = u.keys ∧ v.size = u.size ∧ v.SizeBalanced ∧
      v.levels = (if u.size = 0 then 0 else Nat.log 2 u.size + 1) := by
  obtain ⟨cells, e1, e2⟩ := flatten_eq hw u hu s.mem.length [] (room_le_length _ _)
  obtain ⟨m, v, e3, hwm, hrv, hlen, hpre, hfresh, hk, hsz, hbal, hlev, _⟩ :=
    build_shape cells cells.length s.mem 0 cells.length (le_refl _) (by omega) hw
  have hsize : u.size = cells.length := by
    rw [Shape.size_eq_length, ← e2, List.length_map]
  simp only [List.nil_append] at e1
  simp only [Nat.cast_zero, zero_add] at e3
  refine ⟨cells, m, v, e1, e2, e3, ?_, hwm, hrv, by rw [hlen, hsize], hpre, hfresh, ?_,
    by rw [hsz, hsize], hbal, by rw [hlev, hsize]⟩
  · simp only [rebalance, e1, e3]
  · rw [hk, ← e2]; simp

end scapegoat

namespace scapegoat
variable {K : Type} [LinearOrder K]

end scapegoat

namespace scapegoat
variable {K : Type} [LinearOrder K]

/-- Removal of a key whose cell has two children, in detail: `getMinKey`
finds the cell with the least key of the right subtree, that cell has no left
child, the recursive call on its key succeeds with any recursion budget, and
the cell of the removed key ends up holding that least key. -/
theorem remove_two_detail (s : Scapegoat K) (hw : WellLinked s.mem) (t : Shape K)
    (hr : Rep s.mem t) (hp : t.ptr = s.root) (hs : t.keys.Sorted (· < ·)) (key : K)
    (cur : Nat) (ul ur : Shape K) (hsub : t.sub key = Shape.node cur ul key ur)
    (hul : ul.ptr ≠ none) (hur : ur.ptr ≠ none) :
    ∃ ma sk rest sc m1 m', ur.keys = sk :: rest ∧
      getMinKey s.mem s.mem.length ur.ptr = some (some ma) ∧ s.mem[ma]? = some sc ∧
      sc.key = sk ∧ sc.left = none ∧
      (∀ f, remove f s sk = some ({ s with mem := m1 }, true)) ∧
      (∀ fuel, remove (fuel + 1) s key = some ({ s with mem := m' }, true)) ∧
      (∃ c, m'[cur]? = some c ∧ c.key = sk) ∧
      ∃ ps, removeLoop s.mem sk s.mem.length none s.root = some (some ps, some ma) := by
  have hloop := removeLoop_eq hw key t hr s.mem.length none (room_le_length _ _)
  rw [hp, hsub, Shape.ptr_node] at hloop
  have hrsub : Rep s.mem (Shape.node cur ul key ur) := hsub ▸ Rep_sub key t hr
  have hssub : (Shape.node cur ul key ur).keys.Sorted (· < ·) := hsub ▸ Shape.sub_sorted key t hs
  obtain ⟨hcul, hcur, hculur⟩ := Rep_sep hrsub hssub
  obtain ⟨_, hsur, _, hurgt⟩ := Shape.sorted_node.mp hssub
  obtain ⟨⟨cc, hcc, hcck, hccl, hccr⟩, hrul, hrur⟩ := hrsub
  have hcurlt : cur < s.mem.length := (List.getElem?_eq_some.mp hcc).1
  obtain ⟨x, hx⟩ : ∃ x, ur.ptr = some x := Option.ne_none_iff_exists'.mp hur
  obtain ⟨ma, sk, mr, rest, hmin, hsubsk, hkeys⟩ :=
    getMinKey_spec hw ur hrur hsur s.mem.length x hx (room_le_length _ _)
  have hskin : sk ∈ ur.keys := by rw [hkeys]; simp
  have hksk : key < sk := hurgt sk hskin
  obtain ⟨hsub2, hpar2⟩ := Shape.sub_of_sub key sk t hs cur ul ur hsub hskin
  rw [hsubsk] at hsub2
  have hrmin : Rep s.mem (Shape.node ma Shape.nil sk mr) := hsubsk ▸ Rep_sub sk ur hrur
  obtain ⟨⟨sc, hsc, hsck, hscl, _⟩, _, hrmr⟩ := hrmin
  have hmasub : ma ∈ ur.addrs :=
    Shape.sub_addrs sk ur ma (by rw [hsubsk]; simp [Shape.addrs])
  have hmrsub : ∀ a ∈ mr.addrs, a ∈ (ur.sub sk).addrs := by
    intro a ha; rw [hsubsk]; simp [Shape.addrs, ha]
  -- the recursive call
  obtain ⟨m1, hrec, hlen1, hw1, _, _, hdesc⟩ :=
    remove_simple 0 s hw t hr hp hs sk ma Shape.nil mr hsub2 (Or.inl rfl)
  simp only [Shape.ptr_nil, if_true] at hrec hdesc
  -- the parent of the least cell
  obtain ⟨ps, hps, hpsin⟩ : ∃ ps, t.parentOf sk none = some ps ∧
      ((ps = cur ∧ ur.parentOf sk none = none) ∨
        (ps ∈ ur.addrs ∧ ur.parentOf sk none = some ps)) := by
    rcases Shape.parentOf_cases sk ur with ⟨h1, _⟩ | ⟨pa, hpa, h1, _⟩
    · exact ⟨cur, by rw [hpar2, h1], Or.inl ⟨rfl, h1 none⟩⟩
    · exact ⟨pa, by rw [hpar2, h1], Or.inr ⟨hpa, h1 none⟩⟩
  obtain ⟨pc, hpc, hm1⟩ := hdesc ps hps
  have hroot1 : (t.graft sk mr).ptr = s.root := by
    rw [Shape.graft_ptr, hps, if_neg (by simp), hp]
  rw [hroot1] at hrec
  have hall : ∀ f, remove f s sk = some ({ s with mem := m1 }, true) := by
    intro f
    obtain ⟨m1f, hrecf, _, _, _, _, hdescf⟩ :=
      remove_simple f s hw t hr hp hs sk ma Shape.nil mr hsub2 (Or.inl rfl)
    simp only [Shape.ptr_nil, if_true] at hrecf hdescf
    obtain ⟨pcf, hpcf, hm1f⟩ := hdescf ps hps
    rw [hpc] at hpcf
    cases hpcf
    rw [hroot1, hm1f, ← hm1] at hrecf
    exact hrecf
  have hpslt : ps < s.mem.length := (List.getElem?_eq_some.mp hpc).1
  obtain ⟨ur', hur'⟩ : ∃ ur', ur' = ur.graft sk mr := ⟨_, rfl⟩
  -- the cell of the removed key after the recursive call
  obtain ⟨c1, hc1, hc1l, hc1r⟩ : ∃ c1, m1[cur]? = some c1 ∧ c1.left = ul.ptr ∧
      c1.right = ur'.ptr := by
    rcases hpsin with ⟨e, hroot⟩ | ⟨hin, hnr⟩
    · subst e
      rw [hcc] at hpc; cases hpc
      have hnlt : ¬ sk < cc.key := by rw [hcck]; exact not_lt.mpr (le_of_lt hksk)
      rw [if_neg hnlt] at hm1
      refine ⟨{ cc with right := mr.ptr }, by rw [hm1, List.getElem?_set_self hcurlt],
        hccl, ?_⟩
      rw [hur', Shape.graft_ptr, hroot, if_pos rfl]
    · have hne : ps ≠ cur := fun e => hcur (e ▸ hin)
      refine ⟨cc, by rw [hm1, List.getElem?_set_ne hne]; exact hcc, hccl, ?_⟩
      rw [hur', Shape.graft_ptr, hnr, if_neg (by simp)]; exact hccr
  obtain ⟨m2, hm2⟩ : ∃ m2, m2 = m1.set cur { c1 with key := sk } := ⟨_, rfl⟩
  have hm2cur : m2[cur]? = some { c1 with key := sk } := by
    rw [hm2, List.getElem?_set_self (by omega)]
  have hother : ∀ a, a ≠ cur → a ≠ ps → m2[a]? = s.mem[a]? := by
    intro a h1 h2
    rw [hm2, List.getElem?_set_ne (Ne.symm h1), hm1, List.getElem?_set_ne (Ne.symm h2)]
  have hpsul : ps ∉ ul.addrs := by
    rcases hpsin with ⟨e, _⟩ | ⟨hin, _⟩
    · rw [e]; exact hcul
    · exact fun h => hculur ps h hin
  have hpssub : ps ∉ (ur.sub sk).addrs := by
    rcases hpsin with ⟨e, _⟩ | ⟨_, hnr⟩
    · rw [e]; exact fun h => hcur (Shape.sub_addrs sk ur cur h)
    · exact parent_not_mem_sub sk ur hrur hsur ps hnr
  have hrur' : Rep m2 ur' := by
    rw [hur']
    apply Rep_graft sk mr _ ur hrur hsur
    · intro a ha _ hne
      apply hother a (fun e => hcur (e ▸ ha))
      rcases hpsin with ⟨e, _⟩ | ⟨_, hnr⟩
      · rw [e]; exact fun e => hcur (e ▸ ha)
      · rw [hnr] at hne; exact fun e => hne (by rw [e])
    · intro pa2 hpa2
      rcases hpsin with ⟨_, hroot⟩ | ⟨hin, hnr⟩
      · rw [hroot] at hpa2; cases hpa2
      · rw [hnr] at hpa2; cases hpa2
        have hne : ps ≠ cur := fun e => hcur (e ▸ hin)
        refine ⟨pc, (if sk < pc.key then { pc with left := mr.ptr }
          else { pc with right := mr.ptr }), hpc, ?_, ?_, ?_⟩
        · rw [hm2, List.getElem?_set_ne (Ne.symm hne), hm1, List.getElem?_set_self hpslt]
        · split_ifs <;> rfl
        · split_ifs <;> exact ⟨rfl, rfl⟩
    · apply Rep_ext mr hrmr
      intro a ha
      have ha' := hmrsub a ha
      apply hother a
      · exact fun e => hcur (Shape.sub_addrs sk ur cur (e ▸ ha'))
      · exact fun e => hpssub (e ▸ ha')
  have hrul' : Rep m2 ul := by
    apply Rep_ext ul hrul
    intro a ha
    exact hother a (fun e => hcul (e ▸ ha)) (fun e => hpsul (e ▸ ha))
  have hru' : Rep m2 (Shape.node cur ul sk ur') :=
    ⟨⟨_, hm2cur, rfl, hc1l, hc1r⟩, hrul', hrur'⟩
  have hpsinsub : ps ∈ (t.sub key).addrs := by
    rw [hsub, Shape.addrs]
    rcases hpsin with ⟨e, _⟩ | ⟨hin, _⟩
    · simp [e]
    · simp [hin]
  have hcurinsub : cur ∈ (t.sub key).addrs := by rw [hsub]; simp [Shape.addrs]
  have hloopsk : removeLoop s.mem sk s.mem.length none s.root = some (some ps, some ma) := by
    have h := removeLoop_eq hw sk t hr s.mem.length none (room_le_length _ _)
    rw [hp, hsub2, hps, Shape.ptr_node] at h
    exact h
  refine ⟨ma, sk, rest, sc, m1, m2, hkeys, hmin, hsc, hsck, hscl, hall, ?_,
    ⟨_, hm2cur, rfl⟩, ps, hloopsk⟩
  intro fuel
  have hnot1 : ¬ (cc.left = none ∧ cc.right = none) := by
    rw [hccl]; exact fun h => hul h.1
  have hyes : cc.left ≠ none ∧ cc.right ≠ none := by
    rw [hccl, hccr]; exact ⟨hul, hur⟩
  have hmin' : getMinKey s.mem s.mem.length cc.right = some (some ma) := by
    rw [hccr]; exact hmin
  have hload : load s.mem (some ma) = some sc := hsc
  unfold remove
  simp only [hloop, hcc, if_neg hnot1, if_pos hyes, hmin', hload, hsck, hall fuel,
    store_eq hc1, hm2]

end scapegoat

namespace scapegoat
variable {K : Type} [LinearOrder K]

theorem WellLinked_nil : WellLinked ([] : List (node K)) := by
  intro a c h
  simp at h

end scapegoat

namespace scapegoat
variable {K : Type} [LinearOrder K]

theorem scenario_low_alpha :
    runCalls stA0 ([42, 27, 3, 1, 2].map Call.insert) = some stA5 := by
  simp only [List.map, runCalls, applyCall, stepA1, stepA2, stepA3, stepA4, stepA5, Option.map]

theorem scenario_default_alpha :
    runCalls stI0 ([42, 27, 3, 1, 2].map Call.insert) = some stI5 := by
  simp only [List.map, runCalls, applyCall, stepI1, stepI2, stepI3, stepI4, stepI5, Option.map]

/-- Claim C11 (the doc comment of New: a higher alpha gives fewer
rebalances) evaluated on the code: with the keys 42, 27, 3, 1, 2 the tree
created with alpha = 1.25 ends with TotalRebalances = 0 and the tree created
with the higher alpha = 1.5 ends with TotalRebalances = 1, so the higher
alpha gives more rebalances. -/
theorem C11_higher_alpha_more_rebalances :
    F64.pos (F64.fin 5 (-2)) = true ∧ F64.lt (F64.fin 5 (-2)) DefaultAlpha = true ∧
      ∃ sa sb sa5 sb5, New Int (F64.fin 5 (-2)) = Except.ok sa ∧
        New Int DefaultAlpha = Except.ok sb ∧
        runCalls sa ([42, 27, 3, 1, 2].map Call.insert) = some sa5 ∧
        runCalls sb ([42, 27, 3, 1, 2].map Call.insert) = some sb5 ∧
        sa5.Stats.TotalRebalances = 0 ∧ sb5.Stats.TotalRebalances = 1 :=
  ⟨by decide, by decide, stA0, stI0, stA5, stI5, rfl, rfl, scenario_low_alpha,
    scenario_default_alpha, rfl, rfl⟩

theorem scenario_alpha_two :
    runCalls stQ0 [Call.insert 5, Call.insert 4, Call.insert 6, Call.remove 6,
      Call.insert 3] = some stQ5 := by
  simp only [runCalls, applyCall, stepQ1, stepQ2, stepQ3, stepQ4, stepQ5, Option.map]

/-- Claim C13. For every well linked memory and every tree t stored in it
(any shape, also empty), flatten returns the cells of t in order, the tree
built from them has the in-order key sequence of t, rebalance returns that
tree, sorted whenever t is sorted, and it returns nil exactly when t is
empty. -/
theorem C13_rebuild_preserves_keys (s : Scapegoat K) (hw : WellLinked s.mem) (t : Shape K)
    (hr : Rep s.mem t) :
    ∃ cells m v, flatten s.mem s.mem.length t.ptr [] = some cells ∧
      cells.map node.key = t.keys ∧
      buildTreeFromSortedList cells cells.length s.mem 0 ((cells.length : Int) - 1) =
        some (m, v.ptr) ∧
      rebalance s t.ptr =
        some ({ s with
          mem := m,
          Stats := { s.Stats with TotalRebalances := s.Stats.TotalRebalances + 1 } }, v.ptr) ∧
      Rep m v ∧ v.keys = t.keys ∧ (t.keys.Sorted (· < ·) → v.keys.Sorted (· < ·)) ∧
      (v.ptr = none ↔ t.ptr = none) := by
  obtain ⟨cells, m, v, e1, e2, e3, e4, _, e6, _, _, _, e10, e11, _⟩ :=
    rebalance_shape s hw t hr
  refine ⟨cells, m, v, e1, e2, e3, e4, e6, e10, fun h => by rw [e10]; exact h, ?_⟩
  rw [Shape.ptr_eq_none, Shape.ptr_eq_none]
  constructor
  · intro h
    rw [h] at e11
    cases t with
    | nil => rfl
    | node a l k r => simp only [Shape.size] at e11; omega
  · intro h
    rw [h] at e11
    cases v with
    | nil => rfl
    | node a l k r => simp only [Shape.size] at e11; omega

theorem C13_witness :
    WellLinked stI4.mem ∧ Rep stI4.mem shI4 ∧
      ∃ cells m v, flatten stI4.mem stI4.mem.length shI4.ptr [] = some cells ∧
        cells.map node.key = shI4.keys ∧
        buildTreeFromSortedList cells cells.length stI4.mem 0 ((cells.length : Int) - 1) =
          some (m, v.ptr) ∧
        rebalance stI4 shI4.ptr =
          some ({ stI4 with
            mem := m,
            Stats := { stI4.Stats with
              TotalRebalances := stI4.Stats.TotalRebalances + 1 } }, v.ptr) ∧
        Rep m v ∧ v.keys = shI4.keys ∧
        (shI4.keys.Sorted (· < ·) → v.keys.Sorted (· < ·)) ∧
        (v.ptr = none ↔ shI4.ptr = none) :=
  ⟨reachI4.inv.1, rep_shI4, C13_rebuild_preserves_keys stI4 reachI4.inv.1 shI4 rep_shI4⟩

/-- Claim C14. In every reachable state n <= q and q/2 <= n (integer
division), and n is the number of cells reachable from the root, as counted
by sizeOfSubtree. -/
theorem C14_count_invariant (s : Scapegoat K) (hs : Reachable s) :
    s.n ≤ s.q ∧ s.q.tdiv 2 ≤ s.n ∧
      ∃ cnt, sizeOfSubtree s.mem s.mem.length s.root = some cnt ∧ s.n = cnt := by
  obtain ⟨hw, t, hr, hp, _, hn, hq1, hq2⟩ := hs.inv
  refine ⟨hq2, hq1, t.size, ?_, hn⟩
  rw [← hp]
  exact sizeOfSubtree_eq hw t hr s.mem.length (room_le_length _ _)

theorem C14_witness :
    stR8.n ≤ stR8.q ∧ stR8.q.tdiv 2 ≤ stR8.n ∧
      ∃ cnt, sizeOfSubtree stR8.mem stR8.mem.length stR8.root = some cnt ∧ stR8.n = cnt :=
  C14_count_invariant stR8 reachR8

/-- Claim C15 fails as stated: with alpha = 2, after insert 5, 4, 6, remove 6,
insert 3 (n = 3, q = 4) the Insert of 2 performs a rebuild and ends with
n = 4 and q = 5. -/
theorem C15_counterexample :
    New Int (F64.fin 1 1) = Except.ok stQ0 ∧
      runCalls stQ0 [Call.insert 5, Call.insert 4, Call.insert 6, Call.remove 6,
        Call.insert 3] = some stQ5 ∧
      Reachable stQ5 ∧ Insert stQ5 2 = some (stQ6, none) ∧
      stQ6.Stats.TotalRebalances = stQ5.Stats.TotalRebalances + 1 ∧
      stQ6.Stats.TotalRebalancesAfterInsert = stQ5.Stats.TotalRebalancesAfterInsert + 1 ∧
      stQ6.n = 4 ∧ stQ6.q = 5 ∧ stQ6.q ≠ stQ6.n :=
  ⟨rfl, scenario_alpha_two, reachQ5, stepQ6, rfl, rfl, rfl, rfl, by decide⟩

/-- Claim C15, amended. In every reachable state, a Remove that performed a
rebuild ends with q = n; an Insert that performed a rebuild does not reset q:
n and q are each one larger than before the call. -/
theorem C15_q_after_rebuild (s : Scapegoat K) (hs : Reachable s) (k : K) :
    (∀ s1 b, Remove s k = some (s1, b) →
        s1.Stats.TotalRebalances ≠ s.Stats.TotalRebalances → s1.q = s1.n) ∧
      (∀ s1 e, Insert s k = some (s1, e) →
        s1.Stats.TotalRebalances ≠ s.Stats.TotalRebalances →
        s1.q = s.q + 1 ∧ s1.n = s.n + 1) := by
  have hinv := hs.inv
  constructor
  · intro s1 b hrem hne
    by_cases hk : k ∈ keys s
    · obtain ⟨s2, e1, _, _, e4, _, e6, e7⟩ := (Remove_ok s hinv k).2 hk
      rw [e1] at hrem
      cases hrem
      by_cases hc : s.n - 1 ≤ s.q.tdiv 2
      · rw [e6, e4, if_pos hc]
      · exfalso
        apply hne
        rw [e7]
        simp [statsAfterRemove, hc]
    · rw [(Remove_ok s hinv k).1 hk] at hrem
      cases hrem
      exact absurd rfl hne
  · intro s1 e hins hne
    by_cases hk : k ∈ keys s
    · rw [(Insert_ok s hinv k).1 hk] at hins
      cases hins
      exact absurd rfl hne
    · obtain ⟨s2, e1, _, _, e4, e5, _⟩ := (Insert_ok s hinv k).2 hk
      rw [e1] at hins
      cases hins
      exact ⟨e5, e4⟩

theorem C15_witness :
    (∀ s1 b, Remove stQ5 2 = some (s1, b) →
        s1.Stats.TotalRebalances ≠ stQ5.Stats.TotalRebalances → s1.q = s1.n) ∧
      (∀ s1 e, Insert stQ5 2 = some (s1, e) →
        s1.Stats.TotalRebalances ≠ stQ5.Stats.TotalRebalances →
        s1.q = stQ5.q + 1 ∧ s1.n = stQ5.n + 1) :=
  C15_q_after_rebuild stQ5 reachQ5 2

end scapegoat

namespace scapegoat
variable {K : Type} [LinearOrder K]

/-- Claim C16 fails as stated: the tree built from three cells has height 1
in edges (a root with two leaves), while ceil(log2(3)) = 2. -/
theorem C16_counterexample :
    buildTreeFromSortedList cells123 cells123.length [] 0 ((cells123.length : Int) - 1) =
        some ([⟨some 1, some 2, none, 2⟩, ⟨none, none, none, 1⟩, ⟨none, none, none, 3⟩],
          some 0) ∧
      levels [(⟨some 1, some 2, none, 2⟩ : node Int), ⟨none, none, none, 1⟩,
        ⟨none, none, none, 3⟩] 3 (some 0) - 1 = 1 ∧
      Nat.clog 2 cells123.length = 2 :=
  ⟨by decide, by decide, by simp [cells123, Nat.clog]⟩

/-- Claim C16, amended. For every non-empty sequence of cells,
buildTreeFromSortedList over the whole sequence returns a tree whose height,
in edges on the longest path from the root to a leaf, is floor(log2(size)). -/
theorem C16_built_height_floor_log (nodes mem : List (node K)) (hw : WellLinked mem)
    (hne : nodes ≠ []) :
    ∃ m p, buildTreeFromSortedList nodes nodes.length mem 0 ((nodes.length : Int) - 1) =
        some (m, p) ∧
      levels m m.length p - 1 = Nat.log 2 nodes.length := by
  have hpos : 0 < nodes.length := List.length_pos.mpr hne
  obtain ⟨m, u, e1, e2, e3, _, _, _, _, _, _, e10, _⟩ :=
    build_shape nodes nodes.length mem 0 nodes.length (le_refl _) (by omega) hw
  refine ⟨m, u.ptr, ?_, ?_⟩
  · rw [← e1]
    simp
  · rw [levels_eq e2 u e3 m.length (room_le_length _ _), e10, if_neg (by omega)]
    rfl

theorem C16_witness :
    ∃ m p, buildTreeFromSortedList cells123 cells123.length [] 0
        ((cells123.length : Int) - 1) = some (m, p) ∧
      levels m m.length p - 1 = Nat.log 2 cells123.length :=
  C16_built_height_floor_log cells123 [] WellLinked_nil (by decide)

/-- Claim C17. For every sequence of cells and every range
0 <= lo <= hi < len, buildTreeFromSortedList over the range returns a tree
whose root holds the key of the cell at index lo + (hi - lo) / 2, and at
every node of it the sizes L and R of the left and right subtrees satisfy
L <= R <= L + 1. -/
theorem C17_lower_middle_split (nodes mem : List (node K)) (hw : WellLinked mem)
    (lo hi : Nat) (h1 : lo ≤ hi) (h2 : hi < nodes.length) (fuel : Nat)
    (hf : hi - lo + 1 ≤ fuel) :
    ∃ m a l k r c, buildTreeFromSortedList nodes fuel mem (lo : Int) (hi : Int) =
        some (m, some a) ∧
      Rep m (Shape.node a l k r) ∧ nodes[lo + (hi - lo) / 2]? = some c ∧ c.key = k ∧
      (Shape.node a l k r).SizeBalanced ∧
      (Shape.node a l k r).keys = ((nodes.drop lo).take (hi - lo + 1)).map node.key := by
  obtain ⟨m, u, e1, _, e3, _, _, _, e7, e8, e9, _, e11⟩ :=
    build_shape nodes fuel mem lo (hi - lo + 1) hf (by omega) hw
  have hidx : (lo : Int) + ((hi - lo + 1 : Nat) : Int) - 1 = (hi : Int) := by omega
  rw [hidx] at e1
  cases u with
  | nil => simp only [Shape.size] at e8; omega
  | node a l k r =>
    obtain ⟨c, hc, hck⟩ := e11 a l k r rfl
    have hmid : lo + (hi - lo + 1 - 1) / 2 = lo + (hi - lo) / 2 := by
      rw [Nat.add_sub_cancel]
    rw [hmid] at hc
    exact ⟨m, a, l, k, r, c, e1, e3, hc, hck, e9, e7⟩

theorem C17_witness :
    ∃ m a l k r c, buildTreeFromSortedList cells123 3 [] ((0 : Nat) : Int) ((2 : Nat) : Int) =
        some (m, some a) ∧
      Rep m (Shape.node a l k r) ∧ cells123[0 + (2 - 0) / 2]? = some c ∧ c.key = k ∧
      (Shape.node a l k r).SizeBalanced ∧
      (Shape.node a l k r).keys = ((cells123.drop 0).take (2 - 0 + 1)).map node.key :=
  C17_lower_middle_split cells123 [] WellLinked_nil 0 2 (by decide) (by decide) 3 (by decide)

theorem scenario_stale_parent :
    runCalls stI0 [Call.insert 42, Call.insert 27, Call.insert 3, Call.remove 27] =
      some stB1 := by
  simp only [runCalls, applyCall, stepI1, stepI2, stepI3, stepB1, Option.map]

/-- Claim C19 evaluated on the code: after New(1.5), Insert 42, 27, 3 and
Remove(27) the cell of key 3 is the left child of the root cell 0, but its
parent field still names the unlinked cell 1 of key 27, so the parent fields
do not match the child links. -/
theorem C19_stale_parent_after_remove :
    New Int DefaultAlpha = Except.ok stI0 ∧
      runCalls stI0 [Call.insert 42, Call.insert 27, Call.insert 3, Call.remove 27] =
        some stB1 ∧
      Reachable stB1 ∧ stB1.root = some 0 ∧
      (stB1.mem[0]?).map node.left = some (some 2) ∧
      (stB1.mem[2]?).map node.parent = some (some 1) ∧
      (stB1.mem[2]?).map node.key = some 3 ∧
      parentsOK stB1.mem stB1.mem.length stB1.root none = false :=
  ⟨rfl, scenario_stale_parent, reachB1, rfl, rfl, rfl, rfl, by decide⟩

/-- Claim C20. In every reachable state, for a key k stored at a cell with
two children, getMinKey finds the cell with the least key of the right
subtree (the in-order successor), that cell has no left child, the search
loop of the recursive call of remove stops at that cell, the recursive call
succeeds without any further recursive call
(recursion budget 0), so remove(k) succeeds with one nested call (budget 1,
and the same result with any larger budget), Remove returns true, and the
cell that held k ends up holding the successor key. -/
theorem C20_two_child_removal (s : Scapegoat K) (hs : Reachable s) (k : K) (t : Shape K)
    (hr : Rep s.mem t) (hp : t.ptr = s.root) (cur : Nat) (ul ur : Shape K)
    (hsub : t.sub k = Shape.node cur ul k ur) (hul : ul.ptr ≠ none) (hur : ur.ptr ≠ none) :
    ∃ ma sk rest sc s0 s1 s2, ur.keys = sk :: rest ∧
      getMinKey s.mem s.mem.length ur.ptr = some (some ma) ∧ s.mem[ma]? = some sc ∧
      sc.key = sk ∧ sc.left = none ∧
      (∃ par, removeLoop s.mem sk s.mem.length none s.root = some (par, some ma)) ∧
      remove 0 s sk = some (s0, true) ∧
      (∀ fuel, remove (fuel + 1) s k = some (s1, true)) ∧
      (∃ c, s1.mem[cur]? = some c ∧ c.key = sk) ∧
      Remove s k = some (s2, true) ∧ ∃ c, s2.mem[cur]? = some c ∧ c.key = sk := by
  obtain ⟨hw, t0, hr0, hp0, hs0, hn, hq1, hq2⟩ := hs.inv
  have ht : t = t0 := Rep_unique t t0 hr hr0 (hp.trans hp0.symm)
  subst ht
  obtain ⟨ma, sk, rest, sc, m1, m', e1, e2, e3, e4, e5, e6, e7, ⟨c, e8, e9⟩, ps, e10⟩ :=
    remove_two_detail s hw t hr hp hs0 k cur ul ur hsub hul hur
  have hk : k ∈ t.keys := by
    apply (Shape.sub_isSome_iff k t hs0).mp
    rw [hsub]
    rfl
  have hcur : cur < m'.length := (List.getElem?_eq_some.mp e8).1
  obtain ⟨fuel, hfuel⟩ : ∃ f, s.mem.length = f + 1 := by
    have hsubrep : Rep s.mem (Shape.node cur ul k ur) := hsub ▸ Rep_sub k t hr
    have := Rep_addr_lt _ hsubrep cur (by simp [Shape.addrs])
    exact ⟨s.mem.length - 1, by omega⟩
  obtain ⟨m2, t1, h1, h2, h3, h4, _⟩ := remove_present fuel s hw t hr hp hs0 k hk
  have hm : m2 = m' ∧ t1.ptr = s.root := by
    have := (e7 fuel).symm.trans h1
    simp only [Option.some.injEq, Prod.mk.injEq, and_true] at this
    have hmem := congrArg Scapegoat.mem this
    have hroot := congrArg Scapegoat.root this
    exact ⟨hmem.symm, hroot.symm⟩
  obtain ⟨hm1, hm2⟩ := hm
  subst hm1
  have hrem := e7 fuel
  rw [← hfuel] at hrem
  by_cases hcond : s.n - 1 ≤ s.q.tdiv 2
  · obtain ⟨m3, v, f1, _, _, _, f5, _⟩ := rebalance_spec
      { s with
        mem := m2,
        Stats := { s.Stats with
          TotalRemovals := s.Stats.TotalRemovals + 1,
          TotalRebalancesAfterRemove := s.Stats.TotalRebalancesAfterRemove + 1 },
        n := s.n - 1 } h3 t1 h4
    rw [hm2] at f1
    refine ⟨ma, sk, rest, sc, _, _,
      ⟨m3, v.ptr, s.alpha, s.n - 1, s.n - 1, statsAfterRemove s.Stats true⟩,
      e1, e2, e3, e4, e5, ⟨_, e10⟩, e6 0, e7, ⟨c, e8, e9⟩, ?_, c, ?_, e9⟩
    · simp only [Remove, hrem, hcond, if_true, f1]
      rfl
    · show m3[cur]? = some c
      rw [f5 cur hcur]
      exact e8
  · refine ⟨ma, sk, rest, sc, _, _,
      ⟨m2, s.root, s.alpha, s.n - 1, s.q, statsAfterRemove s.Stats false⟩,
      e1, e2, e3, e4, e5, ⟨_, e10⟩, e6 0, e7, ⟨c, e8, e9⟩, ?_, c, e8, e9⟩
    simp only [Remove, hrem, hcond, if_false]
    rfl

theorem rep_shT3 : Rep stT3.mem shT3 :=
  ⟨⟨_, rfl, rfl, rfl, rfl⟩, ⟨⟨_, rfl, rfl, rfl, rfl⟩, trivial, trivial⟩,
    ⟨⟨_, rfl, rfl, rfl, rfl⟩, trivial, trivial⟩⟩

theorem C20_witness :
    ∃ ma sk rest sc s0 s1 s2,
      (Shape.node 2 Shape.nil (3 : Int) Shape.nil).keys = sk :: rest ∧
      getMinKey stT3.mem stT3.mem.length (Shape.node 2 Shape.nil (3 : Int) Shape.nil).ptr =
        some (some ma) ∧
      stT3.mem[ma]? = some sc ∧ sc.key = sk ∧ sc.left = none ∧
      (∃ par, removeLoop stT3.mem sk stT3.mem.length none stT3.root = some (par, some ma)) ∧
      remove 0 stT3 sk = some (s0, true) ∧
      (∀ fuel, remove (fuel + 1) stT3 2 = some (s1, true)) ∧
      (∃ c, s1.mem[0]? = some c ∧ c.key = sk) ∧
      Remove stT3 2 = some (s2, true) ∧ ∃ c, s2.mem[0]? = some c ∧ c.key = sk :=
  C20_two_child_removal stT3 reachT3 2 shT3 rep_shT3 rfl 0
    (Shape.node 1 Shape.nil 1 Shape.nil) (Shape.node 2 Shape.nil 3 Shape.nil)
    (by simp [shT3, Shape.sub]) (by decide) (by decide)

end scapegoat
